import Mathlib

/-!
Verification development for the simweb discrete-event web-server simulator
(src/simweb/simulation.py, src/simweb/samplers.py, src/simweb/entities.py).

The generator-based SimPy program is shallowly embedded as an explicit
state machine driven by a virtual-time event queue, exactly as the spec's
own design notes prescribe for reimplementations ("Cooperative generators
-> explicit state machines").  Times are rationals.  The single seeded RNG
of the source is embedded as a stream of rationals consumed in program
order; the distribution transforms (numpy exponential / lognormal, which
involve transcendental functions) are abstracted as parameters applied to
one raw draw per sampler call, which preserves everything the claims
depend on: the number of draws per call, the order of the draws, and the
sign of the sampled values.
-/

namespace Simweb

abbrev Time := ℚ

/-- Status encoding from STATUS_MAP in simulation.py: 0=completed,
1=timeout, 2=dropped (entities.RequestStatus). -/
def statusCompleted : ℕ := 0

def statusTimeout : ℕ := 1

def statusDropped : ℕ := 2

/-- One output row, matching the column stores req_ids / arrivals /
finishes / latencies / statuses appended by the simulation. -/
structure ReqRecord where
  req_id : ℕ
  arrival_time : Time
  finish_time : Time
  latency_ms : Time
  status : ℕ
  deriving DecidableEq, Repr

/-- Tag remembering which sampler consumed an RNG draw: arrD for an
inter-arrival draw (arrival_times()), cpuD / splitD / ioD for the three
draws at the top of the service() closure in _request_process. -/
inductive DrawTag
  | arrD
  | cpuD (pid : ℕ)
  | splitD (pid : ℕ)
  | ioD (pid : ℕ)
  deriving DecidableEq, Repr

/-- Control location of one request's service generator.  The source's
generator suspension points become explicit phases:
created = service() spawned but its first step not yet run;
wWait1 = suspended in worker_pool queue (initial acquire);
wGrant1 = a released worker slot was handed to this waiter, resumption
event pending; cpuPreP = holding the cpu_pre timer; ioWaitP = suspended in
io_pool queue; ioGrant = io slot handed over, resumption pending;
ioP = holding the io_wait timer; wWait2 / wGrant2 = async re-acquire of the
worker for cpu_post; cpuPostP = holding the cpu_post timer;
doneP = service returned; deadP = service interrupted and unwound. -/
inductive Phase
  | created
  | wWait1
  | wGrant1
  | cpuPreP
  | ioWaitP
  | ioGrant
  | ioP
  | wWait2
  | wGrant2
  | cpuPostP
  | doneP
  | deadP
  deriving DecidableEq, Repr

/-- Per-request state: the local variables of _request_process and of the
service discipline generator.  wHeld / ioHeld are the scoped acquisitions
(the `with pool.request()` blocks); recorded and racerDone are the
`recorded` flag and the termination of the _request_process generator
(which is when wrap_request decrements in_system). -/
structure Proc where
  pid : ℕ
  arrival : Time
  cpuPre : Time
  cpuPost : Time
  ioW : Time
  phase : Phase
  wHeld : Bool
  ioHeld : Bool
  recorded : Bool
  racerDone : Bool
  deriving DecidableEq, Repr

/-- Pending event targets.  arrivalWake resumes the arrival loop after its
inter-arrival timeout; startRequest / startService are the scheduled first
steps (SimPy Initialize) of wrap_request and service(); svcStep resumes a
service generator (a timer elapsed or a granted resource slot); raceTimeout
is the timeout_evt of the svc_proc | timeout_evt race; svcDone resumes the
racer when the service process completes. -/
inductive EvKind
  | arrivalWake
  | startRequest (pid : ℕ)
  | startService (pid : ℕ)
  | svcStep (pid : ℕ)
  | raceTimeout (pid : ℕ)
  | svcDone (pid : ℕ)
  deriving DecidableEq, Repr

/-- A scheduled event: (time, priority, sequence number) key as in the
spec's scheduler contract; prio 0 is URGENT (process initialization /
interrupts), prio 1 is NORMAL (timeouts, resource grants, completions). -/
structure Ev where
  time : Time
  prio : ℕ
  seq : ℕ
  kind : EvKind
  deriving DecidableEq, Repr

/-- Lexicographic order on event keys (time, then priority, then sequence
number): the min-priority-queue order of the scheduler. -/
def evLe (a b : Ev) : Prop :=
  a.time < b.time ∨
    (a.time = b.time ∧ (a.prio < b.prio ∨ (a.prio = b.prio ∧ a.seq ≤ b.seq)))

instance (a b : Ev) : Decidable (evLe a b) := by
  unfold evLe
  exact inferInstance

/-- Ordered insertion into the event list (stable priority queue). -/
def insertEv (e : Ev) : List Ev → List Ev
  | [] => [e]
  | x :: xs => if evLe e x then e :: x :: xs else x :: insertEv e xs

/-- Run-time configuration as consumed by the processes (after setup):
worker capacity is already collapsed to 1 for async mode as in
simulate_server (num_threads = 1 if is_async else thread_count). -/
structure Config where
  isAsync : Bool
  workerCap : ℕ
  ioCap : ℕ
  queueLimit : ℕ
  timeoutMs : Time
  warmupMs : Time
  simTimeMs : Time
  cpuOf : ℚ → ℚ
  ioOf : ℚ → ℚ
  arrOf : ℚ → ℚ

/-- Whole simulation state at an event boundary. -/
structure Sim where
  now : Time
  nextSeq : ℕ
  events : List Ev
  wQueue : List ℕ
  ioQueue : List ℕ
  nextReqId : ℕ
  procs : List Proc
  rngIdx : ℕ
  records : List ReqRecord
  draws : List DrawTag
  err : Bool
  deriving Repr

/-- Schedule an event at an absolute time. -/
def sched (s : Sim) (t : Time) (prio : ℕ) (k : EvKind) : Sim :=
  { s with events := insertEv ⟨t, prio, s.nextSeq, k⟩ s.events,
           nextSeq := s.nextSeq + 1 }

/-- Schedule after a delay; a negative delay is the fatal
"scheduling an event in the past" condition (SimPy raises ValueError on a
negative timeout), modelled as the error state that aborts the run. -/
def schedDelay (s : Sim) (d : Time) (prio : ℕ) (k : EvKind) : Sim :=
  if d < 0 then { s with err := true } else sched s (s.now + d) prio k

/-- Consume one RNG draw, remembering which sampler consumed it. -/
def draw (stream : ℕ → ℚ) (s : Sim) (tag : DrawTag) : ℚ × Sim :=
  (stream s.rngIdx,
   { s with rngIdx := s.rngIdx + 1, draws := s.draws ++ [tag] })

/-- Update the (unique) process with the given id. -/
def updProc (pid : ℕ) (f : Proc → Proc) (ps : List Proc) : List Proc :=
  ps.map fun p => if p.pid = pid then f p else p

def findProc (pid : ℕ) (ps : List Proc) : Option Proc :=
  ps.find? fun p => p.pid = pid

/-- Number of processes currently holding a worker slot: the in_use count
of worker_pool (SimPy's Resource.count is the length of its users list). -/
def wCount (ps : List Proc) : ℕ := ps.countP fun p => p.wHeld

/-- Number of processes currently holding an io slot. -/
def ioCount (ps : List Proc) : ℕ := ps.countP fun p => p.ioHeld

/-- Number of admitted requests whose wrap_request generator has not yet
finished: the in_system counter of _arrival_process. -/
def inSystem (ps : List Proc) : ℕ := ps.countP fun p => !p.racerDone

/-- Phase a waiter moves to when a released worker slot is handed to it. -/
def grantPhase : Phase → Phase
  | .wWait1 => .wGrant1
  | .wWait2 => .wGrant2
  | ph => ph

/-- Release of a worker slot (exit of a `with worker_pool.request()`
block): the holder stops holding; if the FIFO wait queue is non-empty its
head is granted the slot at the current time (net-neutral in_use, as the
spec's release contract requires) and its resumption is scheduled. -/
def wRelease (s : Sim) (holder : ℕ) : Sim :=
  let s1 : Sim :=
    { s with procs := updProc holder (fun p => { p with wHeld := false }) s.procs }
  match s1.wQueue with
  | [] => s1
  | h :: t =>
      let ps := updProc h (fun p => { p with wHeld := true, phase := grantPhase p.phase }) s1.procs
      sched { s1 with wQueue := t, procs := ps } s1.now 1 (.svcStep h)

/-- Release of an io slot (exit of a `with io_pool.request()` block). -/
def ioRelease (s : Sim) (holder : ℕ) : Sim :=
  let s1 : Sim :=
    { s with procs := updProc holder (fun p => { p with ioHeld := false }) s.procs }
  match s1.ioQueue with
  | [] => s1
  | h :: t =>
      let ps := updProc h (fun p => { p with ioHeld := true, phase := .ioGrant }) s1.procs
      sched { s1 with ioQueue := t, procs := ps } s1.now 1 (.svcStep h)

/-- End of the service generator (lines 143-158 of simulation.py): under
sync the worker slot is released by the closing `with` block, then the
completed record is appended iff arrival_time >= warmup_ms and the request
was not already recorded; finally the process completion resumes the
racer. -/
def finishSvc (cfg : Config) (s : Sim) (pid : ℕ) : Sim :=
  let s1 : Sim := if cfg.isAsync then s else wRelease s pid
  match findProc pid s1.procs with
  | none => s1
  | some p =>
      let s2 : Sim :=
        if cfg.warmupMs ≤ p.arrival ∧ p.recorded = false then
          let rec1 : ReqRecord := ⟨p.pid, p.arrival, s1.now, s1.now - p.arrival, statusCompleted⟩
          let ps := updProc pid (fun q => { q with recorded := true }) s1.procs
          { s1 with records := s1.records ++ [rec1], procs := ps }
        else s1
      let s3 : Sim :=
        { s2 with procs := updProc pid (fun q => { q with phase := .doneP }) s2.procs }
      sched s3 s3.now 1 (.svcDone pid)

/-- The cpu_post stage: sync still holds its worker and just waits; async
re-acquires the worker (possibly queueing) before the cpu_post wait.  A
zero cpu_post is skipped with no acquisition. -/
def postStage (cfg : Config) (s : Sim) (pid : ℕ) : Sim :=
  match findProc pid s.procs with
  | none => s
  | some p =>
      if 0 < p.cpuPost then
        if cfg.isAsync then
          if wCount s.procs < cfg.workerCap then
            let ps := updProc pid (fun q => { q with wHeld := true, phase := .cpuPostP }) s.procs
            schedDelay { s with procs := ps } p.cpuPost 1 (.svcStep pid)
          else
            let ps := updProc pid (fun q => { q with phase := .wWait2 }) s.procs
            { s with procs := ps, wQueue := s.wQueue ++ [pid] }
        else
          let ps := updProc pid (fun q => { q with phase := .cpuPostP }) s.procs
          schedDelay { s with procs := ps } p.cpuPost 1 (.svcStep pid)
      else finishSvc cfg s pid

/-- The io stage: a zero io_wait is skipped with no acquisition; otherwise
the io slot is acquired (immediately or through the FIFO queue) and the
io_wait timer runs. -/
def ioStage (cfg : Config) (s : Sim) (pid : ℕ) : Sim :=
  match findProc pid s.procs with
  | none => s
  | some p =>
      if 0 < p.ioW then
        if ioCount s.procs < cfg.ioCap then
          let ps := updProc pid (fun q => { q with ioHeld := true, phase := .ioP }) s.procs
          schedDelay { s with procs := ps } p.ioW 1 (.svcStep pid)
        else
          let ps := updProc pid (fun q => { q with phase := .ioWaitP }) s.procs
          { s with procs := ps, ioQueue := s.ioQueue ++ [pid] }
      else postStage cfg s pid

/-- Continuation after the initial worker acquisition (sync head of
_sync_service; async cpu_pre block): run the cpu_pre timer if positive,
else fall through to the io stage (only reachable with cpu_pre = 0 in
sync mode, where the worker stays held). -/
def afterWorkerPre (cfg : Config) (s : Sim) (pid : ℕ) : Sim :=
  match findProc pid s.procs with
  | none => s
  | some p =>
      if 0 < p.cpuPre then
        let ps := updProc pid (fun q => { q with phase := .cpuPreP }) s.procs
        schedDelay { s with procs := ps } p.cpuPre 1 (.svcStep pid)
      else ioStage cfg s pid

/-- Initial worker acquisition (the `with worker_pool.request()` at the
top of _sync_service, or around cpu_pre in _async_service). -/
def acquireWorkerPre (cfg : Config) (s : Sim) (pid : ℕ) : Sim :=
  if wCount s.procs < cfg.workerCap then
    afterWorkerPre cfg
      { s with procs := updProc pid (fun p => { p with wHeld := true }) s.procs }
      pid
  else
    let ps := updProc pid (fun p => { p with phase := .wWait1 }) s.procs
    { s with procs := ps, wQueue := s.wQueue ++ [pid] }

/-- First step of the service() closure (lines 126-142): the three RNG
draws (cpu total, uniform split, io wait) in program order, then entry
into the chosen service discipline.  _async_service skips the initial
worker acquisition when cpu_pre = 0. -/
def handleStartService (cfg : Config) (stream : ℕ → ℚ) (s : Sim) (pid : ℕ) : Sim :=
  match findProc pid s.procs with
  | none => s
  | some p0 =>
      if p0.phase ≠ Phase.created then s else
      let u1s := draw stream s (.cpuD pid)
      let totalCpu := cfg.cpuOf u1s.1
      let u2s := draw stream u1s.2 (.splitD pid)
      let split := u2s.1
      let u3s := draw stream u2s.2 (.ioD pid)
      let ioWait := cfg.ioOf u3s.1
      let setDraws : Proc → Proc := fun p =>
        { p with cpuPre := totalCpu * split, cpuPost := totalCpu * (1 - split), ioW := ioWait }
      let s1 : Sim := { u3s.2 with procs := updProc pid setDraws u3s.2.procs }
      if cfg.isAsync then
        match findProc pid s1.procs with
        | none => s1
        | some p => if 0 < p.cpuPre then acquireWorkerPre cfg s1 pid else ioStage cfg s1 pid
      else acquireWorkerPre cfg s1 pid

/-- Resumption of a service generator, dispatched on its phase: a granted
slot continues past the corresponding acquire; an elapsed timer continues
past the corresponding wait (releasing slots exactly where the source's
`with` blocks close).  Stale events aimed at a terminated process do
nothing. -/
def handleSvcStep (cfg : Config) (s : Sim) (pid : ℕ) : Sim :=
  match findProc pid s.procs with
  | none => s
  | some p =>
      match p.phase with
      | .wGrant1 => afterWorkerPre cfg s pid
      | .cpuPreP =>
          if cfg.isAsync then ioStage cfg (wRelease s pid) pid
          else ioStage cfg s pid
      | .ioGrant =>
          let s1 : Sim :=
            { s with procs := updProc pid (fun q => { q with phase := .ioP }) s.procs }
          schedDelay s1 p.ioW 1 (.svcStep pid)
      | .ioP => postStage cfg (ioRelease s pid) pid
      | .wGrant2 =>
          let s1 : Sim :=
            { s with procs := updProc pid (fun q => { q with phase := .cpuPostP }) s.procs }
          schedDelay s1 p.cpuPost 1 (.svcStep pid)
      | .cpuPostP =>
          if cfg.isAsync then finishSvc cfg (wRelease s pid) pid
          else finishSvc cfg s pid
      | _ => s

/-- svc_proc.interrupt("timeout"): a still-running service process is
removed from any resource wait queue and unwinds, releasing held slots via
its scoped `with` blocks; interrupting an already finished process is the
RuntimeError that _request_process swallows, a no-op. -/
def interruptSvc (s : Sim) (pid : ℕ) : Sim :=
  match findProc pid s.procs with
  | none => s
  | some p =>
      if p.phase = .doneP ∨ p.phase = .deadP then s
      else
        let s1 : Sim :=
          { s with wQueue := s.wQueue.filter (fun q => q ≠ pid),
                   ioQueue := s.ioQueue.filter (fun q => q ≠ pid) }
        let s2 : Sim := if p.ioHeld then ioRelease s1 pid else s1
        let s3 : Sim := if p.wHeld then wRelease s2 pid else s2
        { s3 with procs := updProc pid (fun q => { q with phase := .deadP }) s3.procs }

/-- The timeout_evt branch of the race (lines 161-174): if the racer is
still waiting and the request is unrecorded, append the timeout record
(latency = timeout_ms) iff arrival_time >= warmup_ms, interrupt the
service process, and mark the request recorded; in every live case the
racer's generator then finishes (wrap_request decrements in_system). -/
def handleRaceTimeout (cfg : Config) (s : Sim) (pid : ℕ) : Sim :=
  match findProc pid s.procs with
  | none => s
  | some p =>
      if p.racerDone then s
      else
        let s1 : Sim :=
          if p.recorded = false then
            let rec1 : ReqRecord := ⟨p.pid, p.arrival, s.now, cfg.timeoutMs, statusTimeout⟩
            let sa : Sim :=
              if cfg.warmupMs ≤ p.arrival then { s with records := s.records ++ [rec1] }
              else s
            let sb : Sim := interruptSvc sa pid
            { sb with procs := updProc pid (fun q => { q with recorded := true }) sb.procs }
          else s
        { s1 with procs := updProc pid (fun q => { q with racerDone := true }) s1.procs }

/-- Completion of the service process resumes the racer, whose generator
then finishes (timeout_evt is not in the condition result). -/
def handleSvcDone (s : Sim) (pid : ℕ) : Sim :=
  match findProc pid s.procs with
  | none => s
  | some p =>
      if p.racerDone then s
      else { s with procs := updProc pid (fun q => { q with racerDone := true }) s.procs }

/-- First step of wrap_request / _request_process (lines 123, 158-160):
arrival_time is the current time (already stored at spawn, same instant),
the service sub-process is spawned, and if timeout_ms > 0 the race timer
is started.  With timeout_ms <= 0 no timer exists. -/
def handleStartRequest (cfg : Config) (s : Sim) (pid : ℕ) : Sim :=
  match findProc pid s.procs with
  | none => s
  | some _ =>
      let s1 : Sim := sched s s.now 0 (.startService pid)
      if 0 < cfg.timeoutMs then sched s1 (s1.now + cfg.timeoutMs) 1 (.raceTimeout pid)
      else s1

/-- One iteration of the arrival loop after its inter-arrival timer fires
(lines 202-241): on overload append the dropped record unconditionally
(no warmup test) and do not enter service; otherwise create the request
process (its first step scheduled at the current instant); in both cases
sample the next inter-arrival and restart the timer. -/
def handleArrivalWake (cfg : Config) (stream : ℕ → ℚ) (s : Sim) : Sim :=
  let s1 : Sim :=
    if cfg.workerCap + cfg.queueLimit ≤ inSystem s.procs then
      let rec1 : ReqRecord := ⟨s.nextReqId + 1, s.now, s.now, 0, statusDropped⟩
      { s with nextReqId := s.nextReqId + 1, records := s.records ++ [rec1] }
    else
      let pid := s.nextReqId + 1
      let newP : Proc := ⟨pid, s.now, 0, 0, 0, .created, false, false, false, false⟩
      let sa : Sim := { s with nextReqId := pid, procs := s.procs ++ [newP] }
      sched sa sa.now 0 (.startRequest pid)
  let us := draw stream s1 .arrD
  schedDelay us.2 (cfg.arrOf us.1) 1 .arrivalWake

/-- Event dispatch. -/
def dispatch (cfg : Config) (stream : ℕ → ℚ) (s : Sim) : EvKind → Sim
  | .arrivalWake => handleArrivalWake cfg stream s
  | .startRequest pid => handleStartRequest cfg s pid
  | .startService pid => handleStartService cfg stream s pid
  | .svcStep pid => handleSvcStep cfg s pid
  | .raceTimeout pid => handleRaceTimeout cfg s pid
  | .svcDone pid => handleSvcDone s pid

/-- One scheduler step: pop the earliest event; stop when the queue is
empty, on the error state, or when the event is at or beyond sim_time_ms
(env.run(until=sim_time_ms) fires no event at or past the horizon). -/
def step (cfg : Config) (stream : ℕ → ℚ) (s : Sim) : Option Sim :=
  if s.err then none
  else
    match s.events with
    | [] => none
    | e :: rest =>
        if cfg.simTimeMs ≤ e.time then none
        else some (dispatch cfg stream { s with now := e.time, events := rest } e.kind)

/-- Run the scheduler for at most the given number of events. -/
def run (cfg : Config) (stream : ℕ → ℚ) : ℕ → Sim → Sim
  | 0, s => s
  | fuel + 1, s =>
      match step cfg stream s with
      | none => s
      | some s2 => run cfg stream fuel s2

/-- Initial state: simulate_server's fresh environment with the arrival
process spawned; the arrival loop's first action is sampling the first
inter-arrival and starting its timer. -/
def initSim (cfg : Config) (stream : ℕ → ℚ) : Sim :=
  let s0 : Sim := ⟨0, 0, [], [], [], 0, [], 0, [], [], false⟩
  let us := draw stream s0 .arrD
  schedDelay us.2 (cfg.arrOf us.1) 1 .arrivalWake

/-- The whole run of simulate_server, as a function of the configuration,
the RNG stream, and an event budget. -/
def simulateServer (cfg : Config) (stream : ℕ → ℚ) (fuel : ℕ) : Sim :=
  run cfg stream fuel (initSim cfg stream)

/-! ### The setup phase of simulate_server (lines 269-314)

Everything that happens before the first event is handled can raise:
SimPy's Resource constructor rejects a non-positive capacity
(worker_pool is built on num_threads = 1 if async else thread_count,
io_pool on io_limit); getattr on the samplers module raises
AttributeError for an unknown distribution name; time_lognormal
evaluates math.log(mean_ms) at sampler construction, which raises for a
non-positive mean (time_exponential, arrival_poisson and arrival_bursty
defer all computation on their parameters to the first draw, so their
construction never fails); and env.run(until=sim_time_ms) raises
ValueError when sim_time_ms <= env.now = 0 — this last check fires
after the arrival process object is created but before any of its steps
run.  Nothing in this phase inspects timeout_ms, warmup_ms, rate_rps,
queue_limit, or a mean under the exponential distribution. -/

inductive SetupError
  | badWorkerCapacity
  | badIoCapacity
  | unknownCpuDist
  | badCpuMean
  | unknownIoDist
  | badIoMean
  | unknownArrivalDist
  | badSimTime
  deriving DecidableEq, Repr

/-- The caller-facing parameters of simulate_server that the setup phase
looks at. -/
structure SimParams where
  isAsync : Bool
  cpu_mean_ms : ℚ
  io_mean_ms : ℚ
  rate_rps : ℚ
  thread_count : ℤ
  io_limit : ℤ
  queue_limit : ℤ
  timeout_ms : ℚ
  sim_time_ms : ℚ
  warmup_ms : ℚ
  cpu_dist : String
  io_dist : String
  arrival_dist : String
  deriving DecidableEq, Repr

/-- samplers.py defines time_exponential and time_lognormal. -/
def timeDistKnown (d : String) : Bool :=
  d = "exponential" ∨ d = "lognormal"

/-- samplers.py defines arrival_poisson and arrival_bursty. -/
def arrivalDistKnown (d : String) : Bool :=
  d = "poisson" ∨ d = "bursty"

/-- The failure points crossed before the first event is handled, in
source order: worker_pool capacity (simpy.Resource), io_pool capacity,
cpu sampler lookup (getattr) and construction (math.log in
time_lognormal fails on a non-positive mean; time_exponential constructs
without touching its mean), io sampler lookup and construction, arrival
sampler lookup (arrival construction never fails: poisson and bursty
divide by the rate only inside the returned closure), and finally
env.run's until-check, which rejects sim_time_ms <= 0 after the arrival
process is spawned but before any event fires.  On success it returns
the two resource capacities. -/
def setupSim (p : SimParams) : Except SetupError (ℕ × ℕ) :=
  let numThreads : ℤ := if p.isAsync then 1 else p.thread_count
  if numThreads ≤ 0 then .error .badWorkerCapacity
  else if p.io_limit ≤ 0 then .error .badIoCapacity
  else if ¬ timeDistKnown p.cpu_dist then .error .unknownCpuDist
  else if p.cpu_dist = "lognormal" ∧ p.cpu_mean_ms ≤ 0 then .error .badCpuMean
  else if ¬ timeDistKnown p.io_dist then .error .unknownIoDist
  else if p.io_dist = "lognormal" ∧ p.io_mean_ms ≤ 0 then .error .badIoMean
  else if ¬ arrivalDistKnown p.arrival_dist then .error .unknownArrivalDist
  else if p.sim_time_ms ≤ 0 then .error .badSimTime
  else .ok (numThreads.toNat, p.io_limit.toNat)

/-! ### Basic lemmas about the scheduler and process-list primitives -/

/-- Event order at the level of times only. -/
def timeLe (a b : Ev) : Prop := a.time ≤ b.time

theorem evLe_time {a b : Ev} (h : evLe a b) : a.time ≤ b.time := by
  rcases h with h | ⟨h, _⟩
  · exact le_of_lt h
  · exact le_of_eq h

theorem not_evLe_time {a b : Ev} (h : ¬ evLe a b) : b.time ≤ a.time := by
  by_contra hc
  push_neg at hc
  exact h (Or.inl hc)

theorem mem_insertEv {a e : Ev} : ∀ {l : List Ev}, a ∈ insertEv e l ↔ a = e ∨ a ∈ l := by
  intro l
  induction l with
  | nil => simp [insertEv]
  | cons x xs ih =>
      by_cases h : evLe e x
      · simp [insertEv, h]
      · simp only [insertEv, if_neg h, List.mem_cons, ih]
        tauto

theorem pairwise_time_insertEv {e : Ev} :
    ∀ {l : List Ev}, l.Pairwise timeLe → (insertEv e l).Pairwise timeLe := by
  intro l
  induction l with
  | nil => simp [insertEv, timeLe]
  | cons x xs ih =>
      intro hl
      rw [List.pairwise_cons] at hl
      by_cases h : evLe e x
      · rw [insertEv, if_pos h]
        refine List.Pairwise.cons ?_ (List.Pairwise.cons hl.1 hl.2)
        intro y hy
        rcases List.mem_cons.mp hy with rfl | hy
        · exact evLe_time h
        · exact le_trans (evLe_time h) (hl.1 y hy)
      · rw [insertEv, if_neg h]
        refine List.Pairwise.cons ?_ (ih hl.2)
        intro y hy
        rcases mem_insertEv.mp hy with rfl | hy
        · exact not_evLe_time h
        · exact hl.1 y hy

theorem mem_updProc {q : Proc} {pid : ℕ} {f : Proc → Proc} {ps : List Proc}
    (h : q ∈ updProc pid f ps) :
    ∃ p ∈ ps, q = if p.pid = pid then f p else p := by
  rcases List.mem_map.mp h with ⟨p, hp, rfl⟩
  exact ⟨p, hp, rfl⟩

theorem updProc_map_pid {pid : ℕ} {f : Proc → Proc} (hf : ∀ p, (f p).pid = p.pid)
    (ps : List Proc) : (updProc pid f ps).map Proc.pid = ps.map Proc.pid := by
  induction ps with
  | nil => rfl
  | cons x xs ih =>
      simp only [updProc, List.map_cons] at ih ⊢
      by_cases h : x.pid = pid
      · rw [if_pos h, hf x, ih]
      · rw [if_neg h, ih]

theorem updProc_eq_of_forall_ne {pid : ℕ} {f : Proc → Proc} {ps : List Proc}
    (h : ∀ p ∈ ps, p.pid ≠ pid) : updProc pid f ps = ps := by
  induction ps with
  | nil => rfl
  | cons x xs ih =>
      simp only [updProc, List.map_cons]
      rw [if_neg (h x (List.mem_cons_self x xs))]
      have := ih fun p hp => h p (List.mem_cons_of_mem x hp)
      simpa [updProc] using this

theorem findProc_some {pid : ℕ} {ps : List Proc} {p : Proc}
    (h : findProc pid ps = some p) : p ∈ ps ∧ p.pid = pid := by
  constructor
  · exact List.mem_of_find?_eq_some h
  · have := List.find?_some h
    simpa using this

theorem findProc_updProc {pid pid' : ℕ} {f : Proc → Proc} (hf : ∀ p, (f p).pid = p.pid) :
    ∀ {ps : List Proc},
      findProc pid (updProc pid' f ps)
        = (findProc pid ps).map fun p => if p.pid = pid' then f p else p := by
  intro ps
  induction ps with
  | nil => rfl
  | cons x xs ih =>
      simp only [updProc, List.map_cons] at ih ⊢
      by_cases hx : x.pid = pid
      · by_cases hx' : x.pid = pid'
        · rw [if_pos hx']
          rw [findProc, List.find?_cons_of_pos, findProc, List.find?_cons_of_pos]
          · simp [hx']
          · simp [hx]
          · simp [hf, hx]
        · rw [if_neg hx']
          rw [findProc, List.find?_cons_of_pos, findProc, List.find?_cons_of_pos]
          · simp [hx']
          · simp [hx]
          · simp [hx]
      · by_cases hx' : x.pid = pid'
        · rw [if_pos hx']
          rw [findProc, List.find?_cons_of_neg, findProc, List.find?_cons_of_neg]
          · exact ih
          · simp [hx]
          · simp [hf, hx]
        · rw [if_neg hx']
          rw [findProc, List.find?_cons_of_neg, findProc, List.find?_cons_of_neg]
          · exact ih
          · simp [hx]
          · simp [hx]

theorem findProc_append_self {ps : List Proc} {q : Proc}
    (h : ∀ p ∈ ps, p.pid ≠ q.pid) : findProc q.pid (ps ++ [q]) = some q := by
  induction ps with
  | nil => simp [findProc]
  | cons x xs ih =>
      rw [List.cons_append, findProc, List.find?_cons_of_neg]
      · exact ih fun p hp => h p (List.mem_cons_of_mem x hp)
      · simp [h x (List.mem_cons_self x xs)]

theorem findProc_append_of_ne {ps : List Proc} {q : Proc} {pid : ℕ}
    (h : q.pid ≠ pid) : findProc pid (ps ++ [q]) = findProc pid ps := by
  induction ps with
  | nil => simp [findProc, h]
  | cons x xs ih =>
      by_cases hx : x.pid = pid
      · rw [List.cons_append, findProc, List.find?_cons_of_pos, findProc,
          List.find?_cons_of_pos] <;> simp [hx]
      · rw [List.cons_append, findProc, List.find?_cons_of_neg, findProc,
          List.find?_cons_of_neg]
        · exact ih
        · simp [hx]
        · simp [hx]

theorem mem_updProc_of_ne {p : Proc} {pid : ℕ} {f : Proc → Proc} {ps : List Proc}
    (hp : p ∈ ps) (h : p.pid ≠ pid) : p ∈ updProc pid f ps :=
  List.mem_map.mpr ⟨p, hp, by rw [if_neg h]⟩

theorem mem_updProc_target {pp : Proc} {pid : ℕ} {f : Proc → Proc} {ps : List Proc}
    (hpp : pp ∈ ps) (hpid : pp.pid = pid) : f pp ∈ updProc pid f ps :=
  List.mem_map.mpr ⟨pp, hpp, by rw [if_pos hpid]⟩

theorem countP_updProc {g : Proc → Bool} {pid : ℕ} {f : Proc → Proc}
    {ps : List Proc} {pp : Proc}
    (hnd : (ps.map Proc.pid).Nodup) (hpp : pp ∈ ps) (hpid : pp.pid = pid) :
    (updProc pid f ps).countP g + (if g pp then 1 else 0)
      = ps.countP g + (if g (f pp) then 1 else 0) := by
  induction ps with
  | nil => cases hpp
  | cons x xs ih =>
      rw [List.map_cons, List.nodup_cons] at hnd
      rcases List.mem_cons.mp hpp with rfl | hmem
      · have hxs : ∀ p ∈ xs, p.pid ≠ pid := by
          intro p hp hc
          have hm : p.pid ∈ List.map Proc.pid xs := List.mem_map_of_mem Proc.pid hp
          rw [hc, ← hpid] at hm
          exact hnd.1 hm
        have hmap : updProc pid f (pp :: xs) = f pp :: xs := by
          simp only [updProc, List.map_cons, if_pos hpid]
          have h2 := @updProc_eq_of_forall_ne pid f xs hxs
          simp only [updProc] at h2
          rw [h2]
        rw [hmap, List.countP_cons, List.countP_cons]
        by_cases h1 : g (f pp) <;> by_cases h2 : g pp <;> simp [h1, h2]
      · have hx : x.pid ≠ pid := by
          intro hc
          have hm : pp.pid ∈ List.map Proc.pid xs := List.mem_map_of_mem Proc.pid hmem
          rw [hpid, ← hc] at hm
          exact hnd.1 hm
        have hmap : updProc pid f (x :: xs) = x :: updProc pid f xs := by
          simp only [updProc, List.map_cons, if_neg hx]
        rw [hmap, List.countP_cons, List.countP_cons]
        have := ih hnd.2 hmem
        omega

/-! ### Invariant group T: virtual time is monotone

The scheduler never holds an event in the past, so the clock only moves
forward, and every process's arrival time lies in the past.  The invariant
only reads the clock, the event queue and the process list. -/

structure InvT (now : Time) (events : List Ev) (procs : List Proc) : Prop where
  nowNonneg : 0 ≤ now
  evPairwise : events.Pairwise timeLe
  evTime : ∀ e ∈ events, now ≤ e.time
  procArr : ∀ p ∈ procs, 0 ≤ p.arrival ∧ p.arrival ≤ now

/-- InvT stated of a whole state. -/
def InvTS (s : Sim) : Prop := InvT s.now s.events s.procs

theorem invT_insertEv {n : Time} {ev : List Ev} {ps : List Proc} (h : InvT n ev ps)
    {t : Time} (ht : n ≤ t) (pr sq : ℕ) (k : EvKind) :
    InvT n (insertEv ⟨t, pr, sq, k⟩ ev) ps := by
  refine ⟨h.nowNonneg, pairwise_time_insertEv h.evPairwise, ?_, h.procArr⟩
  intro e he
  rcases mem_insertEv.mp he with rfl | he
  · exact ht
  · exact h.evTime e he

/-- Congruence: InvT only looks at now, events and procs. -/
theorem invTS_eqCore {a b : Sim} (h : InvTS a) (hn : b.now = a.now)
    (he : b.events = a.events) (hp : b.procs = a.procs) : InvTS b := by
  unfold InvTS at h ⊢
  rw [hn, he, hp]
  exact h

theorem invTS_ite {c : Prop} [Decidable c] {a b : Sim} (ha : InvTS a) (hb : InvTS b) :
    InvTS (if c then a else b) := by
  split
  · exact ha
  · exact hb

theorem invTS_sched {s : Sim} (h : InvTS s) {t : Time} (ht : s.now ≤ t) (pr : ℕ)
    (k : EvKind) : InvTS (sched s t pr k) := by
  unfold InvTS sched
  dsimp only
  exact invT_insertEv h ht pr s.nextSeq k

theorem invTS_schedDelay {s : Sim} (h : InvTS s) (d : Time) (pr : ℕ) (k : EvKind) :
    InvTS (schedDelay s d pr k) := by
  unfold schedDelay
  split
  · exact invTS_eqCore h rfl rfl rfl
  · next hd =>
      push_neg at hd
      exact invTS_sched h (le_add_of_nonneg_right hd) pr k

/-- A state whose clock and queue agree with s and whose processes are an
updProc image (arrival preserved) keeps InvT. -/
theorem invTS_updView {s b : Sim} (h : InvTS s) (hn : b.now = s.now)
    (he : b.events = s.events) {pid : ℕ} {f : Proc → Proc}
    (hp : b.procs = updProc pid f s.procs)
    (hf : ∀ p, (f p).arrival = p.arrival) : InvTS b := by
  unfold InvTS at h ⊢
  rw [hn, he, hp]
  refine ⟨h.nowNonneg, h.evPairwise, h.evTime, ?_⟩
  intro p hp2
  rcases mem_updProc hp2 with ⟨q, hq, rfl⟩
  by_cases hqp : q.pid = pid
  · rw [if_pos hqp, hf]; exact h.procArr q hq
  · rw [if_neg hqp]; exact h.procArr q hq

theorem invTS_appendView {s b : Sim} (h : InvTS s) (hn : b.now = s.now)
    (he : b.events = s.events) {q : Proc} (hp : b.procs = s.procs ++ [q])
    (h0 : 0 ≤ q.arrival) (hqn : q.arrival ≤ s.now) : InvTS b := by
  unfold InvTS at h ⊢
  rw [hn, he, hp]
  refine ⟨h.nowNonneg, h.evPairwise, h.evTime, ?_⟩
  intro p hp2
  rcases List.mem_append.mp hp2 with hp2 | hp2
  · exact h.procArr p hp2
  · rcases List.mem_singleton.mp hp2 with rfl
    exact ⟨h0, hqn⟩

theorem invTS_wRelease {s : Sim} (h : InvTS s) (pid : ℕ) : InvTS (wRelease s pid) := by
  unfold wRelease
  dsimp only
  have h1 : InvTS ({ s with procs := updProc pid (fun p => { p with wHeld := false }) s.procs } : Sim) := by
    refine invTS_updView h rfl rfl rfl ?_
    exact fun _ => rfl
  split
  · exact h1
  · refine invTS_sched ?_ le_rfl 1 _
    refine invTS_updView h1 rfl rfl rfl ?_
    exact fun _ => rfl

theorem invTS_ioRelease {s : Sim} (h : InvTS s) (pid : ℕ) : InvTS (ioRelease s pid) := by
  unfold ioRelease
  dsimp only
  have h1 : InvTS ({ s with procs := updProc pid (fun p => { p with ioHeld := false }) s.procs } : Sim) := by
    refine invTS_updView h rfl rfl rfl ?_
    exact fun _ => rfl
  split
  · exact h1
  · refine invTS_sched ?_ le_rfl 1 _
    refine invTS_updView h1 rfl rfl rfl ?_
    exact fun _ => rfl

theorem invTS_finishSvc {s : Sim} (cfg : Config) (h : InvTS s) (pid : ℕ) :
    InvTS (finishSvc cfg s pid) := by
  unfold finishSvc
  have h1 : InvTS (if cfg.isAsync then s else wRelease s pid) :=
    invTS_ite h (invTS_wRelease h pid)
  generalize (if cfg.isAsync then s else wRelease s pid) = s1 at h1
  dsimp only
  split
  · exact h1
  · next p heq =>
      refine invTS_sched ?_ le_rfl 1 _
      have h2 : InvTS (if cfg.warmupMs ≤ p.arrival ∧ p.recorded = false then
          ({ s1 with
             procs := updProc pid (fun q => { q with recorded := true }) s1.procs,
             records := s1.records ++ [⟨p.pid, p.arrival, s1.now, s1.now - p.arrival, statusCompleted⟩] } : Sim)
          else s1) := by
        split
        · refine invTS_updView h1 rfl rfl rfl ?_
          exact fun _ => rfl
        · exact h1
      refine invTS_updView h2 rfl rfl rfl ?_
      exact fun _ => rfl

theorem invTS_postStage {s : Sim} (cfg : Config) (h : InvTS s) (pid : ℕ) :
    InvTS (postStage cfg s pid) := by
  unfold postStage
  cases hf : findProc pid s.procs with
  | none => exact h
  | some p =>
      dsimp only
      split
      · split
        · split
          · refine invTS_schedDelay ?_ _ 1 _
            refine invTS_updView h rfl rfl rfl ?_
            exact fun _ => rfl
          · refine invTS_updView h rfl rfl rfl ?_
            exact fun _ => rfl
        · refine invTS_schedDelay ?_ _ 1 _
          refine invTS_updView h rfl rfl rfl ?_
          exact fun _ => rfl
      · exact invTS_finishSvc cfg h pid

theorem invTS_ioStage {s : Sim} (cfg : Config) (h : InvTS s) (pid : ℕ) :
    InvTS (ioStage cfg s pid) := by
  unfold ioStage
  cases hf : findProc pid s.procs with
  | none => exact h
  | some p =>
      dsimp only
      split
      · split
        · refine invTS_schedDelay ?_ _ 1 _
          refine invTS_updView h rfl rfl rfl ?_
          exact fun _ => rfl
        · refine invTS_updView h rfl rfl rfl ?_
          exact fun _ => rfl
      · exact invTS_postStage cfg h pid

theorem invTS_afterWorkerPre {s : Sim} (cfg : Config) (h : InvTS s) (pid : ℕ) :
    InvTS (afterWorkerPre cfg s pid) := by
  unfold afterWorkerPre
  cases hf : findProc pid s.procs with
  | none => exact h
  | some p =>
      dsimp only
      split
      · refine invTS_schedDelay ?_ _ 1 _
        refine invTS_updView h rfl rfl rfl ?_
        exact fun _ => rfl
      · exact invTS_ioStage cfg h pid

theorem invTS_acquireWorkerPre {s : Sim} (cfg : Config) (h : InvTS s) (pid : ℕ) :
    InvTS (acquireWorkerPre cfg s pid) := by
  unfold acquireWorkerPre
  split
  · refine invTS_afterWorkerPre cfg ?_ pid
    refine invTS_updView h rfl rfl rfl ?_
    exact fun _ => rfl
  · refine invTS_updView h rfl rfl rfl ?_
    exact fun _ => rfl

theorem invTS_handleStartService {s : Sim} (cfg : Config) (stream : ℕ → ℚ) (h : InvTS s)
    (pid : ℕ) : InvTS (handleStartService cfg stream s pid) := by
  unfold handleStartService
  cases hf : findProc pid s.procs with
  | none => exact h
  | some p =>
      dsimp only [draw]
      have hg : InvTS ({ s with rngIdx := s.rngIdx + 1 + 1 + 1, draws := ((s.draws ++ [DrawTag.cpuD pid]) ++ [DrawTag.splitD pid]) ++ [DrawTag.ioD pid] } : Sim) := invTS_eqCore h rfl rfl rfl
      split
      · exact h
      · split
        · split
          · refine invTS_updView hg rfl rfl rfl ?_
            exact fun _ => rfl
          · split
            · refine invTS_acquireWorkerPre cfg ?_ pid
              refine invTS_updView hg rfl rfl rfl ?_
              exact fun _ => rfl
            · refine invTS_ioStage cfg ?_ pid
              refine invTS_updView hg rfl rfl rfl ?_
              exact fun _ => rfl
        · refine invTS_acquireWorkerPre cfg ?_ pid
          refine invTS_updView hg rfl rfl rfl ?_
          exact fun _ => rfl

theorem invTS_handleSvcStep {s : Sim} (cfg : Config) (h : InvTS s) (pid : ℕ) :
    InvTS (handleSvcStep cfg s pid) := by
  unfold handleSvcStep
  cases hf : findProc pid s.procs with
  | none => exact h
  | some p =>
      dsimp only
      split
      · exact invTS_afterWorkerPre cfg h pid
      · split
        · exact invTS_ioStage cfg (invTS_wRelease h pid) pid
        · exact invTS_ioStage cfg h pid
      · refine invTS_schedDelay ?_ _ 1 _
        refine invTS_updView h rfl rfl rfl ?_
        exact fun _ => rfl
      · exact invTS_postStage cfg (invTS_ioRelease h pid) pid
      · refine invTS_schedDelay ?_ _ 1 _
        refine invTS_updView h rfl rfl rfl ?_
        exact fun _ => rfl
      · split
        · exact invTS_finishSvc cfg (invTS_wRelease h pid) pid
        · exact invTS_finishSvc cfg h pid
      · exact h

theorem invTS_interruptSvc {s : Sim} (h : InvTS s) (pid : ℕ) : InvTS (interruptSvc s pid) := by
  unfold interruptSvc
  cases hf : findProc pid s.procs with
  | none => exact h
  | some p =>
      dsimp only
      split
      · exact h
      · have hF : InvTS ({ s with wQueue := s.wQueue.filter (fun q => q ≠ pid), ioQueue := s.ioQueue.filter (fun q => q ≠ pid) } : Sim) := invTS_eqCore h rfl rfl rfl
        generalize ({ s with wQueue := s.wQueue.filter (fun q => q ≠ pid), ioQueue := s.ioQueue.filter (fun q => q ≠ pid) } : Sim) = sF at hF ⊢
        have h2 : InvTS (if p.ioHeld = true then ioRelease sF pid else sF) :=
          invTS_ite (invTS_ioRelease hF pid) hF
        generalize (if p.ioHeld = true then ioRelease sF pid else sF) = s2 at h2 ⊢
        have h3 : InvTS (if p.wHeld = true then wRelease s2 pid else s2) :=
          invTS_ite (invTS_wRelease h2 pid) h2
        generalize (if p.wHeld = true then wRelease s2 pid else s2) = s3 at h3 ⊢
        refine invTS_updView h3 rfl rfl rfl ?_
        exact fun _ => rfl

theorem invTS_handleRaceTimeout {s : Sim} (cfg : Config) (h : InvTS s) (pid : ℕ) :
    InvTS (handleRaceTimeout cfg s pid) := by
  unfold handleRaceTimeout
  cases hf : findProc pid s.procs with
  | none => exact h
  | some p =>
      dsimp only
      split
      · exact h
      · have ha : InvTS (if cfg.warmupMs ≤ p.arrival then ({ s with records := s.records ++ [⟨p.pid, p.arrival, s.now, cfg.timeoutMs, statusTimeout⟩] } : Sim) else s) :=
          invTS_ite (invTS_eqCore h rfl rfl rfl) h
        generalize (if cfg.warmupMs ≤ p.arrival then ({ s with records := s.records ++ [⟨p.pid, p.arrival, s.now, cfg.timeoutMs, statusTimeout⟩] } : Sim) else s) = sa at ha ⊢
        have hb : InvTS (interruptSvc sa pid) := invTS_interruptSvc ha pid
        generalize interruptSvc sa pid = sb at hb ⊢
        have hc : InvTS (if p.recorded = false then ({ sb with procs := updProc pid (fun q => { q with recorded := true }) sb.procs } : Sim) else s) := by
          split
          · refine invTS_updView hb rfl rfl rfl ?_
            exact fun _ => rfl
          · exact h
        generalize (if p.recorded = false then ({ sb with procs := updProc pid (fun q => { q with recorded := true }) sb.procs } : Sim) else s) = s1 at hc ⊢
        refine invTS_updView hc rfl rfl rfl ?_
        exact fun _ => rfl

theorem invTS_handleSvcDone {s : Sim} (h : InvTS s) (pid : ℕ) :
    InvTS (handleSvcDone s pid) := by
  unfold handleSvcDone
  cases hf : findProc pid s.procs with
  | none => exact h
  | some p =>
      dsimp only
      split
      · exact h
      · refine invTS_updView h rfl rfl rfl ?_
        exact fun _ => rfl

theorem invTS_handleStartRequest {s : Sim} (cfg : Config) (h : InvTS s) (pid : ℕ) :
    InvTS (handleStartRequest cfg s pid) := by
  unfold handleStartRequest
  cases hf : findProc pid s.procs with
  | none => exact h
  | some p =>
      dsimp only
      split
      · next hpos =>
          have h1 : InvTS (sched s s.now 0 (.startService pid)) := invTS_sched h le_rfl 0 _
          exact invTS_sched h1 (le_add_of_nonneg_right (le_of_lt hpos)) 1 _
      · exact invTS_sched h le_rfl 0 _

theorem invTS_handleArrivalWake {s : Sim} (cfg : Config) (stream : ℕ → ℚ) (h : InvTS s) :
    InvTS (handleArrivalWake cfg stream s) := by
  unfold handleArrivalWake
  dsimp only [draw]
  have h1 : InvTS (if cfg.workerCap + cfg.queueLimit ≤ inSystem s.procs then ({ s with nextReqId := s.nextReqId + 1, records := s.records ++ [⟨s.nextReqId + 1, s.now, s.now, 0, statusDropped⟩] } : Sim) else sched ({ s with nextReqId := s.nextReqId + 1, procs := s.procs ++ [⟨s.nextReqId + 1, s.now, 0, 0, 0, .created, false, false, false, false⟩] } : Sim) s.now 0 (.startRequest (s.nextReqId + 1))) := by
    split
    · exact invTS_eqCore h rfl rfl rfl
    · refine invTS_sched ?_ le_rfl 0 _
      refine invTS_appendView h rfl rfl rfl ?_ le_rfl
      exact h.nowNonneg
  generalize (if cfg.workerCap + cfg.queueLimit ≤ inSystem s.procs then ({ s with nextReqId := s.nextReqId + 1, records := s.records ++ [⟨s.nextReqId + 1, s.now, s.now, 0, statusDropped⟩] } : Sim) else sched ({ s with nextReqId := s.nextReqId + 1, procs := s.procs ++ [⟨s.nextReqId + 1, s.now, 0, 0, 0, .created, false, false, false, false⟩] } : Sim) s.now 0 (.startRequest (s.nextReqId + 1))) = s1 at h1 ⊢
  refine invTS_schedDelay ?_ _ 1 _
  exact invTS_eqCore h1 rfl rfl rfl

theorem invTS_dispatch {s : Sim} (cfg : Config) (stream : ℕ → ℚ) (h : InvTS s) :
    ∀ k, InvTS (dispatch cfg stream s k)
  | .arrivalWake => invTS_handleArrivalWake cfg stream h
  | .startRequest pid => invTS_handleStartRequest cfg h pid
  | .startService pid => invTS_handleStartService cfg stream h pid
  | .svcStep pid => invTS_handleSvcStep cfg h pid
  | .raceTimeout pid => invTS_handleRaceTimeout cfg h pid
  | .svcDone pid => invTS_handleSvcDone h pid

theorem invTS_step {s s' : Sim} (cfg : Config) (stream : ℕ → ℚ) (h : InvTS s)
    (hs : step cfg stream s = some s') : InvTS s' := by
  unfold step at hs
  split at hs
  · cases hs
  · split at hs
    · cases hs
    · split at hs
      · cases hs
      · next e rest hev _ =>
          cases hs
          refine invTS_dispatch cfg stream ?_ e.kind
          have hT : InvT s.now s.events s.procs := h
          rw [hev] at hT
          have hpw := hT.evPairwise
          rw [List.pairwise_cons] at hpw
          have hnow : s.now ≤ e.time := hT.evTime e (List.mem_cons_self e rest)
          refine ⟨le_trans hT.nowNonneg hnow, hpw.2, ?_, ?_⟩
          · intro x hx
            exact hpw.1 x hx
          · intro p hp
            have := hT.procArr p hp
            exact ⟨this.1, le_trans this.2 hnow⟩

theorem invTS_run {cfg : Config} {stream : ℕ → ℚ} :
    ∀ (fuel : ℕ) (s : Sim), InvTS s → InvTS (run cfg stream fuel s)
  | 0, _, h => h
  | fuel + 1, s, h => by
      rw [run]
      cases hs : step cfg stream s with
      | none => exact h
      | some s2 => exact invTS_run fuel s2 (invTS_step cfg stream h hs)

theorem invTS_initSim (cfg : Config) (stream : ℕ → ℚ) : InvTS (initSim cfg stream) := by
  unfold initSim
  dsimp only [draw]
  refine invTS_schedDelay ?_ _ 1 _
  exact ⟨le_rfl, List.Pairwise.nil, (by intro e he; cases he), (by intro p hp; cases hp)⟩

theorem invTS_simulateServer (cfg : Config) (stream : ℕ → ℚ) (fuel : ℕ) :
    InvTS (simulateServer cfg stream fuel) :=
  invTS_run fuel _ (invTS_initSim cfg stream)

/-! ### Invariant group R: record laws

Every emitted row satisfies the latency contract, is stamped with the
current virtual time as finish_time, and therefore the finish_time column
is non-decreasing in emission order. -/

/-- The per-record contract of spec section 8 items 4: finish after
arrival, and the latency formula determined by the status. -/
def RecLaw (cfg : Config) (r : ReqRecord) : Prop :=
  r.arrival_time ≤ r.finish_time ∧
  (r.status = statusCompleted → r.latency_ms = r.finish_time - r.arrival_time) ∧
  (r.status = statusTimeout → r.latency_ms = cfg.timeoutMs) ∧
  (r.status = statusDropped → r.latency_ms = 0)

structure InvR (cfg : Config) (now : Time) (records : List ReqRecord) : Prop where
  recLaw : ∀ r ∈ records, RecLaw cfg r
  recFin : ∀ r ∈ records, r.finish_time ≤ now
  recSorted : records.Pairwise fun a b => a.finish_time ≤ b.finish_time

/-- InvR stated of a whole state. -/
def InvRS (cfg : Config) (s : Sim) : Prop := InvR cfg s.now s.records

theorem invRS_eqCore {cfg : Config} {a b : Sim} (h : InvRS cfg a) (hn : b.now = a.now)
    (hr : b.records = a.records) : InvRS cfg b := by
  unfold InvRS at h ⊢
  rw [hn, hr]
  exact h

theorem invR_mono {cfg : Config} {n n2 : Time} {rs : List ReqRecord}
    (h : InvR cfg n rs) (hm : n ≤ n2) : InvR cfg n2 rs :=
  ⟨h.recLaw, fun r hr => le_trans (h.recFin r hr) hm, h.recSorted⟩

theorem invRS_ite {cfg : Config} {c : Prop} [Decidable c] {a b : Sim}
    (ha : InvRS cfg a) (hb : InvRS cfg b) : InvRS cfg (if c then a else b) := by
  split
  · exact ha
  · exact hb

/-- Appending one record stamped at the current time keeps the group. -/
theorem invRS_appendRec {cfg : Config} {a b : Sim} {r : ReqRecord} (h : InvRS cfg a)
    (hn : b.now = a.now) (hr : b.records = a.records ++ [r])
    (hlaw : RecLaw cfg r) (hfin : r.finish_time = a.now) : InvRS cfg b := by
  unfold InvRS at h ⊢
  rw [hn, hr]
  refine ⟨?_, ?_, ?_⟩
  · intro x hx
    rcases List.mem_append.mp hx with hx | hx
    · exact h.recLaw x hx
    · rcases List.mem_singleton.mp hx with rfl
      exact hlaw
  · intro x hx
    rcases List.mem_append.mp hx with hx | hx
    · exact h.recFin x hx
    · rcases List.mem_singleton.mp hx with rfl
      exact le_of_eq hfin
  · rw [List.pairwise_append]
    refine ⟨h.recSorted, List.pairwise_singleton _ _, ?_⟩
    intro x hx y hy
    rcases List.mem_singleton.mp hy with rfl
    rw [hfin]
    exact h.recFin x hx

theorem invRS_wRelease {cfg : Config} {s : Sim} (h : InvRS cfg s) (pid : ℕ) :
    InvRS cfg (wRelease s pid) := by
  unfold wRelease
  dsimp only
  split
  · exact invRS_eqCore h rfl rfl
  · exact invRS_eqCore h rfl rfl

theorem invRS_ioRelease {cfg : Config} {s : Sim} (h : InvRS cfg s) (pid : ℕ) :
    InvRS cfg (ioRelease s pid) := by
  unfold ioRelease
  dsimp only
  split
  · exact invRS_eqCore h rfl rfl
  · exact invRS_eqCore h rfl rfl

theorem invRS_schedDelay {cfg : Config} {s : Sim} (h : InvRS cfg s) (d : Time) (pr : ℕ)
    (k : EvKind) : InvRS cfg (schedDelay s d pr k) := by
  unfold schedDelay
  split
  · exact invRS_eqCore h rfl rfl
  · exact invRS_eqCore h rfl rfl

theorem invRS_finishSvc {cfg : Config} {s : Sim} (hT : InvTS s) (h : InvRS cfg s)
    (pid : ℕ) : InvRS cfg (finishSvc cfg s pid) := by
  unfold finishSvc
  have hT1 : InvTS (if cfg.isAsync then s else wRelease s pid) :=
    invTS_ite hT (invTS_wRelease hT pid)
  have h1 : InvRS cfg (if cfg.isAsync then s else wRelease s pid) :=
    invRS_ite h (invRS_wRelease h pid)
  generalize (if cfg.isAsync then s else wRelease s pid) = s1 at hT1 h1
  dsimp only
  split
  · exact h1
  · next p heq =>
      have hmem := findProc_some heq
      have harr := hT1.procArr p hmem.1
      have h2 : InvRS cfg (if cfg.warmupMs ≤ p.arrival ∧ p.recorded = false then
          ({ s1 with
             procs := updProc pid (fun q => { q with recorded := true }) s1.procs,
             records := s1.records ++ [⟨p.pid, p.arrival, s1.now, s1.now - p.arrival, statusCompleted⟩] } : Sim)
          else s1) := by
        split
        · refine invRS_appendRec h1 rfl rfl ?_ rfl
          exact ⟨harr.2, fun _ => rfl, (fun hh => by simp [statusCompleted, statusTimeout, statusDropped] at hh),
            (fun hh => by simp [statusCompleted, statusTimeout, statusDropped] at hh)⟩
        · exact h1
      generalize (if cfg.warmupMs ≤ p.arrival ∧ p.recorded = false then
          ({ s1 with
             procs := updProc pid (fun q => { q with recorded := true }) s1.procs,
             records := s1.records ++ [⟨p.pid, p.arrival, s1.now, s1.now - p.arrival, statusCompleted⟩] } : Sim)
          else s1) = s2 at h2
      exact invRS_eqCore h2 rfl rfl

theorem invRS_postStage {cfg : Config} {s : Sim} (hT : InvTS s) (h : InvRS cfg s)
    (pid : ℕ) : InvRS cfg (postStage cfg s pid) := by
  unfold postStage
  cases hf : findProc pid s.procs with
  | none => exact h
  | some p =>
      dsimp only
      split
      · split
        · split
          · refine invRS_schedDelay ?_ _ 1 _ <;> exact invRS_eqCore h rfl rfl
          · exact invRS_eqCore h rfl rfl
        · refine invRS_schedDelay ?_ _ 1 _ <;> exact invRS_eqCore h rfl rfl
      · exact invRS_finishSvc hT h pid

theorem invRS_ioStage {cfg : Config} {s : Sim} (hT : InvTS s) (h : InvRS cfg s)
    (pid : ℕ) : InvRS cfg (ioStage cfg s pid) := by
  unfold ioStage
  cases hf : findProc pid s.procs with
  | none => exact h
  | some p =>
      dsimp only
      split
      · split
        · refine invRS_schedDelay ?_ _ 1 _ <;> exact invRS_eqCore h rfl rfl
        · exact invRS_eqCore h rfl rfl
      · exact invRS_postStage hT h pid

theorem invRS_afterWorkerPre {cfg : Config} {s : Sim} (hT : InvTS s) (h : InvRS cfg s)
    (pid : ℕ) : InvRS cfg (afterWorkerPre cfg s pid) := by
  unfold afterWorkerPre
  cases hf : findProc pid s.procs with
  | none => exact h
  | some p =>
      dsimp only
      split
      · refine invRS_schedDelay ?_ _ 1 _ <;> exact invRS_eqCore h rfl rfl
      · exact invRS_ioStage hT h pid

theorem invRS_acquireWorkerPre {cfg : Config} {s : Sim} (hT : InvTS s) (h : InvRS cfg s)
    (pid : ℕ) : InvRS cfg (acquireWorkerPre cfg s pid) := by
  unfold acquireWorkerPre
  split
  · have hT2 : InvTS ({ s with procs := updProc pid (fun p => { p with wHeld := true }) s.procs } : Sim) := by
      refine invTS_updView hT rfl rfl rfl ?_
      exact fun _ => rfl
    refine invRS_afterWorkerPre hT2 ?_ pid
    exact invRS_eqCore h rfl rfl
  · exact invRS_eqCore h rfl rfl

theorem invRS_handleStartService {cfg : Config} {s : Sim} (stream : ℕ → ℚ) (hT : InvTS s)
    (h : InvRS cfg s) (pid : ℕ) : InvRS cfg (handleStartService cfg stream s pid) := by
  unfold handleStartService
  cases hf : findProc pid s.procs with
  | none => exact h
  | some p =>
      dsimp only [draw]
      have hT1 : InvTS ({ s with rngIdx := s.rngIdx + 1 + 1 + 1, draws := ((s.draws ++ [DrawTag.cpuD pid]) ++ [DrawTag.splitD pid]) ++ [DrawTag.ioD pid], procs := updProc pid (fun q => { q with cpuPre := cfg.cpuOf (stream s.rngIdx) * stream (s.rngIdx + 1), cpuPost := cfg.cpuOf (stream s.rngIdx) * (1 - stream (s.rngIdx + 1)), ioW := cfg.ioOf (stream (s.rngIdx + 1 + 1)) }) s.procs } : Sim) := by
        refine invTS_updView hT rfl rfl rfl ?_
        exact fun _ => rfl
      split
      · exact h
      · split
        · split
          · exact invRS_eqCore h rfl rfl
          · split
            · refine invRS_acquireWorkerPre hT1 ?_ pid <;> exact invRS_eqCore h rfl rfl
            · refine invRS_ioStage hT1 ?_ pid <;> exact invRS_eqCore h rfl rfl
        · refine invRS_acquireWorkerPre hT1 ?_ pid <;> exact invRS_eqCore h rfl rfl

theorem invRS_handleSvcStep {cfg : Config} {s : Sim} (hT : InvTS s) (h : InvRS cfg s)
    (pid : ℕ) : InvRS cfg (handleSvcStep cfg s pid) := by
  unfold handleSvcStep
  cases hf : findProc pid s.procs with
  | none => exact h
  | some p =>
      dsimp only
      split
      · exact invRS_afterWorkerPre hT h pid
      · split
        · exact invRS_ioStage (invTS_wRelease hT pid) (invRS_wRelease h pid) pid
        · exact invRS_ioStage hT h pid
      · refine invRS_schedDelay ?_ _ 1 _ <;> exact invRS_eqCore h rfl rfl
      · exact invRS_postStage (invTS_ioRelease hT pid) (invRS_ioRelease h pid) pid
      · refine invRS_schedDelay ?_ _ 1 _ <;> exact invRS_eqCore h rfl rfl
      · split
        · exact invRS_finishSvc (invTS_wRelease hT pid) (invRS_wRelease h pid) pid
        · exact invRS_finishSvc hT h pid
      · exact h

theorem invRS_interruptSvc {cfg : Config} {s : Sim} (h : InvRS cfg s) (pid : ℕ) :
    InvRS cfg (interruptSvc s pid) := by
  unfold interruptSvc
  cases hf : findProc pid s.procs with
  | none => exact h
  | some p =>
      dsimp only
      split
      · exact h
      · have hF : InvRS cfg ({ s with wQueue := s.wQueue.filter (fun q => q ≠ pid), ioQueue := s.ioQueue.filter (fun q => q ≠ pid) } : Sim) := invRS_eqCore h rfl rfl
        generalize ({ s with wQueue := s.wQueue.filter (fun q => q ≠ pid), ioQueue := s.ioQueue.filter (fun q => q ≠ pid) } : Sim) = sF at hF ⊢
        have h2 : InvRS cfg (if p.ioHeld = true then ioRelease sF pid else sF) :=
          invRS_ite (invRS_ioRelease hF pid) hF
        generalize (if p.ioHeld = true then ioRelease sF pid else sF) = s2 at h2 ⊢
        have h3 : InvRS cfg (if p.wHeld = true then wRelease s2 pid else s2) :=
          invRS_ite (invRS_wRelease h2 pid) h2
        generalize (if p.wHeld = true then wRelease s2 pid else s2) = s3 at h3 ⊢
        exact invRS_eqCore h3 rfl rfl

theorem invRS_handleRaceTimeout {cfg : Config} {s : Sim} (hT : InvTS s) (h : InvRS cfg s)
    (pid : ℕ) : InvRS cfg (handleRaceTimeout cfg s pid) := by
  unfold handleRaceTimeout
  cases hf : findProc pid s.procs with
  | none => exact h
  | some p =>
      dsimp only
      split
      · exact h
      · have hmem := findProc_some hf
        have harr := hT.procArr p hmem.1
        have ha : InvRS cfg (if cfg.warmupMs ≤ p.arrival then ({ s with records := s.records ++ [⟨p.pid, p.arrival, s.now, cfg.timeoutMs, statusTimeout⟩] } : Sim) else s) := by
          split
          · refine invRS_appendRec h rfl rfl ?_ rfl
            exact ⟨harr.2, (fun hh => by simp [statusCompleted, statusTimeout, statusDropped] at hh), (fun _ => rfl),
              (fun hh => by simp [statusCompleted, statusTimeout, statusDropped] at hh)⟩
          · exact h
        generalize (if cfg.warmupMs ≤ p.arrival then ({ s with records := s.records ++ [⟨p.pid, p.arrival, s.now, cfg.timeoutMs, statusTimeout⟩] } : Sim) else s) = sa at ha ⊢
        have hb : InvRS cfg (interruptSvc sa pid) := invRS_interruptSvc ha pid
        generalize interruptSvc sa pid = sb at hb ⊢
        have hc : InvRS cfg (if p.recorded = false then ({ sb with procs := updProc pid (fun q => { q with recorded := true }) sb.procs } : Sim) else s) := by
          split
          · exact invRS_eqCore hb rfl rfl
          · exact h
        generalize (if p.recorded = false then ({ sb with procs := updProc pid (fun q => { q with recorded := true }) sb.procs } : Sim) else s) = s1 at hc ⊢
        exact invRS_eqCore hc rfl rfl

theorem invRS_handleSvcDone {cfg : Config} {s : Sim} (h : InvRS cfg s) (pid : ℕ) :
    InvRS cfg (handleSvcDone s pid) := by
  unfold handleSvcDone
  cases hf : findProc pid s.procs with
  | none => exact h
  | some p =>
      dsimp only
      split
      · exact h
      · exact invRS_eqCore h rfl rfl

theorem invRS_handleStartRequest {cfg : Config} {s : Sim} (h : InvRS cfg s) (pid : ℕ) :
    InvRS cfg (handleStartRequest cfg s pid) := by
  unfold handleStartRequest
  cases hf : findProc pid s.procs with
  | none => exact h
  | some p =>
      dsimp only
      split
      · exact invRS_eqCore h rfl rfl
      · exact invRS_eqCore h rfl rfl

theorem invRS_handleArrivalWake {cfg : Config} {s : Sim} (stream : ℕ → ℚ) (hT : InvTS s)
    (h : InvRS cfg s) : InvRS cfg (handleArrivalWake cfg stream s) := by
  unfold handleArrivalWake
  dsimp only [draw]
  have h1 : InvRS cfg (if cfg.workerCap + cfg.queueLimit ≤ inSystem s.procs then ({ s with nextReqId := s.nextReqId + 1, records := s.records ++ [⟨s.nextReqId + 1, s.now, s.now, 0, statusDropped⟩] } : Sim) else sched ({ s with nextReqId := s.nextReqId + 1, procs := s.procs ++ [⟨s.nextReqId + 1, s.now, 0, 0, 0, .created, false, false, false, false⟩] } : Sim) s.now 0 (.startRequest (s.nextReqId + 1))) := by
    split
    · refine invRS_appendRec h rfl rfl ?_ rfl
      exact ⟨le_rfl, (fun hh => by simp [statusCompleted, statusTimeout, statusDropped] at hh), (fun hh => by simp [statusCompleted, statusTimeout, statusDropped] at hh),
        (fun _ => rfl)⟩
    · exact invRS_eqCore h rfl rfl
  generalize (if cfg.workerCap + cfg.queueLimit ≤ inSystem s.procs then ({ s with nextReqId := s.nextReqId + 1, records := s.records ++ [⟨s.nextReqId + 1, s.now, s.now, 0, statusDropped⟩] } : Sim) else sched ({ s with nextReqId := s.nextReqId + 1, procs := s.procs ++ [⟨s.nextReqId + 1, s.now, 0, 0, 0, .created, false, false, false, false⟩] } : Sim) s.now 0 (.startRequest (s.nextReqId + 1))) = s1 at h1 ⊢
  refine invRS_schedDelay ?_ _ 1 _ <;> exact invRS_eqCore h1 rfl rfl

theorem invRS_dispatch {cfg : Config} {s : Sim} (stream : ℕ → ℚ) (hT : InvTS s)
    (h : InvRS cfg s) : ∀ k, InvRS cfg (dispatch cfg stream s k)
  | .arrivalWake => invRS_handleArrivalWake stream hT h
  | .startRequest pid => invRS_handleStartRequest h pid
  | .startService pid => invRS_handleStartService stream hT h pid
  | .svcStep pid => invRS_handleSvcStep hT h pid
  | .raceTimeout pid => invRS_handleRaceTimeout hT h pid
  | .svcDone pid => invRS_handleSvcDone h pid

theorem invRS_step {cfg : Config} {stream : ℕ → ℚ} {s s2 : Sim} (hT : InvTS s)
    (h : InvRS cfg s) (hs : step cfg stream s = some s2) : InvRS cfg s2 := by
  unfold step at hs
  split at hs
  · cases hs
  · split at hs
    · cases hs
    · split at hs
      · cases hs
      · next e rest hev _ =>
          cases hs
          have hnow : s.now ≤ e.time := by
            have hT2 : InvT s.now s.events s.procs := hT
            rw [hev] at hT2
            exact hT2.evTime e (List.mem_cons_self e rest)
          have hT3 : InvTS ({ s with now := e.time, events := rest } : Sim) := by
            have hT2 : InvT s.now s.events s.procs := hT
            rw [hev] at hT2
            have hpw := hT2.evPairwise
            rw [List.pairwise_cons] at hpw
            exact ⟨le_trans hT2.nowNonneg hnow, hpw.2, (fun x hx => hpw.1 x hx),
              (fun p hp => ⟨(hT2.procArr p hp).1, le_trans (hT2.procArr p hp).2 hnow⟩)⟩
          refine invRS_dispatch stream hT3 ?_ e.kind
          exact invR_mono h hnow

theorem invRS_run {cfg : Config} {stream : ℕ → ℚ} :
    ∀ (fuel : ℕ) (s : Sim), InvTS s → InvRS cfg s → InvRS cfg (run cfg stream fuel s)
  | 0, _, _, h => h
  | fuel + 1, s, hT, h => by
      rw [run]
      cases hs : step cfg stream s with
      | none => exact h
      | some s2 => exact invRS_run fuel s2 (invTS_step cfg stream hT hs) (invRS_step hT h hs)

theorem invRS_initSim (cfg : Config) (stream : ℕ → ℚ) : InvRS cfg (initSim cfg stream) := by
  unfold initSim
  dsimp only [draw]
  refine invRS_schedDelay ?_ _ 1 _
  exact ⟨(by intro r hr; cases hr), (by intro r hr; cases hr), List.Pairwise.nil⟩

theorem invRS_simulateServer (cfg : Config) (stream : ℕ → ℚ) (fuel : ℕ) :
    InvRS cfg (simulateServer cfg stream fuel) :=
  invRS_run fuel _ (invTS_initSim cfg stream) (invRS_initSim cfg stream)

/-! ### Invariant group F: no timer without a positive timeout

When timeout_ms <= 0 the racer never creates a timeout event, so no
raceTimeout event is ever pending and no record ever carries the timeout
status. -/

structure InvF (events : List Ev) (records : List ReqRecord) : Prop where
  noRaceEv : ∀ e ∈ events, ∀ pid, e.kind ≠ EvKind.raceTimeout pid
  noTimeoutRec : ∀ r ∈ records, r.status ≠ statusTimeout

/-- InvF stated of a whole state. -/
def InvFS (s : Sim) : Prop := InvF s.events s.records

theorem invFS_eqCore {a b : Sim} (h : InvFS a) (he : b.events = a.events)
    (hr : b.records = a.records) : InvFS b := by
  unfold InvFS at h ⊢
  rw [he, hr]
  exact h

theorem invFS_ite {c : Prop} [Decidable c] {a b : Sim} (ha : InvFS a) (hb : InvFS b) :
    InvFS (if c then a else b) := by
  split
  · exact ha
  · exact hb

theorem invFS_insert {a b : Sim} (h : InvFS a) {t : Time} {pr sq : ℕ} {k : EvKind}
    (he : b.events = insertEv ⟨t, pr, sq, k⟩ a.events) (hr : b.records = a.records)
    (hk : ∀ pid, k ≠ EvKind.raceTimeout pid) : InvFS b := by
  unfold InvFS at h ⊢
  rw [he, hr]
  refine ⟨?_, h.noTimeoutRec⟩
  intro e hme
  rcases mem_insertEv.mp hme with rfl | hme
  · exact hk
  · exact h.noRaceEv e hme

theorem invFS_appendRec {a b : Sim} {r : ReqRecord} (h : InvFS a)
    (he : b.events = a.events) (hr : b.records = a.records ++ [r])
    (hst : r.status ≠ statusTimeout) : InvFS b := by
  unfold InvFS at h ⊢
  rw [he, hr]
  refine ⟨h.noRaceEv, ?_⟩
  intro x hx
  rcases List.mem_append.mp hx with hx | hx
  · exact h.noTimeoutRec x hx
  · rcases List.mem_singleton.mp hx with rfl
    exact hst

theorem invFS_schedDelay {s : Sim} (h : InvFS s) (d : Time) (pr : ℕ) {k : EvKind}
    (hk : ∀ pid, k ≠ EvKind.raceTimeout pid) : InvFS (schedDelay s d pr k) := by
  unfold schedDelay
  split
  · exact invFS_eqCore h rfl rfl
  · exact invFS_insert h rfl rfl hk

theorem invFS_wRelease {s : Sim} (h : InvFS s) (pid : ℕ) : InvFS (wRelease s pid) := by
  unfold wRelease
  dsimp only
  split
  · exact invFS_eqCore h rfl rfl
  · refine invFS_insert h rfl rfl ?_
    intro q hq
    cases hq

theorem invFS_ioRelease {s : Sim} (h : InvFS s) (pid : ℕ) : InvFS (ioRelease s pid) := by
  unfold ioRelease
  dsimp only
  split
  · exact invFS_eqCore h rfl rfl
  · refine invFS_insert h rfl rfl ?_
    intro q hq
    cases hq

theorem invFS_finishSvc {cfg : Config} {s : Sim} (h : InvFS s) (pid : ℕ) :
    InvFS (finishSvc cfg s pid) := by
  unfold finishSvc
  have h1 : InvFS (if cfg.isAsync then s else wRelease s pid) :=
    invFS_ite h (invFS_wRelease h pid)
  generalize (if cfg.isAsync then s else wRelease s pid) = s1 at h1
  dsimp only
  split
  · exact h1
  · next p heq =>
      have h2 : InvFS (if cfg.warmupMs ≤ p.arrival ∧ p.recorded = false then
          ({ s1 with
             procs := updProc pid (fun q => { q with recorded := true }) s1.procs,
             records := s1.records ++ [⟨p.pid, p.arrival, s1.now, s1.now - p.arrival, statusCompleted⟩] } : Sim)
          else s1) := by
        split
        · refine invFS_appendRec h1 rfl rfl ?_
          simp [statusCompleted, statusTimeout]
        · exact h1
      generalize (if cfg.warmupMs ≤ p.arrival ∧ p.recorded = false then
          ({ s1 with
             procs := updProc pid (fun q => { q with recorded := true }) s1.procs,
             records := s1.records ++ [⟨p.pid, p.arrival, s1.now, s1.now - p.arrival, statusCompleted⟩] } : Sim)
          else s1) = s2 at h2
      refine invFS_insert ?_ rfl rfl ?_
      · exact invFS_eqCore h2 rfl rfl
      · intro q hq
        cases hq

theorem invFS_postStage {cfg : Config} {s : Sim} (h : InvFS s) (pid : ℕ) :
    InvFS (postStage cfg s pid) := by
  unfold postStage
  cases hf : findProc pid s.procs with
  | none => exact h
  | some p =>
      dsimp only
      split
      · split
        · split
          · refine invFS_schedDelay ?_ _ 1 ?_
            · exact invFS_eqCore h rfl rfl
            · intro q hq
              cases hq
          · exact invFS_eqCore h rfl rfl
        · refine invFS_schedDelay ?_ _ 1 ?_
          · exact invFS_eqCore h rfl rfl
          · intro q hq
            cases hq
      · exact invFS_finishSvc h pid

theorem invFS_ioStage {cfg : Config} {s : Sim} (h : InvFS s) (pid : ℕ) :
    InvFS (ioStage cfg s pid) := by
  unfold ioStage
  cases hf : findProc pid s.procs with
  | none => exact h
  | some p =>
      dsimp only
      split
      · split
        · refine invFS_schedDelay ?_ _ 1 ?_
          · exact invFS_eqCore h rfl rfl
          · intro q hq
            cases hq
        · exact invFS_eqCore h rfl rfl
      · exact invFS_postStage h pid

theorem invFS_afterWorkerPre {cfg : Config} {s : Sim} (h : InvFS s) (pid : ℕ) :
    InvFS (afterWorkerPre cfg s pid) := by
  unfold afterWorkerPre
  cases hf : findProc pid s.procs with
  | none => exact h
  | some p =>
      dsimp only
      split
      · refine invFS_schedDelay ?_ _ 1 ?_
        · exact invFS_eqCore h rfl rfl
        · intro q hq
          cases hq
      · exact invFS_ioStage h pid

theorem invFS_acquireWorkerPre {cfg : Config} {s : Sim} (h : InvFS s) (pid : ℕ) :
    InvFS (acquireWorkerPre cfg s pid) := by
  unfold acquireWorkerPre
  split
  · refine invFS_afterWorkerPre ?_ pid
    exact invFS_eqCore h rfl rfl
  · exact invFS_eqCore h rfl rfl

theorem invFS_handleStartService {cfg : Config} {s : Sim} (stream : ℕ → ℚ) (h : InvFS s)
    (pid : ℕ) : InvFS (handleStartService cfg stream s pid) := by
  unfold handleStartService
  cases hf : findProc pid s.procs with
  | none => exact h
  | some p =>
      dsimp only [draw]
      split
      · exact h
      · split
        · split
          · exact invFS_eqCore h rfl rfl
          · split
            · refine invFS_acquireWorkerPre ?_ pid
              exact invFS_eqCore h rfl rfl
            · refine invFS_ioStage ?_ pid
              exact invFS_eqCore h rfl rfl
        · refine invFS_acquireWorkerPre ?_ pid
          exact invFS_eqCore h rfl rfl

theorem invFS_handleSvcStep {cfg : Config} {s : Sim} (h : InvFS s) (pid : ℕ) :
    InvFS (handleSvcStep cfg s pid) := by
  unfold handleSvcStep
  cases hf : findProc pid s.procs with
  | none => exact h
  | some p =>
      dsimp only
      split
      · exact invFS_afterWorkerPre h pid
      · split
        · exact invFS_ioStage (invFS_wRelease h pid) pid
        · exact invFS_ioStage h pid
      · refine invFS_schedDelay ?_ _ 1 ?_
        · exact invFS_eqCore h rfl rfl
        · intro q hq
          cases hq
      · exact invFS_postStage (invFS_ioRelease h pid) pid
      · refine invFS_schedDelay ?_ _ 1 ?_
        · exact invFS_eqCore h rfl rfl
        · intro q hq
          cases hq
      · split
        · exact invFS_finishSvc (invFS_wRelease h pid) pid
        · exact invFS_finishSvc h pid
      · exact h

theorem invFS_interruptSvc {s : Sim} (h : InvFS s) (pid : ℕ) : InvFS (interruptSvc s pid) := by
  unfold interruptSvc
  cases hf : findProc pid s.procs with
  | none => exact h
  | some p =>
      dsimp only
      split
      · exact h
      · have hF : InvFS ({ s with wQueue := s.wQueue.filter (fun q => q ≠ pid), ioQueue := s.ioQueue.filter (fun q => q ≠ pid) } : Sim) := invFS_eqCore h rfl rfl
        generalize ({ s with wQueue := s.wQueue.filter (fun q => q ≠ pid), ioQueue := s.ioQueue.filter (fun q => q ≠ pid) } : Sim) = sF at hF ⊢
        have h2 : InvFS (if p.ioHeld = true then ioRelease sF pid else sF) :=
          invFS_ite (invFS_ioRelease hF pid) hF
        generalize (if p.ioHeld = true then ioRelease sF pid else sF) = s2 at h2 ⊢
        have h3 : InvFS (if p.wHeld = true then wRelease s2 pid else s2) :=
          invFS_ite (invFS_wRelease h2 pid) h2
        generalize (if p.wHeld = true then wRelease s2 pid else s2) = s3 at h3 ⊢
        exact invFS_eqCore h3 rfl rfl

theorem invFS_handleSvcDone {s : Sim} (h : InvFS s) (pid : ℕ) :
    InvFS (handleSvcDone s pid) := by
  unfold handleSvcDone
  cases hf : findProc pid s.procs with
  | none => exact h
  | some p =>
      dsimp only
      split
      · exact h
      · exact invFS_eqCore h rfl rfl

theorem invFS_handleStartRequest {cfg : Config} {s : Sim} (hcfg : cfg.timeoutMs ≤ 0)
    (h : InvFS s) (pid : ℕ) : InvFS (handleStartRequest cfg s pid) := by
  unfold handleStartRequest
  cases hf : findProc pid s.procs with
  | none => exact h
  | some p =>
      dsimp only
      split
      · next hpos => exact absurd hpos (not_lt.mpr hcfg)
      · refine invFS_insert h rfl rfl ?_
        intro q hq
        cases hq

theorem invFS_handleArrivalWake {cfg : Config} {s : Sim} (stream : ℕ → ℚ) (h : InvFS s) :
    InvFS (handleArrivalWake cfg stream s) := by
  unfold handleArrivalWake
  dsimp only [draw]
  have h1 : InvFS (if cfg.workerCap + cfg.queueLimit ≤ inSystem s.procs then ({ s with nextReqId := s.nextReqId + 1, records := s.records ++ [⟨s.nextReqId + 1, s.now, s.now, 0, statusDropped⟩] } : Sim) else sched ({ s with nextReqId := s.nextReqId + 1, procs := s.procs ++ [⟨s.nextReqId + 1, s.now, 0, 0, 0, .created, false, false, false, false⟩] } : Sim) s.now 0 (.startRequest (s.nextReqId + 1))) := by
    split
    · refine invFS_appendRec h rfl rfl ?_
      simp [statusDropped, statusTimeout]
    · refine invFS_insert h rfl rfl ?_
      intro q hq
      cases hq
  generalize (if cfg.workerCap + cfg.queueLimit ≤ inSystem s.procs then ({ s with nextReqId := s.nextReqId + 1, records := s.records ++ [⟨s.nextReqId + 1, s.now, s.now, 0, statusDropped⟩] } : Sim) else sched ({ s with nextReqId := s.nextReqId + 1, procs := s.procs ++ [⟨s.nextReqId + 1, s.now, 0, 0, 0, .created, false, false, false, false⟩] } : Sim) s.now 0 (.startRequest (s.nextReqId + 1))) = s1 at h1 ⊢
  refine invFS_schedDelay ?_ _ 1 ?_
  · exact invFS_eqCore h1 rfl rfl
  · intro q hq
    cases hq

theorem invFS_dispatch {cfg : Config} {s : Sim} (stream : ℕ → ℚ) (hcfg : cfg.timeoutMs ≤ 0)
    (h : InvFS s) : ∀ k, (∀ pid, k ≠ EvKind.raceTimeout pid) → InvFS (dispatch cfg stream s k)
  | .arrivalWake, _ => invFS_handleArrivalWake stream h
  | .startRequest pid, _ => invFS_handleStartRequest hcfg h pid
  | .startService pid, _ => invFS_handleStartService stream h pid
  | .svcStep pid, _ => invFS_handleSvcStep h pid
  | .raceTimeout pid, hk => absurd rfl (hk pid)
  | .svcDone pid, _ => invFS_handleSvcDone h pid

theorem invFS_step {cfg : Config} {stream : ℕ → ℚ} {s s2 : Sim} (hcfg : cfg.timeoutMs ≤ 0)
    (h : InvFS s) (hs : step cfg stream s = some s2) : InvFS s2 := by
  unfold step at hs
  split at hs
  · cases hs
  · split at hs
    · cases hs
    · split at hs
      · cases hs
      · next e rest hev _ =>
          cases hs
          refine invFS_dispatch stream hcfg ?_ e.kind ?_
          · refine ⟨?_, h.noTimeoutRec⟩
            intro x hx
            refine h.noRaceEv x ?_
            rw [hev]
            exact List.mem_cons_of_mem e hx
          · intro pid
            refine h.noRaceEv e ?_ pid
            rw [hev]
            exact List.mem_cons_self e rest

theorem invFS_run {cfg : Config} {stream : ℕ → ℚ} (hcfg : cfg.timeoutMs ≤ 0) :
    ∀ (fuel : ℕ) (s : Sim), InvFS s → InvFS (run cfg stream fuel s)
  | 0, _, h => h
  | fuel + 1, s, h => by
      rw [run]
      cases hs : step cfg stream s with
      | none => exact h
      | some s2 => exact invFS_run hcfg fuel s2 (invFS_step hcfg h hs)

theorem invFS_initSim (cfg : Config) (stream : ℕ → ℚ) : InvFS (initSim cfg stream) := by
  unfold initSim
  dsimp only [draw]
  refine invFS_schedDelay ?_ _ 1 ?_
  · exact ⟨(by intro e he; cases he), (by intro r hr; cases hr)⟩
  · intro q hq
    cases hq

theorem invFS_simulateServer (cfg : Config) (stream : ℕ → ℚ) (hcfg : cfg.timeoutMs ≤ 0)
    (fuel : ℕ) : InvFS (simulateServer cfg stream fuel) :=
  invFS_run hcfg fuel _ (invFS_initSim cfg stream)

/-! ### Invariant group D: request-id bookkeeping

req_id values are handed out 1, 2, ... by the arrival loop; the recorded
flag of each request matches the number of rows carrying its id, so every
request yields at most one completed/timeout row; dropped rows get fresh
ids; every id up to nextReqId is accounted for. -/

structure InvD (w : Time) (nextReqId : ℕ) (procs : List Proc)
    (records : List ReqRecord) : Prop where
  pidsNodup : (procs.map Proc.pid).Nodup
  pidsRange : ∀ p ∈ procs, 1 ≤ p.pid ∧ p.pid ≤ nextReqId
  recRange : ∀ r ∈ records, 1 ≤ r.req_id ∧ r.req_id ≤ nextReqId
  recNodup : (records.map ReqRecord.req_id).Nodup
  recCount : ∀ p ∈ procs, (records.filter fun r => r.req_id = p.pid).length
      = if p.recorded = true ∧ w ≤ p.arrival then 1 else 0
  coverage : ∀ n, 1 ≤ n → n ≤ nextReqId →
      (∃ p ∈ procs, p.pid = n) ∨ ∃ r ∈ records, r.req_id = n ∧ r.status = statusDropped

/-- InvD stated of a whole state. -/
def InvDS (cfg : Config) (s : Sim) : Prop :=
  InvD cfg.warmupMs s.nextReqId s.procs s.records

/-- The fields of a process that group D reads. -/
def parEq (a b : Proc) : Prop :=
  b.pid = a.pid ∧ b.arrival = a.arrival ∧ b.recorded = a.recorded

theorem parEq_refl (a : Proc) : parEq a a := ⟨rfl, rfl, rfl⟩

theorem forall2_parEq_refl : ∀ l : List Proc, List.Forall₂ parEq l l
  | [] => List.Forall₂.nil
  | a :: l => List.Forall₂.cons (parEq_refl a) (forall2_parEq_refl l)

theorem forall2_parEq_trans : ∀ {l1 l2 l3 : List Proc}, List.Forall₂ parEq l1 l2 →
    List.Forall₂ parEq l2 l3 → List.Forall₂ parEq l1 l3
  | _, _, _, List.Forall₂.nil, List.Forall₂.nil => List.Forall₂.nil
  | _, _, _, List.Forall₂.cons h1 t1, List.Forall₂.cons h2 t2 =>
      List.Forall₂.cons ⟨h2.1.trans h1.1, h2.2.1.trans h1.2.1, h2.2.2.trans h1.2.2⟩
        (forall2_parEq_trans t1 t2)

theorem forall2_parEq_map_pid : ∀ {l1 l2 : List Proc}, List.Forall₂ parEq l1 l2 →
    l2.map Proc.pid = l1.map Proc.pid
  | _, _, List.Forall₂.nil => rfl
  | _, _, List.Forall₂.cons h t => by
      rw [List.map_cons, List.map_cons, h.1, forall2_parEq_map_pid t]

theorem forall2_parEq_mem_right : ∀ {l1 l2 : List Proc}, List.Forall₂ parEq l1 l2 →
    ∀ b ∈ l2, ∃ a ∈ l1, parEq a b
  | _, _, List.Forall₂.nil, b, hb => absurd hb (List.not_mem_nil b)
  | _, _, List.Forall₂.cons h t, b, hb => by
      rcases List.mem_cons.mp hb with rfl | hb
      · exact ⟨_, List.mem_cons_self _ _, h⟩
      · rcases forall2_parEq_mem_right t b hb with ⟨a, ha, hab⟩
        exact ⟨a, List.mem_cons_of_mem _ ha, hab⟩

theorem forall2_parEq_mem_left : ∀ {l1 l2 : List Proc}, List.Forall₂ parEq l1 l2 →
    ∀ a ∈ l1, ∃ b ∈ l2, parEq a b
  | _, _, List.Forall₂.nil, a, ha => absurd ha (List.not_mem_nil a)
  | _, _, List.Forall₂.cons h t, a, ha => by
      rcases List.mem_cons.mp ha with rfl | ha
      · exact ⟨_, List.mem_cons_self _ _, h⟩
      · rcases forall2_parEq_mem_left t a ha with ⟨b, hb, hab⟩
        exact ⟨b, List.mem_cons_of_mem _ hb, hab⟩

theorem forall2_parEq_updProc {pid : ℕ} {f : Proc → Proc}
    (hf : ∀ p, (f p).pid = p.pid ∧ (f p).arrival = p.arrival ∧ (f p).recorded = p.recorded) :
    ∀ l : List Proc, List.Forall₂ parEq l (updProc pid f l)
  | [] => List.Forall₂.nil
  | a :: l => by
      refine List.Forall₂.cons ?_ (forall2_parEq_updProc hf l)
      show parEq a (if a.pid = pid then f a else a)
      by_cases ha : a.pid = pid
      · rw [if_pos ha]; exact hf a
      · rw [if_neg ha]; exact parEq_refl a

/-- Transfer InvD across a parEq-related process list. -/
theorem invD_transfer {w : Time} {N : ℕ} {ps ps2 : List Proc} {rs : List ReqRecord}
    (h : InvD w N ps rs) (hpar : List.Forall₂ parEq ps ps2) : InvD w N ps2 rs := by
  refine ⟨?_, ?_, h.recRange, h.recNodup, ?_, ?_⟩
  · rw [forall2_parEq_map_pid hpar]; exact h.pidsNodup
  · intro p hp
    rcases forall2_parEq_mem_right hpar p hp with ⟨a, ha, hab⟩
    rw [hab.1]
    exact h.pidsRange a ha
  · intro p hp
    rcases forall2_parEq_mem_right hpar p hp with ⟨a, ha, hab⟩
    rw [hab.1, hab.2.1, hab.2.2]
    exact h.recCount a ha
  · intro n h1 h2
    rcases h.coverage n h1 h2 with ⟨p, hp, hpn⟩ | hr
    · rcases forall2_parEq_mem_left hpar p hp with ⟨b, hb, hab⟩
      exact Or.inl ⟨b, hb, by rw [hab.1, hpn]⟩
    · exact Or.inr hr

/-- D-equivalence of whole states: same ids and records, parEq processes. -/
def dEquiv (a b : Sim) : Prop :=
  b.nextReqId = a.nextReqId ∧ b.records = a.records ∧ List.Forall₂ parEq a.procs b.procs

theorem dEquiv_refl (a : Sim) : dEquiv a a := ⟨rfl, rfl, forall2_parEq_refl _⟩

theorem dEquiv_trans {a b c : Sim} (h1 : dEquiv a b) (h2 : dEquiv b c) : dEquiv a c :=
  ⟨h2.1.trans h1.1, h2.2.1.trans h1.2.1, forall2_parEq_trans h1.2.2 h2.2.2⟩

theorem invDS_dEquiv {cfg : Config} {a b : Sim} (h : InvDS cfg a) (he : dEquiv a b) :
    InvDS cfg b := by
  unfold InvDS at h ⊢
  rw [he.1, he.2.1]
  exact invD_transfer h he.2.2

/-- dEquiv for a state that only changes fields outside D, with processes
an updProc image preserving pid, arrival and the recorded flag. -/
theorem dEquiv_updD {a b : Sim} (hn : b.nextReqId = a.nextReqId)
    (hr : b.records = a.records) {pid : ℕ} {f : Proc → Proc}
    (hp : b.procs = updProc pid f a.procs)
    (hf : ∀ p, (f p).pid = p.pid ∧ (f p).arrival = p.arrival ∧ (f p).recorded = p.recorded) :
    dEquiv a b := by
  refine ⟨hn, hr, ?_⟩
  rw [hp]
  exact forall2_parEq_updProc hf a.procs

theorem dEquiv_eqCore {a b : Sim} (hn : b.nextReqId = a.nextReqId)
    (hr : b.records = a.records) (hp : b.procs = a.procs) : dEquiv a b := by
  refine ⟨hn, hr, ?_⟩
  rw [hp]
  exact forall2_parEq_refl _

theorem dEquiv_wRelease (s : Sim) (pid : ℕ) : dEquiv s (wRelease s pid) := by
  unfold wRelease
  dsimp only
  split
  · exact dEquiv_updD rfl rfl rfl (fun _ => ⟨rfl, rfl, rfl⟩)
  · refine dEquiv_trans (b := { s with procs := updProc pid (fun p => { p with wHeld := false }) s.procs }) ?_ ?_
    · exact dEquiv_updD rfl rfl rfl (fun _ => ⟨rfl, rfl, rfl⟩)
    · exact dEquiv_updD rfl rfl rfl (fun _ => ⟨rfl, rfl, rfl⟩)

theorem dEquiv_ioRelease (s : Sim) (pid : ℕ) : dEquiv s (ioRelease s pid) := by
  unfold ioRelease
  dsimp only
  split
  · exact dEquiv_updD rfl rfl rfl (fun _ => ⟨rfl, rfl, rfl⟩)
  · refine dEquiv_trans (b := { s with procs := updProc pid (fun p => { p with ioHeld := false }) s.procs }) ?_ ?_
    · exact dEquiv_updD rfl rfl rfl (fun _ => ⟨rfl, rfl, rfl⟩)
    · exact dEquiv_updD rfl rfl rfl (fun _ => ⟨rfl, rfl, rfl⟩)

theorem dEquiv_interruptSvc (s : Sim) (pid : ℕ) : dEquiv s (interruptSvc s pid) := by
  unfold interruptSvc
  cases hf : findProc pid s.procs with
  | none => exact dEquiv_refl s
  | some p =>
      dsimp only
      split
      · exact dEquiv_refl s
      · have hF : dEquiv s ({ s with wQueue := s.wQueue.filter (fun q => q ≠ pid), ioQueue := s.ioQueue.filter (fun q => q ≠ pid) } : Sim) := dEquiv_eqCore rfl rfl rfl
        generalize ({ s with wQueue := s.wQueue.filter (fun q => q ≠ pid), ioQueue := s.ioQueue.filter (fun q => q ≠ pid) } : Sim) = sF at hF ⊢
        have h2 : dEquiv s (if p.ioHeld = true then ioRelease sF pid else sF) := by
          split
          · exact dEquiv_trans hF (dEquiv_ioRelease sF pid)
          · exact hF
        generalize (if p.ioHeld = true then ioRelease sF pid else sF) = s2 at h2 ⊢
        have h3 : dEquiv s (if p.wHeld = true then wRelease s2 pid else s2) := by
          split
          · exact dEquiv_trans h2 (dEquiv_wRelease s2 pid)
          · exact h2
        generalize (if p.wHeld = true then wRelease s2 pid else s2) = s3 at h3 ⊢
        refine dEquiv_trans h3 ?_
        exact dEquiv_updD rfl rfl rfl (fun _ => ⟨rfl, rfl, rfl⟩)

theorem filter_len_zero {rs : List ReqRecord} {k : ℕ}
    (h : (rs.filter fun r => r.req_id = k).length = 0) : ∀ r ∈ rs, r.req_id ≠ k := by
  rw [List.length_eq_zero] at h
  intro r hr hk
  have hm : r ∈ rs.filter fun r => r.req_id = k :=
    List.mem_filter.mpr ⟨hr, by simp [hk]⟩
  rw [h] at hm
  cases hm

theorem filter_len_zero_of {rs : List ReqRecord} {k : ℕ}
    (h : ∀ r ∈ rs, r.req_id ≠ k) : (rs.filter fun r => r.req_id = k).length = 0 := by
  rw [List.length_eq_zero, List.filter_eq_nil]
  intro r hr
  simp [h r hr]

theorem pid_unique {ps : List Proc} (hnd : (ps.map Proc.pid).Nodup) :
    ∀ {p q : Proc}, p ∈ ps → q ∈ ps → p.pid = q.pid → p = q := by
  induction ps with
  | nil => intro p q hp; cases hp
  | cons a l ih =>
      rw [List.map_cons, List.nodup_cons] at hnd
      intro p q hp hq hpq
      rcases List.mem_cons.mp hp with rfl | hp2
      · rcases List.mem_cons.mp hq with rfl | hq2
        · rfl
        · exfalso
          apply hnd.1
          have hm : q.pid ∈ List.map Proc.pid l := List.mem_map_of_mem Proc.pid hq2
          rwa [← hpq] at hm
      · rcases List.mem_cons.mp hq with rfl | hq2
        · exfalso
          apply hnd.1
          have hm : p.pid ∈ List.map Proc.pid l := List.mem_map_of_mem Proc.pid hp2
          rwa [hpq] at hm
        · exact ih hnd.2 hp2 hq2 hpq

theorem updProc_map_pid2 (pid : ℕ) (f : Proc → Proc) (hf : ∀ p, (f p).pid = p.pid)
    (ps : List Proc) : (updProc pid f ps).map Proc.pid = ps.map Proc.pid :=
  updProc_map_pid hf ps

/-- Emitting the single record of a previously unrecorded request keeps
the bookkeeping: the request flips to recorded and its id now counts one
row. -/
theorem invD_emit {w : Time} {N : ℕ} {ps : List Proc} {rs : List ReqRecord}
    {pid : ℕ} {p : Proc} {rec : ReqRecord} (h : InvD w N ps rs)
    (hp : p ∈ ps) (hpid : p.pid = pid) (hrec : p.recorded = false)
    (hw : w ≤ p.arrival) (hid : rec.req_id = pid) :
    InvD w N (updProc pid (fun q => { q with recorded := true }) ps) (rs ++ [rec]) := by
  have hcnt0 : (rs.filter fun r => r.req_id = p.pid).length = 0 := by
    rw [h.recCount p hp, if_neg]
    intro hc
    rw [hrec] at hc
    cases hc.1
  have hnotin : ∀ r ∈ rs, r.req_id ≠ p.pid := filter_len_zero hcnt0
  refine ⟨?_, ?_, ?_, ?_, ?_, ?_⟩
  · rw [updProc_map_pid2 pid (fun q => { q with recorded := true }) (fun _ => rfl) ps]
    exact h.pidsNodup
  · intro q hq
    rcases mem_updProc hq with ⟨a, ha, rfl⟩
    by_cases hap : a.pid = pid
    · rw [if_pos hap]
      exact h.pidsRange a ha
    · rw [if_neg hap]
      exact h.pidsRange a ha
  · intro r hr
    rcases List.mem_append.mp hr with hr | hr
    · exact h.recRange r hr
    · rcases List.mem_singleton.mp hr with rfl
      rw [hid, ← hpid]
      exact h.pidsRange p hp
  · rw [List.map_append]
    rw [List.nodup_append]
    refine ⟨h.recNodup, List.nodup_singleton _, ?_⟩
    intro x hx hx2
    rcases List.mem_map.mp hx with ⟨r, hr, rfl⟩
    rcases List.mem_singleton.mp hx2 with h2
    rw [List.map_singleton, List.mem_singleton] at hx2
    exact hnotin r hr (by rw [hx2, hid, hpid])
  · intro q hq
    rcases mem_updProc hq with ⟨a, ha, rfl⟩
    by_cases hap : a.pid = pid
    · have : a = p := pid_unique h.pidsNodup ha hp (by rw [hap, hpid])
      subst this
      rw [if_pos hap]
      rw [List.filter_append, List.length_append]
      have hrecf : (List.filter (fun r => decide (r.req_id = a.pid)) [rec]).length = 1 := by
        simp [hid, hap]
      rw [hrecf, hcnt0]
      rw [if_pos]
      constructor
      · rfl
      · exact hw
    · rw [if_neg hap]
      rw [List.filter_append, List.length_append]
      have hrecf : (List.filter (fun r => decide (r.req_id = a.pid)) [rec]).length = 0 := by
        simp only [List.filter, List.length]
        have : ¬ rec.req_id = a.pid := by
          rw [hid]
          intro hc
          exact hap hc.symm
        simp [this]
      rw [hrecf, h.recCount a ha]
      omega
  · intro n h1 h2
    rcases h.coverage n h1 h2 with ⟨q, hq, hqn⟩ | ⟨r, hr, hrn⟩
    · by_cases hqp : q.pid = pid
      · exact Or.inl ⟨_, mem_updProc_target hq hqp, by simpa using hqn⟩
      · exact Or.inl ⟨q, mem_updProc_of_ne hq hqp, hqn⟩
    · exact Or.inr ⟨r, List.mem_append_left _ hr, hrn⟩

/-- Marking a pre-warmup request recorded without a row keeps the
bookkeeping. -/
theorem invD_mark {w : Time} {N : ℕ} {ps : List Proc} {rs : List ReqRecord}
    {pid : ℕ} {p : Proc} (h : InvD w N ps rs)
    (hp : p ∈ ps) (hpid : p.pid = pid) (hrec : p.recorded = false)
    (hnw : ¬ w ≤ p.arrival) :
    InvD w N (updProc pid (fun q => { q with recorded := true }) ps) rs := by
  refine ⟨?_, ?_, h.recRange, h.recNodup, ?_, ?_⟩
  · rw [updProc_map_pid2 pid (fun q => { q with recorded := true }) (fun _ => rfl) ps]
    exact h.pidsNodup
  · intro q hq
    rcases mem_updProc hq with ⟨a, ha, rfl⟩
    by_cases hap : a.pid = pid
    · rw [if_pos hap]; exact h.pidsRange a ha
    · rw [if_neg hap]; exact h.pidsRange a ha
  · intro q hq
    rcases mem_updProc hq with ⟨a, ha, rfl⟩
    by_cases hap : a.pid = pid
    · have : a = p := pid_unique h.pidsNodup ha hp (by rw [hap, hpid])
      subst this
      rw [if_pos hap]
      have hcnt0 : (rs.filter fun r => r.req_id = a.pid).length = 0 := by
        rw [h.recCount a ha, if_neg]
        intro hc
        rw [hrec] at hc
        cases hc.1
      rw [hcnt0, if_neg]
      intro hc
      exact hnw hc.2
    · rw [if_neg hap]
      exact h.recCount a ha
  · intro n h1 h2
    rcases h.coverage n h1 h2 with ⟨q, hq, hqn⟩ | hr
    · by_cases hqp : q.pid = pid
      · exact Or.inl ⟨_, mem_updProc_target hq hqp, by simpa using hqn⟩
      · exact Or.inl ⟨q, mem_updProc_of_ne hq hqp, hqn⟩
    · exact Or.inr hr

/-- A dropped arrival consumes a fresh id and appends its row at once. -/
theorem invD_drop {w : Time} {N : ℕ} {ps : List Proc} {rs : List ReqRecord}
    (h : InvD w N ps rs) (t : Time) :
    InvD w (N + 1) ps (rs ++ [⟨N + 1, t, t, 0, statusDropped⟩]) := by
  have hfresh : ∀ r ∈ rs, r.req_id ≠ N + 1 := by
    intro r hr hc
    have := (h.recRange r hr).2
    omega
  refine ⟨h.pidsNodup, ?_, ?_, ?_, ?_, ?_⟩
  · intro p hp
    have := h.pidsRange p hp
    omega
  · intro r hr
    rcases List.mem_append.mp hr with hr | hr
    · have := h.recRange r hr
      omega
    · rcases List.mem_singleton.mp hr with rfl
      exact ⟨Nat.succ_le_succ (Nat.zero_le N), le_rfl⟩
  · rw [List.map_append, List.nodup_append]
    refine ⟨h.recNodup, List.nodup_singleton _, ?_⟩
    intro x hx hx2
    rcases List.mem_map.mp hx with ⟨r, hr, rfl⟩
    rw [List.map_singleton, List.mem_singleton] at hx2
    exact hfresh r hr hx2
  · intro p hp
    rw [List.filter_append, List.length_append]
    have hz : (List.filter (fun r => decide (r.req_id = p.pid)) ([⟨N + 1, t, t, 0, statusDropped⟩] : List ReqRecord)).length = 0 := by
      have hne : ¬ (N + 1 = p.pid) := by
        have := (h.pidsRange p hp).2
        omega
      simp [hne]
    rw [hz, h.recCount p hp]
    omega
  · intro n h1 h2
    by_cases hn : n ≤ N
    · rcases h.coverage n h1 hn with ⟨q, hq, hqn⟩ | ⟨r, hr, hrn⟩
      · exact Or.inl ⟨q, hq, hqn⟩
      · exact Or.inr ⟨r, List.mem_append_left _ hr, hrn⟩
    · have : n = N + 1 := by omega
      subst this
      exact Or.inr ⟨⟨N + 1, t, t, 0, statusDropped⟩, List.mem_append_right _ (List.mem_singleton_self _), rfl, rfl⟩

/-- An admitted arrival consumes a fresh id and creates its process. -/
theorem invD_admit {w : Time} {N : ℕ} {ps : List Proc} {rs : List ReqRecord}
    (h : InvD w N ps rs) (t : Time) :
    InvD w (N + 1)
      (ps ++ [⟨N + 1, t, 0, 0, 0, Phase.created, false, false, false, false⟩]) rs := by
  refine ⟨?_, ?_, ?_, h.recNodup, ?_, ?_⟩
  · rw [List.map_append, List.nodup_append]
    refine ⟨h.pidsNodup, List.nodup_singleton _, ?_⟩
    intro x hx hx2
    rcases List.mem_map.mp hx with ⟨q, hq, rfl⟩
    rw [List.map_singleton, List.mem_singleton] at hx2
    have hx3 : q.pid = N + 1 := hx2
    have := (h.pidsRange q hq).2
    omega
  · intro p hp
    rcases List.mem_append.mp hp with hp | hp
    · have := h.pidsRange p hp
      omega
    · rcases List.mem_singleton.mp hp with rfl
      exact ⟨Nat.succ_le_succ (Nat.zero_le N), le_rfl⟩
  · intro r hr
    have := h.recRange r hr
    omega
  · intro p hp
    rcases List.mem_append.mp hp with hp | hp
    · exact h.recCount p hp
    · rcases List.mem_singleton.mp hp with rfl
      rw [if_neg]
      · refine filter_len_zero_of ?_
        intro r hr hc
        have := (h.recRange r hr).2
        simp at hc
        omega
      · intro hc
        cases hc.1
  · intro n h1 h2
    by_cases hn : n ≤ N
    · rcases h.coverage n h1 hn with ⟨q, hq, hqn⟩ | hr
      · exact Or.inl ⟨q, List.mem_append_left _ hq, hqn⟩
      · exact Or.inr hr
    · have : n = N + 1 := by omega
      subst this
      exact Or.inl ⟨⟨N + 1, t, 0, 0, 0, Phase.created, false, false, false, false⟩, List.mem_append_right _ (List.mem_singleton_self _), rfl⟩

theorem parEq_updProc_congr {pid : ℕ} {f : Proc → Proc}
    (hnat : ∀ a b, parEq a b → parEq (f a) (f b)) :
    ∀ {l1 l2 : List Proc}, List.Forall₂ parEq l1 l2 →
      List.Forall₂ parEq (updProc pid f l1) (updProc pid f l2)
  | _, _, List.Forall₂.nil => List.Forall₂.nil
  | _, _, List.Forall₂.cons hab t => by
      refine List.Forall₂.cons ?_ (parEq_updProc_congr hnat t)
      next a b _ _ =>
        show parEq (if a.pid = pid then f a else a) (if b.pid = pid then f b else b)
        rw [hab.1]
        by_cases hap : a.pid = pid
        · rw [if_pos hap, if_pos hap]
          exact hnat a b hab
        · rw [if_neg hap, if_neg hap]
          exact hab

theorem dEquiv_sched (s : Sim) (t : Time) (pr : ℕ) (k : EvKind) :
    dEquiv s (sched s t pr k) := dEquiv_eqCore rfl rfl rfl

theorem dEquiv_schedDelay (s : Sim) (d : Time) (pr : ℕ) (k : EvKind) :
    dEquiv s (schedDelay s d pr k) := by
  unfold schedDelay
  split
  · exact dEquiv_eqCore rfl rfl rfl
  · exact dEquiv_eqCore rfl rfl rfl

theorem invDS_finishSvc {cfg : Config} {s : Sim} (h : InvDS cfg s) (pid : ℕ) :
    InvDS cfg (finishSvc cfg s pid) := by
  unfold finishSvc
  have h1 : InvDS cfg (if cfg.isAsync then s else wRelease s pid) := by
    split
    · exact h
    · exact invDS_dEquiv h (dEquiv_wRelease s pid)
  generalize (if cfg.isAsync then s else wRelease s pid) = s1 at h1
  dsimp only
  split
  · exact h1
  · next p heq =>
      have hfs := findProc_some heq
      have h2 : InvDS cfg (if cfg.warmupMs ≤ p.arrival ∧ p.recorded = false then ({ s1 with procs := updProc pid (fun q => { q with recorded := true }) s1.procs, records := s1.records ++ [⟨p.pid, p.arrival, s1.now, s1.now - p.arrival, statusCompleted⟩] } : Sim) else s1) := by
        split
        · next hcond => exact invD_emit h1 hfs.1 hfs.2 hcond.2 hcond.1 hfs.2
        · exact h1
      generalize (if cfg.warmupMs ≤ p.arrival ∧ p.recorded = false then ({ s1 with procs := updProc pid (fun q => { q with recorded := true }) s1.procs, records := s1.records ++ [⟨p.pid, p.arrival, s1.now, s1.now - p.arrival, statusCompleted⟩] } : Sim) else s1) = s2 at h2
      refine invDS_dEquiv h2 ?_
      exact dEquiv_updD rfl rfl rfl (fun _ => ⟨rfl, rfl, rfl⟩)

theorem invDS_postStage {cfg : Config} {s : Sim} (h : InvDS cfg s) (pid : ℕ) :
    InvDS cfg (postStage cfg s pid) := by
  unfold postStage
  cases hf : findProc pid s.procs with
  | none => exact h
  | some p =>
      dsimp only
      split
      · split
        · split
          · refine invDS_dEquiv h ?_
            refine dEquiv_trans ?_ (dEquiv_schedDelay _ _ 1 _)
            exact dEquiv_updD rfl rfl rfl (fun _ => ⟨rfl, rfl, rfl⟩)
          · refine invDS_dEquiv h ?_
            exact dEquiv_updD rfl rfl rfl (fun _ => ⟨rfl, rfl, rfl⟩)
        · refine invDS_dEquiv h ?_
          refine dEquiv_trans ?_ (dEquiv_schedDelay _ _ 1 _)
          exact dEquiv_updD rfl rfl rfl (fun _ => ⟨rfl, rfl, rfl⟩)
      · exact invDS_finishSvc h pid

theorem invDS_ioStage {cfg : Config} {s : Sim} (h : InvDS cfg s) (pid : ℕ) :
    InvDS cfg (ioStage cfg s pid) := by
  unfold ioStage
  cases hf : findProc pid s.procs with
  | none => exact h
  | some p =>
      dsimp only
      split
      · split
        · refine invDS_dEquiv h ?_
          refine dEquiv_trans ?_ (dEquiv_schedDelay _ _ 1 _)
          exact dEquiv_updD rfl rfl rfl (fun _ => ⟨rfl, rfl, rfl⟩)
        · refine invDS_dEquiv h ?_
          exact dEquiv_updD rfl rfl rfl (fun _ => ⟨rfl, rfl, rfl⟩)
      · exact invDS_postStage h pid

theorem invDS_afterWorkerPre {cfg : Config} {s : Sim} (h : InvDS cfg s) (pid : ℕ) :
    InvDS cfg (afterWorkerPre cfg s pid) := by
  unfold afterWorkerPre
  cases hf : findProc pid s.procs with
  | none => exact h
  | some p =>
      dsimp only
      split
      · refine invDS_dEquiv h ?_
        refine dEquiv_trans ?_ (dEquiv_schedDelay _ _ 1 _)
        exact dEquiv_updD rfl rfl rfl (fun _ => ⟨rfl, rfl, rfl⟩)
      · exact invDS_ioStage h pid

theorem invDS_acquireWorkerPre {cfg : Config} {s : Sim} (h : InvDS cfg s) (pid : ℕ) :
    InvDS cfg (acquireWorkerPre cfg s pid) := by
  unfold acquireWorkerPre
  split
  · refine invDS_afterWorkerPre ?_ pid
    refine invDS_dEquiv h ?_
    exact dEquiv_updD rfl rfl rfl (fun _ => ⟨rfl, rfl, rfl⟩)
  · refine invDS_dEquiv h ?_
    exact dEquiv_updD rfl rfl rfl (fun _ => ⟨rfl, rfl, rfl⟩)

theorem invDS_handleStartService {cfg : Config} {s : Sim} (stream : ℕ → ℚ)
    (h : InvDS cfg s) (pid : ℕ) : InvDS cfg (handleStartService cfg stream s pid) := by
  unfold handleStartService
  cases hf : findProc pid s.procs with
  | none => exact h
  | some p =>
      dsimp only [draw]
      split
      · exact h
      · have hg : InvDS cfg ({ s with rngIdx := s.rngIdx + 1 + 1 + 1, draws := ((s.draws ++ [DrawTag.cpuD pid]) ++ [DrawTag.splitD pid]) ++ [DrawTag.ioD pid], procs := updProc pid (fun q => { q with cpuPre := cfg.cpuOf (stream s.rngIdx) * stream (s.rngIdx + 1), cpuPost := cfg.cpuOf (stream s.rngIdx) * (1 - stream (s.rngIdx + 1)), ioW := cfg.ioOf (stream (s.rngIdx + 1 + 1)) }) s.procs } : Sim) := by
          refine invDS_dEquiv h ?_
          exact dEquiv_updD rfl rfl rfl (fun _ => ⟨rfl, rfl, rfl⟩)
        split
        · split
          · exact hg
          · split
            · exact invDS_acquireWorkerPre hg pid
            · exact invDS_ioStage hg pid
        · exact invDS_acquireWorkerPre hg pid

theorem invDS_handleSvcStep {cfg : Config} {s : Sim} (h : InvDS cfg s) (pid : ℕ) :
    InvDS cfg (handleSvcStep cfg s pid) := by
  unfold handleSvcStep
  cases hf : findProc pid s.procs with
  | none => exact h
  | some p =>
      dsimp only
      split
      · exact invDS_afterWorkerPre h pid
      · split
        · exact invDS_ioStage (invDS_dEquiv h (dEquiv_wRelease s pid)) pid
        · exact invDS_ioStage h pid
      · refine invDS_dEquiv h ?_
        refine dEquiv_trans ?_ (dEquiv_schedDelay _ _ 1 _)
        exact dEquiv_updD rfl rfl rfl (fun _ => ⟨rfl, rfl, rfl⟩)
      · exact invDS_postStage (invDS_dEquiv h (dEquiv_ioRelease s pid)) pid
      · refine invDS_dEquiv h ?_
        refine dEquiv_trans ?_ (dEquiv_schedDelay _ _ 1 _)
        exact dEquiv_updD rfl rfl rfl (fun _ => ⟨rfl, rfl, rfl⟩)
      · split
        · exact invDS_finishSvc (invDS_dEquiv h (dEquiv_wRelease s pid)) pid
        · exact invDS_finishSvc h pid
      · exact h

theorem invDS_handleRaceTimeout {cfg : Config} {s : Sim} (h : InvDS cfg s) (pid : ℕ) :
    InvDS cfg (handleRaceTimeout cfg s pid) := by
  unfold handleRaceTimeout
  cases hf : findProc pid s.procs with
  | none => exact h
  | some p =>
      dsimp only
      split
      · exact h
      · have hfs := findProc_some hf
        have hc : InvDS cfg (if p.recorded = false then ({ interruptSvc (if cfg.warmupMs ≤ p.arrival then ({ s with records := s.records ++ [⟨p.pid, p.arrival, s.now, cfg.timeoutMs, statusTimeout⟩] } : Sim) else s) pid with procs := updProc pid (fun q => { q with recorded := true }) (interruptSvc (if cfg.warmupMs ≤ p.arrival then ({ s with records := s.records ++ [⟨p.pid, p.arrival, s.now, cfg.timeoutMs, statusTimeout⟩] } : Sim) else s) pid).procs } : Sim) else s) := by
          split
          · next hnr =>
              by_cases hw : cfg.warmupMs ≤ p.arrival
              · rw [if_pos hw]
                have hd := dEquiv_interruptSvc ({ s with records := s.records ++ [⟨p.pid, p.arrival, s.now, cfg.timeoutMs, statusTimeout⟩] } : Sim) pid
                show InvD cfg.warmupMs _ _ _
                rw [hd.1, hd.2.1]
                refine invD_transfer (invD_emit h hfs.1 hfs.2 hnr hw hfs.2) ?_
                refine parEq_updProc_congr ?_ hd.2.2
                intro a b hab
                exact ⟨hab.1, hab.2.1, rfl⟩
              · rw [if_neg hw]
                have hd := dEquiv_interruptSvc s pid
                show InvD cfg.warmupMs _ _ _
                rw [hd.1, hd.2.1]
                refine invD_transfer (invD_mark h hfs.1 hfs.2 hnr hw) ?_
                refine parEq_updProc_congr ?_ hd.2.2
                intro a b hab
                exact ⟨hab.1, hab.2.1, rfl⟩
          · exact h
        generalize (if p.recorded = false then ({ interruptSvc (if cfg.warmupMs ≤ p.arrival then ({ s with records := s.records ++ [⟨p.pid, p.arrival, s.now, cfg.timeoutMs, statusTimeout⟩] } : Sim) else s) pid with procs := updProc pid (fun q => { q with recorded := true }) (interruptSvc (if cfg.warmupMs ≤ p.arrival then ({ s with records := s.records ++ [⟨p.pid, p.arrival, s.now, cfg.timeoutMs, statusTimeout⟩] } : Sim) else s) pid).procs } : Sim) else s) = s1 at hc
        refine invDS_dEquiv hc ?_
        exact dEquiv_updD rfl rfl rfl (fun _ => ⟨rfl, rfl, rfl⟩)

theorem invDS_handleSvcDone {cfg : Config} {s : Sim} (h : InvDS cfg s) (pid : ℕ) :
    InvDS cfg (handleSvcDone s pid) := by
  unfold handleSvcDone
  cases hf : findProc pid s.procs with
  | none => exact h
  | some p =>
      dsimp only
      split
      · exact h
      · refine invDS_dEquiv h ?_
        exact dEquiv_updD rfl rfl rfl (fun _ => ⟨rfl, rfl, rfl⟩)

theorem invDS_handleStartRequest {cfg : Config} {s : Sim} (h : InvDS cfg s) (pid : ℕ) :
    InvDS cfg (handleStartRequest cfg s pid) := by
  unfold handleStartRequest
  cases hf : findProc pid s.procs with
  | none => exact h
  | some p =>
      dsimp only
      split
      · refine invDS_dEquiv h ?_
        refine dEquiv_trans (dEquiv_sched s s.now 0 (EvKind.startService pid)) ?_
        exact dEquiv_sched _ _ 1 _
      · refine invDS_dEquiv h ?_
        exact dEquiv_sched s s.now 0 _

theorem invDS_handleArrivalWake {cfg : Config} {s : Sim} (stream : ℕ → ℚ)
    (h : InvDS cfg s) : InvDS cfg (handleArrivalWake cfg stream s) := by
  unfold handleArrivalWake
  dsimp only [draw]
  have h1 : InvDS cfg (if cfg.workerCap + cfg.queueLimit ≤ inSystem s.procs then ({ s with nextReqId := s.nextReqId + 1, records := s.records ++ [⟨s.nextReqId + 1, s.now, s.now, 0, statusDropped⟩] } : Sim) else sched ({ s with nextReqId := s.nextReqId + 1, procs := s.procs ++ [⟨s.nextReqId + 1, s.now, 0, 0, 0, .created, false, false, false, false⟩] } : Sim) s.now 0 (.startRequest (s.nextReqId + 1))) := by
    split
    · exact invD_drop h s.now
    · show InvD cfg.warmupMs _ _ _
      exact invD_admit h s.now
  generalize (if cfg.workerCap + cfg.queueLimit ≤ inSystem s.procs then ({ s with nextReqId := s.nextReqId + 1, records := s.records ++ [⟨s.nextReqId + 1, s.now, s.now, 0, statusDropped⟩] } : Sim) else sched ({ s with nextReqId := s.nextReqId + 1, procs := s.procs ++ [⟨s.nextReqId + 1, s.now, 0, 0, 0, .created, false, false, false, false⟩] } : Sim) s.now 0 (.startRequest (s.nextReqId + 1))) = s1 at h1
  refine invDS_dEquiv h1 ?_
  exact dEquiv_schedDelay _ _ 1 _

theorem invDS_dispatch {cfg : Config} {s : Sim} (stream : ℕ → ℚ) (h : InvDS cfg s) :
    ∀ k, InvDS cfg (dispatch cfg stream s k)
  | .arrivalWake => invDS_handleArrivalWake stream h
  | .startRequest pid => invDS_handleStartRequest h pid
  | .startService pid => invDS_handleStartService stream h pid
  | .svcStep pid => invDS_handleSvcStep h pid
  | .raceTimeout pid => invDS_handleRaceTimeout h pid
  | .svcDone pid => invDS_handleSvcDone h pid

theorem invDS_step {cfg : Config} {stream : ℕ → ℚ} {s s2 : Sim} (h : InvDS cfg s)
    (hs : step cfg stream s = some s2) : InvDS cfg s2 := by
  unfold step at hs
  split at hs
  · cases hs
  · split at hs
    · cases hs
    · split at hs
      · cases hs
      · cases hs
        refine invDS_dispatch stream ?_ _
        exact h

theorem invDS_run {cfg : Config} {stream : ℕ → ℚ} :
    ∀ (fuel : ℕ) (s : Sim), InvDS cfg s → InvDS cfg (run cfg stream fuel s)
  | 0, _, h => h
  | fuel + 1, s, h => by
      rw [run]
      cases hs : step cfg stream s with
      | none => exact h
      | some s2 => exact invDS_run fuel s2 (invDS_step h hs)

theorem invDS_initSim (cfg : Config) (stream : ℕ → ℚ) : InvDS cfg (initSim cfg stream) := by
  unfold initSim
  dsimp only [draw]
  refine invDS_dEquiv ?_ (dEquiv_schedDelay _ _ 1 _)
  show InvD cfg.warmupMs 0 [] []
  refine ⟨List.nodup_nil, ?_, ?_, List.nodup_nil, ?_, ?_⟩
  · intro p hp; cases hp
  · intro r hr; cases hr
  · intro p hp; cases hp
  · intro n h1 h2; omega

theorem invDS_simulateServer (cfg : Config) (stream : ℕ → ℚ) (fuel : ℕ) :
    InvDS cfg (simulateServer cfg stream fuel) :=
  invDS_run fuel _ (invDS_initSim cfg stream)

/-! ### Invariant group P: resource pools

Slot bookkeeping of worker_pool and io_pool: which service phase holds
which slot (the scoped `with` blocks of the two disciplines), the FIFO
wait queues hold distinct waiting pids, and in_use never exceeds the
capacity.  A mid-handler form exempts the running process, whose frames
track its actual holds until the handler restores coherence. -/

/-- Worker-slot holding prescribed by the service phase: sync holds its
worker from the initial grant to completion (through the whole io stage),
async only during the two cpu stages. -/
def wExp (isA : Bool) : Phase → Bool
  | .wGrant1 => true
  | .cpuPreP => true
  | .ioWaitP => !isA
  | .ioGrant => !isA
  | .ioP => !isA
  | .wGrant2 => true
  | .cpuPostP => true
  | _ => false

/-- Io-slot holding prescribed by the service phase. -/
def ioExp : Phase → Bool
  | .ioGrant => true
  | .ioP => true
  | _ => false

/-- Phase/hold coherence of one process. -/
def cohP (isA : Bool) (p : Proc) : Prop :=
  p.wHeld = wExp isA p.phase ∧ p.ioHeld = ioExp p.phase

/-- The queue/capacity part of the pool invariant. -/
structure InvQ (cfg : Config) (N : ℕ) (wq ioq : List ℕ) (procs : List Proc) : Prop where
  pidsNodup : (procs.map Proc.pid).Nodup
  pidsLe : ∀ p ∈ procs, p.pid ≤ N
  wCap : wCount procs ≤ cfg.workerCap
  ioCapLe : ioCount procs ≤ cfg.ioCap
  wqMem : ∀ q ∈ wq, ∃ p ∈ procs, p.pid = q ∧ (p.phase = .wWait1 ∨ p.phase = .wWait2)
  ioqMem : ∀ q ∈ ioq, ∃ p ∈ procs, p.pid = q ∧ p.phase = .ioWaitP
  wqNodup : wq.Nodup
  ioqNodup : ioq.Nodup
  asyncPre : cfg.isAsync = true → ∀ p ∈ procs,
      p.phase = .wWait1 ∨ p.phase = .wGrant1 → 0 < p.cpuPre

/-- The full pool invariant: the queue part plus coherence of every
process. -/
def InvP (cfg : Config) (N : ℕ) (wq ioq : List ℕ) (procs : List Proc) : Prop :=
  InvQ cfg N wq ioq procs ∧ ∀ p ∈ procs, cohP cfg.isAsync p

/-- InvP stated of a whole state. -/
def InvPS (cfg : Config) (s : Sim) : Prop :=
  InvP cfg s.nextReqId s.wQueue s.ioQueue s.procs

/-- Mid-handler view of the pool invariant: the running process pid is
exempted from coherence and absent from both wait queues, and its current
record is pp. -/
structure PMid (cfg : Config) (pid : ℕ) (pp : Proc) (s : Sim) : Prop where
  hQ : InvQ cfg s.nextReqId s.wQueue s.ioQueue s.procs
  hx : ∀ p ∈ s.procs, p.pid ≠ pid → cohP cfg.isAsync p
  hf : findProc pid s.procs = some pp
  hnw : pid ∉ s.wQueue
  hnio : pid ∉ s.ioQueue

theorem countP_updProc_congr {g : Proc → Bool} {pid : ℕ} {f : Proc → Proc}
    {ps : List Proc} (hg : ∀ p, g (f p) = g p) :
    (updProc pid f ps).countP g = ps.countP g := by
  unfold updProc
  rw [List.countP_map]
  refine List.countP_congr ?_
  intro p _
  by_cases h : p.pid = pid
  · simp [Function.comp, h, hg]
  · simp [Function.comp, h]

theorem exists_pid_phase_updProc {P : Phase → Prop} {pid q : ℕ} {f : Proc → Proc}
    {ps : List Proc}
    (hfid : ∀ p, (f p).pid = p.pid) (hph : ∀ p, (f p).phase = p.phase)
    (h : ∃ p ∈ ps, p.pid = q ∧ P p.phase) :
    ∃ p ∈ updProc pid f ps, p.pid = q ∧ P p.phase := by
  rcases h with ⟨p, hp, hq, hP⟩
  by_cases hc : p.pid = pid
  · refine ⟨f p, mem_updProc_target hp hc, ?_, ?_⟩
    · rw [hfid, hq]
    · rw [hph]; exact hP
  · exact ⟨p, mem_updProc_of_ne hp hc, hq, hP⟩

theorem exists_pid_phase_updProc_ne {P : Phase → Prop} {pid q : ℕ} {f : Proc → Proc}
    {ps : List Proc} (hne : q ≠ pid)
    (h : ∃ p ∈ ps, p.pid = q ∧ P p.phase) :
    ∃ p ∈ updProc pid f ps, p.pid = q ∧ P p.phase := by
  rcases h with ⟨p, hp, hq, hP⟩
  exact ⟨p, mem_updProc_of_ne hp (by rw [hq]; exact hne), hq, hP⟩

theorem pmid_of_invPS {cfg : Config} {s : Sim} {pid : ℕ} {pp : Proc}
    (h : InvPS cfg s) (hf : findProc pid s.procs = some pp)
    (h1 : pp.phase ≠ .wWait1) (h2 : pp.phase ≠ .wWait2) (h3 : pp.phase ≠ .ioWaitP) :
    PMid cfg pid pp s := by
  obtain ⟨hQ, hcoh⟩ := h
  have hfs := findProc_some hf
  refine ⟨hQ, fun p hp _ => hcoh p hp, hf, ?_, ?_⟩
  · intro hmem
    rcases hQ.wqMem pid hmem with ⟨p, hp, hpid, hph⟩
    have he : p = pp := pid_unique hQ.pidsNodup hp hfs.1 (by rw [hpid, hfs.2])
    rw [he] at hph
    rcases hph with hph | hph
    · exact h1 hph
    · exact h2 hph
  · intro hmem
    rcases hQ.ioqMem pid hmem with ⟨p, hp, hpid, hph⟩
    have he : p = pp := pid_unique hQ.pidsNodup hp hfs.1 (by rw [hpid, hfs.2])
    rw [he] at hph
    exact h3 hph

theorem invPS_of_pmid_coh {cfg : Config} {s : Sim} {pid : ℕ} {pp : Proc}
    (h : PMid cfg pid pp s) (hc : cohP cfg.isAsync pp) : InvPS cfg s := by
  refine ⟨h.hQ, ?_⟩
  intro p hp
  by_cases hpe : p.pid = pid
  · have hfs := findProc_some h.hf
    have he : p = pp := pid_unique h.hQ.pidsNodup hp hfs.1 (by rw [hpe, hfs.2])
    rw [he]; exact hc
  · exact h.hx p hp hpe

theorem pmid_eqCore {cfg : Config} {pid : ℕ} {pp : Proc} {s b : Sim} (h : PMid cfg pid pp s)
    (hn : b.nextReqId = s.nextReqId) (hw : b.wQueue = s.wQueue)
    (hio : b.ioQueue = s.ioQueue) (hp : b.procs = s.procs) : PMid cfg pid pp b := by
  refine ⟨?_, ?_, ?_, ?_, ?_⟩
  · rw [hn, hw, hio, hp]; exact h.hQ
  · rw [hp]; exact h.hx
  · rw [hp]; exact h.hf
  · rw [hw]; exact h.hnw
  · rw [hio]; exact h.hnio

theorem invPS_eqCore {cfg : Config} {s b : Sim} (h : InvPS cfg s)
    (hn : b.nextReqId = s.nextReqId) (hw : b.wQueue = s.wQueue)
    (hio : b.ioQueue = s.ioQueue) (hp : b.procs = s.procs) : InvPS cfg b := by
  unfold InvPS at h ⊢
  rw [hn, hw, hio, hp]
  exact h

theorem pidsLe_updProc {N pid : ℕ} {f : Proc → Proc} {ps : List Proc}
    (hfid : ∀ p, (f p).pid = p.pid) (h : ∀ p ∈ ps, p.pid ≤ N) :
    ∀ p ∈ updProc pid f ps, p.pid ≤ N := by
  intro p hp
  rcases mem_updProc hp with ⟨p0, hp0, rfl⟩
  by_cases hc : p0.pid = pid
  · rw [if_pos hc, hfid]; exact h p0 hp0
  · rw [if_neg hc]; exact h p0 hp0

theorem pmid_updAny {cfg : Config} {pid : ℕ} {pp : Proc} {s b : Sim}
    (h : PMid cfg pid pp s) {f : Proc → Proc}
    (hfid : ∀ p, (f p).pid = p.pid)
    (hcw : (updProc pid f s.procs).countP (fun p => p.wHeld) ≤ cfg.workerCap)
    (hcio : (updProc pid f s.procs).countP (fun p => p.ioHeld) ≤ cfg.ioCap)
    (hap : cfg.isAsync = true → ((f pp).phase = .wWait1 ∨ (f pp).phase = .wGrant1) →
      0 < (f pp).cpuPre)
    (hb : b.procs = updProc pid f s.procs) (hn : b.nextReqId = s.nextReqId)
    (hw : b.wQueue = s.wQueue) (hio : b.ioQueue = s.ioQueue) :
    PMid cfg pid (f pp) b := by
  have hfs := findProc_some h.hf
  refine ⟨⟨?_, ?_, ?_, ?_, ?_, ?_, ?_, ?_, ?_⟩, ?_, ?_, ?_, ?_⟩
  · rw [hb, updProc_map_pid hfid]; exact h.hQ.pidsNodup
  · rw [hb, hn]
    exact pidsLe_updProc hfid h.hQ.pidsLe
  · rw [hb]; exact hcw
  · rw [hb]; exact hcio
  · intro q hq
    rw [hw] at hq
    rw [hb]
    have hne : q ≠ pid := fun he => h.hnw (he ▸ hq)
    exact @exists_pid_phase_updProc_ne (fun ph => ph = Phase.wWait1 ∨ ph = Phase.wWait2)
      pid q f s.procs hne (h.hQ.wqMem q hq)
  · intro q hq
    rw [hio] at hq
    rw [hb]
    have hne : q ≠ pid := fun he => h.hnio (he ▸ hq)
    exact @exists_pid_phase_updProc_ne (fun ph => ph = Phase.ioWaitP)
      pid q f s.procs hne (h.hQ.ioqMem q hq)
  · rw [hw]; exact h.hQ.wqNodup
  · rw [hio]; exact h.hQ.ioqNodup
  · intro hA p hp hph
    rw [hb] at hp
    rcases mem_updProc hp with ⟨p0, hp0, rfl⟩
    by_cases hc : p0.pid = pid
    · rw [if_pos hc] at hph ⊢
      have he : p0 = pp := pid_unique h.hQ.pidsNodup hp0 hfs.1 (by rw [hc, hfs.2])
      rw [he] at hph ⊢
      exact hap hA hph
    · rw [if_neg hc] at hph ⊢
      exact h.hQ.asyncPre hA p0 hp0 hph
  · intro p hp hpe
    rw [hb] at hp
    rcases mem_updProc hp with ⟨p0, hp0, rfl⟩
    by_cases hc : p0.pid = pid
    · rw [if_pos hc] at hpe
      exact absurd (by rw [hfid]; exact hc) hpe
    · rw [if_neg hc] at hpe ⊢
      exact h.hx p0 hp0 hc
  · rw [hb, findProc_updProc hfid, h.hf]
    dsimp only [Option.map]
    rw [if_pos hfs.2]
  · rw [hw]; exact h.hnw
  · rw [hio]; exact h.hnio

theorem pmid_updProc {cfg : Config} {pid : ℕ} {pp : Proc} {s b : Sim}
    (h : PMid cfg pid pp s) {f : Proc → Proc}
    (hfid : ∀ p, (f p).pid = p.pid)
    (hfw : ∀ p, (f p).wHeld = p.wHeld) (hfio : ∀ p, (f p).ioHeld = p.ioHeld)
    (hap : cfg.isAsync = true → ((f pp).phase = .wWait1 ∨ (f pp).phase = .wGrant1) →
      0 < (f pp).cpuPre)
    (hb : b.procs = updProc pid f s.procs) (hn : b.nextReqId = s.nextReqId)
    (hw : b.wQueue = s.wQueue) (hio : b.ioQueue = s.ioQueue) :
    PMid cfg pid (f pp) b := by
  refine pmid_updAny h hfid ?_ ?_ hap hb hn hw hio
  · rw [countP_updProc_congr hfw]; exact h.hQ.wCap
  · rw [countP_updProc_congr hfio]; exact h.hQ.ioCapLe

theorem countP_updProc_congr2 (g : Proc → Bool) (pid : ℕ) (f : Proc → Proc)
    (hg : ∀ p, g (f p) = g p) (ps : List Proc) :
    (updProc pid f ps).countP g = ps.countP g := countP_updProc_congr hg

theorem findProc_updProc2 (pid pid' : ℕ) (f : Proc → Proc)
    (hf : ∀ p, (f p).pid = p.pid) (ps : List Proc) :
    findProc pid (updProc pid' f ps)
      = (findProc pid ps).map fun p => if p.pid = pid' then f p else p :=
  findProc_updProc hf

/-- Exit of a sync/async `with worker_pool.request()` block while the
exiting process is mid-handler: the slot moves to the FIFO head (if any)
with a net-neutral in_use count, and everyone else stays coherent. -/
theorem pmid_wRelease {cfg : Config} {pid : ℕ} {pp : Proc} {s : Sim}
    (h : PMid cfg pid pp s) (hw : pp.wHeld = true) :
    PMid cfg pid ({ pp with wHeld := false }) (wRelease s pid) := by
  have hfs := findProc_some h.hf
  have hc1 : wCount (updProc pid (fun p => { p with wHeld := false }) s.procs) + 1
      = wCount s.procs := by
    have hcc := @countP_updProc (fun p => p.wHeld) pid (fun p => { p with wHeld := false })
      s.procs pp h.hQ.pidsNodup hfs.1 hfs.2
    simpa [wCount, hw] using hcc
  have h1 : PMid cfg pid ({ pp with wHeld := false })
      ({ s with procs := updProc pid (fun p => { p with wHeld := false }) s.procs } : Sim) := by
    refine @pmid_updAny cfg pid pp s _ h (fun p => { p with wHeld := false })
      (fun p => rfl) ?_ ?_ ?_ rfl rfl rfl rfl
    · have h2 := h.hQ.wCap
      show wCount _ ≤ _
      omega
    · rw [countP_updProc_congr2 (fun p => p.ioHeld) pid (fun p => { p with wHeld := false })
        (fun p => rfl) s.procs]
      exact h.hQ.ioCapLe
    · exact fun hA hph => h.hQ.asyncPre hA pp hfs.1 hph
  unfold wRelease
  dsimp only
  split
  · exact h1
  · next hq1 t heq =>
      have hh1 : hq1 ∈ s.wQueue := by rw [heq]; exact List.mem_cons_self hq1 t
      have hne1 : hq1 ≠ pid := fun he => h.hnw (he ▸ hh1)
      rcases h.hQ.wqMem hq1 hh1 with ⟨pw, hpw, hpwid, hph⟩
      have hpwne : pw.pid ≠ pid := by rw [hpwid]; exact hne1
      have hcohw := h.hx pw hpw hpwne
      have hpwW : pw.wHeld = false := by
        rcases hph with h' | h'
        · simp [hcohw.1, h', wExp]
        · simp [hcohw.1, h', wExp]
      have hpwIo : pw.ioHeld = false := by
        rcases hph with h' | h'
        · simp [hcohw.2, h', ioExp]
        · simp [hcohw.2, h', ioExp]
      have hpw1 : pw ∈ updProc pid (fun p => { p with wHeld := false }) s.procs :=
        mem_updProc_of_ne hpw hpwne
      have hnd1 : ((updProc pid (fun p => { p with wHeld := false }) s.procs).map Proc.pid).Nodup := by
        rw [updProc_map_pid2 pid (fun p => { p with wHeld := false }) (fun p => rfl) s.procs]
        exact h.hQ.pidsNodup
      have hc2 : wCount (updProc hq1 (fun p => { p with wHeld := true, phase := grantPhase p.phase })
            (updProc pid (fun p => { p with wHeld := false }) s.procs))
          = wCount s.procs := by
        have hcc := @countP_updProc (fun p => p.wHeld) hq1
          (fun p => { p with wHeld := true, phase := grantPhase p.phase })
          (updProc pid (fun p => { p with wHeld := false }) s.procs) pw hnd1 hpw1 hpwid
        have hcc2 : wCount (updProc hq1 (fun p => { p with wHeld := true, phase := grantPhase p.phase })
              (updProc pid (fun p => { p with wHeld := false }) s.procs))
            = wCount (updProc pid (fun p => { p with wHeld := false }) s.procs) + 1 := by
          simpa [wCount, hpwW] using hcc
        omega
      have hio2 : ioCount (updProc hq1 (fun p => { p with wHeld := true, phase := grantPhase p.phase })
            (updProc pid (fun p => { p with wHeld := false }) s.procs))
          = ioCount s.procs := by
        unfold ioCount
        rw [countP_updProc_congr2 (fun p => p.ioHeld) hq1
          (fun p => { p with wHeld := true, phase := grantPhase p.phase }) (fun p => rfl) _]
        rw [countP_updProc_congr2 (fun p => p.ioHeld) pid (fun p => { p with wHeld := false })
          (fun p => rfl) s.procs]
      have hnd2 : ((updProc hq1 (fun p => { p with wHeld := true, phase := grantPhase p.phase })
            (updProc pid (fun p => { p with wHeld := false }) s.procs)).map Proc.pid).Nodup := by
        rw [updProc_map_pid2 hq1 (fun p => { p with wHeld := true, phase := grantPhase p.phase })
          (fun p => rfl) _]
        exact hnd1
      have hle2 : ∀ p ∈ updProc hq1 (fun p => { p with wHeld := true, phase := grantPhase p.phase })
            (updProc pid (fun p => { p with wHeld := false }) s.procs), p.pid ≤ s.nextReqId := by
        refine pidsLe_updProc ?_ (pidsLe_updProc ?_ h.hQ.pidsLe)
        · exact fun p => rfl
        · exact fun p => rfl
      have hwq2 : ∀ q ∈ t, ∃ p ∈ updProc hq1 (fun p => { p with wHeld := true, phase := grantPhase p.phase })
            (updProc pid (fun p => { p with wHeld := false }) s.procs),
            p.pid = q ∧ (p.phase = Phase.wWait1 ∨ p.phase = Phase.wWait2) := by
        intro q hq
        have hqs : q ∈ s.wQueue := by rw [heq]; exact List.mem_cons_of_mem hq1 hq
        have hqnp : q ≠ pid := fun he => h.hnw (he ▸ hqs)
        have hqnh : q ≠ hq1 := by
          intro he
          have hnd := h.hQ.wqNodup
          rw [heq] at hnd
          exact (List.nodup_cons.mp hnd).1 (he ▸ hq)
        refine @exists_pid_phase_updProc_ne (fun ph => ph = Phase.wWait1 ∨ ph = Phase.wWait2)
          hq1 q _ _ hqnh ?_
        exact @exists_pid_phase_updProc_ne (fun ph => ph = Phase.wWait1 ∨ ph = Phase.wWait2)
          pid q _ _ hqnp (h.hQ.wqMem q hqs)
      have hioq2 : ∀ q ∈ s.ioQueue, ∃ p ∈ updProc hq1 (fun p => { p with wHeld := true, phase := grantPhase p.phase })
            (updProc pid (fun p => { p with wHeld := false }) s.procs),
            p.pid = q ∧ p.phase = Phase.ioWaitP := by
        intro q hq
        have hqnp : q ≠ pid := fun he => h.hnio (he ▸ hq)
        rcases h.hQ.ioqMem q hq with ⟨p0, hp0, hp0id, hp0ph⟩
        have hqnh : q ≠ hq1 := by
          intro he
          have hpe : p0 = pw := pid_unique h.hQ.pidsNodup hp0 hpw (by rw [hp0id, hpwid, he])
          rw [hpe] at hp0ph
          rcases hph with h' | h'
          · rw [h'] at hp0ph; cases hp0ph
          · rw [h'] at hp0ph; cases hp0ph
        refine @exists_pid_phase_updProc_ne (fun ph => ph = Phase.ioWaitP) hq1 q _ _ hqnh ?_
        exact @exists_pid_phase_updProc_ne (fun ph => ph = Phase.ioWaitP) pid q _ _ hqnp
          ⟨p0, hp0, hp0id, hp0ph⟩
      have hwqnd2 : t.Nodup := by
        have hnd := h.hQ.wqNodup
        rw [heq] at hnd
        exact (List.nodup_cons.mp hnd).2
      have hap2 : cfg.isAsync = true → ∀ p ∈ updProc hq1 (fun p => { p with wHeld := true, phase := grantPhase p.phase })
            (updProc pid (fun p => { p with wHeld := false }) s.procs),
            p.phase = Phase.wWait1 ∨ p.phase = Phase.wGrant1 → 0 < p.cpuPre := by
        intro hA p hp hph2
        rcases mem_updProc hp with ⟨p1, hp1, rfl⟩
        by_cases hg1 : p1.pid = hq1
        · rw [if_pos hg1] at hph2 ⊢
          have hpe : p1 = pw := pid_unique hnd1 hp1 hpw1 (by rw [hg1, hpwid])
          rw [hpe] at hph2 ⊢
          rcases hph with h' | h'
          · have h3 := h.hQ.asyncPre hA pw hpw (Or.inl h')
            simpa using h3
          · exfalso
            simp [h', grantPhase] at hph2
        · rw [if_neg hg1] at hph2 ⊢
          rcases mem_updProc hp1 with ⟨p0, hp0, rfl⟩
          by_cases hc0 : p0.pid = pid
          · rw [if_pos hc0] at hph2 ⊢
            have hpe : p0 = pp := pid_unique h.hQ.pidsNodup hp0 hfs.1 (by rw [hc0, hfs.2])
            rw [hpe] at hph2 ⊢
            exact h.hQ.asyncPre hA pp hfs.1 hph2
          · rw [if_neg hc0] at hph2 ⊢
            exact h.hQ.asyncPre hA p0 hp0 hph2
      have hx2 : ∀ p ∈ updProc hq1 (fun p => { p with wHeld := true, phase := grantPhase p.phase })
            (updProc pid (fun p => { p with wHeld := false }) s.procs),
            p.pid ≠ pid → cohP cfg.isAsync p := by
        intro p hp hpne
        rcases mem_updProc hp with ⟨p1, hp1, rfl⟩
        by_cases hg1 : p1.pid = hq1
        · rw [if_pos hg1] at hpne ⊢
          have hpe : p1 = pw := pid_unique hnd1 hp1 hpw1 (by rw [hg1, hpwid])
          rw [hpe]
          constructor
          · show true = wExp cfg.isAsync (grantPhase pw.phase)
            rcases hph with h' | h'
            · simp [h', grantPhase, wExp]
            · simp [h', grantPhase, wExp]
          · show pw.ioHeld = ioExp (grantPhase pw.phase)
            rcases hph with h' | h'
            · simp [h', hpwIo, grantPhase, ioExp]
            · simp [h', hpwIo, grantPhase, ioExp]
        · rw [if_neg hg1] at hpne ⊢
          rcases mem_updProc hp1 with ⟨p0, hp0, rfl⟩
          by_cases hc0 : p0.pid = pid
          · rw [if_pos hc0] at hpne
            exact absurd hc0 hpne
          · rw [if_neg hc0] at hpne ⊢
            exact h.hx p0 hp0 hc0
      have hfind1 : findProc pid (updProc pid (fun p => { p with wHeld := false }) s.procs)
          = some ({ pp with wHeld := false }) := h1.hf
      have hf2 : findProc pid (updProc hq1 (fun p => { p with wHeld := true, phase := grantPhase p.phase })
            (updProc pid (fun p => { p with wHeld := false }) s.procs))
          = some ({ pp with wHeld := false }) := by
        rw [findProc_updProc2 pid hq1 (fun p => { p with wHeld := true, phase := grantPhase p.phase })
          (fun p => rfl) _, hfind1]
        have hppne : ¬ (({ pp with wHeld := false } : Proc).pid = hq1) := by
          show ¬ (pp.pid = hq1)
          rw [hfs.2]
          exact fun he => hne1 he.symm
        dsimp only [Option.map]
        rw [if_neg hppne]
      have hnw2 : pid ∉ t := fun hin => h.hnw (by rw [heq]; exact List.mem_cons_of_mem hq1 hin)
      have hX : PMid cfg pid ({ pp with wHeld := false })
          ({ s with wQueue := t, procs := updProc hq1 (fun p => { p with wHeld := true, phase := grantPhase p.phase }) (updProc pid (fun p => { p with wHeld := false }) s.procs) } : Sim) := by
        refine ⟨⟨?_, ?_, ?_, ?_, ?_, ?_, ?_, ?_, ?_⟩, ?_, ?_, ?_, ?_⟩
        · exact hnd2
        · exact hle2
        · show wCount _ ≤ _
          dsimp only
          have h2 := h.hQ.wCap
          omega
        · show ioCount _ ≤ _
          dsimp only
          rw [hio2]
          exact h.hQ.ioCapLe
        · exact hwq2
        · exact hioq2
        · exact hwqnd2
        · exact h.hQ.ioqNodup
        · exact hap2
        · exact hx2
        · exact hf2
        · exact hnw2
        · exact h.hnio
      exact pmid_eqCore hX rfl rfl rfl rfl

/-- Exit of a `with io_pool.request()` block while the exiting process is
mid-handler: the io slot moves to the FIFO head (if any) with a
net-neutral in_use count. -/
theorem pmid_ioRelease {cfg : Config} {pid : ℕ} {pp : Proc} {s : Sim}
    (h : PMid cfg pid pp s) (hio : pp.ioHeld = true) :
    PMid cfg pid ({ pp with ioHeld := false }) (ioRelease s pid) := by
  have hfs := findProc_some h.hf
  have hc1 : ioCount (updProc pid (fun p => { p with ioHeld := false }) s.procs) + 1
      = ioCount s.procs := by
    have hcc := @countP_updProc (fun p => p.ioHeld) pid (fun p => { p with ioHeld := false })
      s.procs pp h.hQ.pidsNodup hfs.1 hfs.2
    simpa [ioCount, hio] using hcc
  have h1 : PMid cfg pid ({ pp with ioHeld := false })
      ({ s with procs := updProc pid (fun p => { p with ioHeld := false }) s.procs } : Sim) := by
    refine @pmid_updAny cfg pid pp s _ h (fun p => { p with ioHeld := false })
      (fun p => rfl) ?_ ?_ ?_ rfl rfl rfl rfl
    · rw [countP_updProc_congr2 (fun p => p.wHeld) pid (fun p => { p with ioHeld := false })
        (fun p => rfl) s.procs]
      exact h.hQ.wCap
    · have h2 := h.hQ.ioCapLe
      show ioCount _ ≤ _
      omega
    · exact fun hA hph => h.hQ.asyncPre hA pp hfs.1 hph
  unfold ioRelease
  dsimp only
  split
  · exact h1
  · next hq1 t heq =>
      have hh1 : hq1 ∈ s.ioQueue := by rw [heq]; exact List.mem_cons_self hq1 t
      have hne1 : hq1 ≠ pid := fun he => h.hnio (he ▸ hh1)
      rcases h.hQ.ioqMem hq1 hh1 with ⟨pw, hpw, hpwid, hph⟩
      have hpwne : pw.pid ≠ pid := by rw [hpwid]; exact hne1
      have hcohw := h.hx pw hpw hpwne
      have hpwIo : pw.ioHeld = false := by simp [hcohw.2, hph, ioExp]
      have hpw1 : pw ∈ updProc pid (fun p => { p with ioHeld := false }) s.procs :=
        mem_updProc_of_ne hpw hpwne
      have hnd1 : ((updProc pid (fun p => { p with ioHeld := false }) s.procs).map Proc.pid).Nodup := by
        rw [updProc_map_pid2 pid (fun p => { p with ioHeld := false }) (fun p => rfl) s.procs]
        exact h.hQ.pidsNodup
      have hc2 : ioCount (updProc hq1 (fun p => { p with ioHeld := true, phase := Phase.ioGrant })
            (updProc pid (fun p => { p with ioHeld := false }) s.procs))
          = ioCount s.procs := by
        have hcc := @countP_updProc (fun p => p.ioHeld) hq1
          (fun p => { p with ioHeld := true, phase := Phase.ioGrant })
          (updProc pid (fun p => { p with ioHeld := false }) s.procs) pw hnd1 hpw1 hpwid
        have hcc2 : ioCount (updProc hq1 (fun p => { p with ioHeld := true, phase := Phase.ioGrant })
              (updProc pid (fun p => { p with ioHeld := false }) s.procs))
            = ioCount (updProc pid (fun p => { p with ioHeld := false }) s.procs) + 1 := by
          simpa [ioCount, hpwIo] using hcc
        omega
      have hw2 : wCount (updProc hq1 (fun p => { p with ioHeld := true, phase := Phase.ioGrant })
            (updProc pid (fun p => { p with ioHeld := false }) s.procs))
          = wCount s.procs := by
        unfold wCount
        rw [countP_updProc_congr2 (fun p => p.wHeld) hq1
          (fun p => { p with ioHeld := true, phase := Phase.ioGrant }) (fun p => rfl) _]
        rw [countP_updProc_congr2 (fun p => p.wHeld) pid (fun p => { p with ioHeld := false })
          (fun p => rfl) s.procs]
      have hnd2 : ((updProc hq1 (fun p => { p with ioHeld := true, phase := Phase.ioGrant })
            (updProc pid (fun p => { p with ioHeld := false }) s.procs)).map Proc.pid).Nodup := by
        rw [updProc_map_pid2 hq1 (fun p => { p with ioHeld := true, phase := Phase.ioGrant })
          (fun p => rfl) _]
        exact hnd1
      have hle2 : ∀ p ∈ updProc hq1 (fun p => { p with ioHeld := true, phase := Phase.ioGrant })
            (updProc pid (fun p => { p with ioHeld := false }) s.procs), p.pid ≤ s.nextReqId := by
        refine pidsLe_updProc ?_ (pidsLe_updProc ?_ h.hQ.pidsLe)
        · exact fun p => rfl
        · exact fun p => rfl
      have hioq2 : ∀ q ∈ t, ∃ p ∈ updProc hq1 (fun p => { p with ioHeld := true, phase := Phase.ioGrant })
            (updProc pid (fun p => { p with ioHeld := false }) s.procs),
            p.pid = q ∧ p.phase = Phase.ioWaitP := by
        intro q hq
        have hqs : q ∈ s.ioQueue := by rw [heq]; exact List.mem_cons_of_mem hq1 hq
        have hqnp : q ≠ pid := fun he => h.hnio (he ▸ hqs)
        have hqnh : q ≠ hq1 := by
          intro he
          have hnd := h.hQ.ioqNodup
          rw [heq] at hnd
          exact (List.nodup_cons.mp hnd).1 (he ▸ hq)
        refine @exists_pid_phase_updProc_ne (fun ph => ph = Phase.ioWaitP) hq1 q _ _ hqnh ?_
        exact @exists_pid_phase_updProc_ne (fun ph => ph = Phase.ioWaitP) pid q _ _ hqnp
          (h.hQ.ioqMem q hqs)
      have hwq2 : ∀ q ∈ s.wQueue, ∃ p ∈ updProc hq1 (fun p => { p with ioHeld := true, phase := Phase.ioGrant })
            (updProc pid (fun p => { p with ioHeld := false }) s.procs),
            p.pid = q ∧ (p.phase = Phase.wWait1 ∨ p.phase = Phase.wWait2) := by
        intro q hq
        have hqnp : q ≠ pid := fun he => h.hnw (he ▸ hq)
        rcases h.hQ.wqMem q hq with ⟨p0, hp0, hp0id, hp0ph⟩
        have hqnh : q ≠ hq1 := by
          intro he
          have hpe : p0 = pw := pid_unique h.hQ.pidsNodup hp0 hpw (by rw [hp0id, hpwid, he])
          rw [hpe] at hp0ph
          rcases hp0ph with h' | h'
          · rw [hph] at h'; cases h'
          · rw [hph] at h'; cases h'
        refine @exists_pid_phase_updProc_ne (fun ph => ph = Phase.wWait1 ∨ ph = Phase.wWait2)
          hq1 q _ _ hqnh ?_
        exact @exists_pid_phase_updProc_ne (fun ph => ph = Phase.wWait1 ∨ ph = Phase.wWait2)
          pid q _ _ hqnp ⟨p0, hp0, hp0id, hp0ph⟩
      have hioqnd2 : t.Nodup := by
        have hnd := h.hQ.ioqNodup
        rw [heq] at hnd
        exact (List.nodup_cons.mp hnd).2
      have hap2 : cfg.isAsync = true → ∀ p ∈ updProc hq1 (fun p => { p with ioHeld := true, phase := Phase.ioGrant })
            (updProc pid (fun p => { p with ioHeld := false }) s.procs),
            p.phase = Phase.wWait1 ∨ p.phase = Phase.wGrant1 → 0 < p.cpuPre := by
        intro hA p hp hph2
        rcases mem_updProc hp with ⟨p1, hp1, rfl⟩
        by_cases hg1 : p1.pid = hq1
        · rw [if_pos hg1] at hph2 ⊢
          exfalso
          simp at hph2
        · rw [if_neg hg1] at hph2 ⊢
          rcases mem_updProc hp1 with ⟨p0, hp0, rfl⟩
          by_cases hc0 : p0.pid = pid
          · rw [if_pos hc0] at hph2 ⊢
            have hpe : p0 = pp := pid_unique h.hQ.pidsNodup hp0 hfs.1 (by rw [hc0, hfs.2])
            rw [hpe] at hph2 ⊢
            exact h.hQ.asyncPre hA pp hfs.1 hph2
          · rw [if_neg hc0] at hph2 ⊢
            exact h.hQ.asyncPre hA p0 hp0 hph2
      have hx2 : ∀ p ∈ updProc hq1 (fun p => { p with ioHeld := true, phase := Phase.ioGrant })
            (updProc pid (fun p => { p with ioHeld := false }) s.procs),
            p.pid ≠ pid → cohP cfg.isAsync p := by
        intro p hp hpne
        rcases mem_updProc hp with ⟨p1, hp1, rfl⟩
        by_cases hg1 : p1.pid = hq1
        · rw [if_pos hg1] at hpne ⊢
          have hpe : p1 = pw := pid_unique hnd1 hp1 hpw1 (by rw [hg1, hpwid])
          rw [hpe]
          constructor
          · show pw.wHeld = wExp cfg.isAsync Phase.ioGrant
            simp [hcohw.1, hph, wExp]
          · show true = ioExp Phase.ioGrant
            rfl
        · rw [if_neg hg1] at hpne ⊢
          rcases mem_updProc hp1 with ⟨p0, hp0, rfl⟩
          by_cases hc0 : p0.pid = pid
          · rw [if_pos hc0] at hpne
            exact absurd hc0 hpne
          · rw [if_neg hc0] at hpne ⊢
            exact h.hx p0 hp0 hc0
      have hfind1 : findProc pid (updProc pid (fun p => { p with ioHeld := false }) s.procs)
          = some ({ pp with ioHeld := false }) := h1.hf
      have hf2 : findProc pid (updProc hq1 (fun p => { p with ioHeld := true, phase := Phase.ioGrant })
            (updProc pid (fun p => { p with ioHeld := false }) s.procs))
          = some ({ pp with ioHeld := false }) := by
        rw [findProc_updProc2 pid hq1 (fun p => { p with ioHeld := true, phase := Phase.ioGrant })
          (fun p => rfl) _, hfind1]
        have hppne : ¬ (({ pp with ioHeld := false } : Proc).pid = hq1) := by
          show ¬ (pp.pid = hq1)
          rw [hfs.2]
          exact fun he => hne1 he.symm
        dsimp only [Option.map]
        rw [if_neg hppne]
      have hnio2 : pid ∉ t := fun hin => h.hnio (by rw [heq]; exact List.mem_cons_of_mem hq1 hin)
      have hX : PMid cfg pid ({ pp with ioHeld := false })
          ({ s with ioQueue := t, procs := updProc hq1 (fun p => { p with ioHeld := true, phase := Phase.ioGrant }) (updProc pid (fun p => { p with ioHeld := false }) s.procs) } : Sim) := by
        refine ⟨⟨?_, ?_, ?_, ?_, ?_, ?_, ?_, ?_, ?_⟩, ?_, ?_, ?_, ?_⟩
        · exact hnd2
        · exact hle2
        · show wCount _ ≤ _
          dsimp only
          rw [hw2]
          exact h.hQ.wCap
        · show ioCount _ ≤ _
          dsimp only
          have h2 := h.hQ.ioCapLe
          omega
        · exact hwq2
        · exact hioq2
        · exact h.hQ.wqNodup
        · exact hioqnd2
        · exact hap2
        · exact hx2
        · exact hf2
        · exact h.hnw
        · exact hnio2
      exact pmid_eqCore hX rfl rfl rfl rfl

theorem invPS_schedDelay {cfg : Config} {s : Sim} (h : InvPS cfg s) (d : Time) (pr : ℕ)
    (k : EvKind) : InvPS cfg (schedDelay s d pr k) := by
  unfold schedDelay
  split
  · exact invPS_eqCore h rfl rfl rfl rfl
  · exact invPS_eqCore h rfl rfl rfl rfl

/-- Joining the worker FIFO queue (a blocked worker_pool.request): the
process is appended to the queue in a wait phase, holding nothing. -/
theorem invPS_enqW {cfg : Config} {pid : ℕ} {pp : Proc} {s b : Sim} {ph2 : Phase}
    (h : PMid cfg pid pp s)
    (hph2 : ph2 = Phase.wWait1 ∨ ph2 = Phase.wWait2)
    (hw : pp.wHeld = false) (hio : pp.ioHeld = false)
    (hap : cfg.isAsync = true → ph2 = Phase.wWait1 → 0 < pp.cpuPre)
    (hb : b.procs = updProc pid (fun q => { q with phase := ph2 }) s.procs)
    (hn : b.nextReqId = s.nextReqId)
    (hwq : b.wQueue = s.wQueue ++ [pid]) (hioq : b.ioQueue = s.ioQueue) :
    InvPS cfg b := by
  have hfs := findProc_some h.hf
  have hcW : wCount (updProc pid (fun q => { q with phase := ph2 }) s.procs) = wCount s.procs :=
    countP_updProc_congr2 (fun p => p.wHeld) pid (fun q => { q with phase := ph2 })
      (fun p => rfl) s.procs
  have hcIo : ioCount (updProc pid (fun q => { q with phase := ph2 }) s.procs) = ioCount s.procs :=
    countP_updProc_congr2 (fun p => p.ioHeld) pid (fun q => { q with phase := ph2 })
      (fun p => rfl) s.procs
  refine ⟨⟨?_, ?_, ?_, ?_, ?_, ?_, ?_, ?_, ?_⟩, ?_⟩
  · rw [hb, updProc_map_pid2 pid (fun q => { q with phase := ph2 }) (fun p => rfl) s.procs]
    exact h.hQ.pidsNodup
  · rw [hb, hn]
    refine pidsLe_updProc ?_ h.hQ.pidsLe
    exact fun p => rfl
  · rw [hb]
    show wCount _ ≤ _
    rw [hcW]
    exact h.hQ.wCap
  · rw [hb]
    show ioCount _ ≤ _
    rw [hcIo]
    exact h.hQ.ioCapLe
  · intro q hq
    rw [hwq] at hq
    rw [hb]
    rcases List.mem_append.mp hq with hq | hq
    · have hqnp : q ≠ pid := fun he => h.hnw (he ▸ hq)
      exact @exists_pid_phase_updProc_ne (fun ph => ph = Phase.wWait1 ∨ ph = Phase.wWait2)
        pid q _ _ hqnp (h.hQ.wqMem q hq)
    · rw [List.mem_singleton] at hq
      subst hq
      refine ⟨{ pp with phase := ph2 }, mem_updProc_target hfs.1 hfs.2, ?_, ?_⟩
      · exact hfs.2
      · exact hph2
  · intro q hq
    rw [hioq] at hq
    rw [hb]
    have hqnp : q ≠ pid := fun he => h.hnio (he ▸ hq)
    exact @exists_pid_phase_updProc_ne (fun ph => ph = Phase.ioWaitP)
      pid q _ _ hqnp (h.hQ.ioqMem q hq)
  · rw [hwq, List.nodup_append]
    refine ⟨h.hQ.wqNodup, List.nodup_singleton pid, ?_⟩
    intro a ha hb2
    rw [List.mem_singleton] at hb2
    exact h.hnw (hb2 ▸ ha)
  · rw [hioq]
    exact h.hQ.ioqNodup
  · intro hA p hp hph
    rw [hb] at hp
    rcases mem_updProc hp with ⟨p0, hp0, rfl⟩
    by_cases hc0 : p0.pid = pid
    · rw [if_pos hc0] at hph ⊢
      have hpe : p0 = pp := pid_unique h.hQ.pidsNodup hp0 hfs.1 (by rw [hc0, hfs.2])
      rw [hpe] at hph ⊢
      show 0 < pp.cpuPre
      rcases hph2 with rfl | rfl
      · exact hap hA rfl
      · exfalso
        simp at hph
    · rw [if_neg hc0] at hph ⊢
      exact h.hQ.asyncPre hA p0 hp0 hph
  · intro p hp
    rw [hb] at hp
    rcases mem_updProc hp with ⟨p0, hp0, rfl⟩
    by_cases hc0 : p0.pid = pid
    · rw [if_pos hc0]
      have hpe : p0 = pp := pid_unique h.hQ.pidsNodup hp0 hfs.1 (by rw [hc0, hfs.2])
      rw [hpe]
      constructor
      · show pp.wHeld = wExp cfg.isAsync ph2
        rcases hph2 with rfl | rfl
        · simp [hw, wExp]
        · simp [hw, wExp]
      · show pp.ioHeld = ioExp ph2
        rcases hph2 with rfl | rfl
        · simp [hio, ioExp]
        · simp [hio, ioExp]
    · rw [if_neg hc0]
      exact h.hx p0 hp0 hc0

/-- Joining the io FIFO queue (a blocked io_pool.request). -/
theorem invPS_enqIo {cfg : Config} {pid : ℕ} {pp : Proc} {s b : Sim}
    (h : PMid cfg pid pp s)
    (hw : pp.wHeld = !cfg.isAsync) (hio : pp.ioHeld = false)
    (hb : b.procs = updProc pid (fun q => { q with phase := Phase.ioWaitP }) s.procs)
    (hn : b.nextReqId = s.nextReqId)
    (hwq : b.wQueue = s.wQueue) (hioq : b.ioQueue = s.ioQueue ++ [pid]) :
    InvPS cfg b := by
  have hfs := findProc_some h.hf
  have hcW : wCount (updProc pid (fun q => { q with phase := Phase.ioWaitP }) s.procs) = wCount s.procs :=
    countP_updProc_congr2 (fun p => p.wHeld) pid (fun q => { q with phase := Phase.ioWaitP })
      (fun p => rfl) s.procs
  have hcIo : ioCount (updProc pid (fun q => { q with phase := Phase.ioWaitP }) s.procs) = ioCount s.procs :=
    countP_updProc_congr2 (fun p => p.ioHeld) pid (fun q => { q with phase := Phase.ioWaitP })
      (fun p => rfl) s.procs
  refine ⟨⟨?_, ?_, ?_, ?_, ?_, ?_, ?_, ?_, ?_⟩, ?_⟩
  · rw [hb, updProc_map_pid2 pid (fun q => { q with phase := Phase.ioWaitP }) (fun p => rfl) s.procs]
    exact h.hQ.pidsNodup
  · rw [hb, hn]
    refine pidsLe_updProc ?_ h.hQ.pidsLe
    exact fun p => rfl
  · rw [hb]
    show wCount _ ≤ _
    rw [hcW]
    exact h.hQ.wCap
  · rw [hb]
    show ioCount _ ≤ _
    rw [hcIo]
    exact h.hQ.ioCapLe
  · intro q hq
    rw [hwq] at hq
    rw [hb]
    have hqnp : q ≠ pid := fun he => h.hnw (he ▸ hq)
    exact @exists_pid_phase_updProc_ne (fun ph => ph = Phase.wWait1 ∨ ph = Phase.wWait2)
      pid q _ _ hqnp (h.hQ.wqMem q hq)
  · intro q hq
    rw [hioq] at hq
    rw [hb]
    rcases List.mem_append.mp hq with hq | hq
    · have hqnp : q ≠ pid := fun he => h.hnio (he ▸ hq)
      exact @exists_pid_phase_updProc_ne (fun ph => ph = Phase.ioWaitP)
        pid q _ _ hqnp (h.hQ.ioqMem q hq)
    · rw [List.mem_singleton] at hq
      subst hq
      refine ⟨{ pp with phase := Phase.ioWaitP }, mem_updProc_target hfs.1 hfs.2, ?_, rfl⟩
      exact hfs.2
  · rw [hwq]
    exact h.hQ.wqNodup
  · rw [hioq, List.nodup_append]
    refine ⟨h.hQ.ioqNodup, List.nodup_singleton pid, ?_⟩
    intro a ha hb2
    rw [List.mem_singleton] at hb2
    exact h.hnio (hb2 ▸ ha)
  · intro hA p hp hph
    rw [hb] at hp
    rcases mem_updProc hp with ⟨p0, hp0, rfl⟩
    by_cases hc0 : p0.pid = pid
    · rw [if_pos hc0] at hph
      exfalso
      simp at hph
    · rw [if_neg hc0] at hph ⊢
      exact h.hQ.asyncPre hA p0 hp0 hph
  · intro p hp
    rw [hb] at hp
    rcases mem_updProc hp with ⟨p0, hp0, rfl⟩
    by_cases hc0 : p0.pid = pid
    · rw [if_pos hc0]
      have hpe : p0 = pp := pid_unique h.hQ.pidsNodup hp0 hfs.1 (by rw [hc0, hfs.2])
      rw [hpe]
      constructor
      · show pp.wHeld = wExp cfg.isAsync Phase.ioWaitP
        simp [hw, wExp]
      · show pp.ioHeld = ioExp Phase.ioWaitP
        simp [hio, ioExp]
    · rw [if_neg hc0]
      exact h.hx p0 hp0 hc0

/-- End of the service generator restores coherence: the worker slot is
gone (sync releases it here, async never held it at this point) and the
process parks in its terminal phase. -/
theorem invPS_finishSvc_of {cfg : Config} {pid : ℕ} {pp : Proc} {s : Sim}
    (h : PMid cfg pid pp s) (hw : pp.wHeld = !cfg.isAsync) (hio : pp.ioHeld = false) :
    InvPS cfg (finishSvc cfg s pid) := by
  unfold finishSvc
  have h1 : PMid cfg pid ({ pp with wHeld := false }) (if cfg.isAsync then s else wRelease s pid) := by
    split
    · next hA =>
        have hw0 : pp.wHeld = false := by simp [hw, hA]
        have hpe : ({ pp with wHeld := false } : Proc) = pp := by
          cases pp
          simp_all
        rw [hpe]
        exact h
    · next hA =>
        have hA2 : cfg.isAsync = false := by
          revert hA
          cases cfg.isAsync <;> simp
        exact pmid_wRelease h (by simp [hw, hA2])
  generalize (if cfg.isAsync then s else wRelease s pid) = s1 at h1
  dsimp only
  rw [h1.hf]
  dsimp only
  by_cases hcond : cfg.warmupMs ≤ pp.arrival ∧ pp.recorded = false
  · rw [if_pos hcond]
    have h2 : PMid cfg pid ({ { pp with wHeld := false } with recorded := true } : Proc)
        ({ s1 with records := s1.records ++ [⟨pp.pid, pp.arrival, s1.now, s1.now - pp.arrival, statusCompleted⟩], procs := updProc pid (fun q => { q with recorded := true }) s1.procs } : Sim) := by
      refine @pmid_updProc cfg pid ({ pp with wHeld := false }) s1 _ h1
        (fun q => { q with recorded := true }) (fun p => rfl) (fun p => rfl) (fun p => rfl)
        ?_ ?_ ?_ ?_ ?_
      · intro hA hph
        exact h1.hQ.asyncPre hA ({ pp with wHeld := false }) (findProc_some h1.hf).1 hph
      · rfl
      · rfl
      · rfl
      · rfl
    have h3 : PMid cfg pid ({ { { pp with wHeld := false } with recorded := true } with phase := Phase.doneP } : Proc)
        ({ ({ s1 with records := s1.records ++ [⟨pp.pid, pp.arrival, s1.now, s1.now - pp.arrival, statusCompleted⟩], procs := updProc pid (fun q => { q with recorded := true }) s1.procs } : Sim) with procs := updProc pid (fun q => { q with phase := Phase.doneP }) (updProc pid (fun q => { q with recorded := true }) s1.procs) } : Sim) := by
      refine @pmid_updProc cfg pid ({ { pp with wHeld := false } with recorded := true }) _ _ h2
        (fun q => { q with phase := Phase.doneP }) (fun p => rfl) (fun p => rfl) (fun p => rfl)
        ?_ ?_ ?_ ?_ ?_
      · intro hA hph
        exfalso
        simp at hph
      · rfl
      · rfl
      · rfl
      · rfl
    refine invPS_eqCore (invPS_of_pmid_coh h3 ?_) rfl rfl rfl rfl
    constructor
    · rfl
    · show pp.ioHeld = ioExp Phase.doneP
      simp [hio, ioExp]
  · rw [if_neg hcond]
    have h3 : PMid cfg pid ({ { pp with wHeld := false } with phase := Phase.doneP } : Proc)
        ({ s1 with procs := updProc pid (fun q => { q with phase := Phase.doneP }) s1.procs } : Sim) := by
      refine @pmid_updProc cfg pid ({ pp with wHeld := false }) s1 _ h1
        (fun q => { q with phase := Phase.doneP }) (fun p => rfl) (fun p => rfl) (fun p => rfl)
        ?_ ?_ ?_ ?_ ?_
      · intro hA hph
        exfalso
        simp at hph
      · rfl
      · rfl
      · rfl
      · rfl
    refine invPS_eqCore (invPS_of_pmid_coh h3 ?_) rfl rfl rfl rfl
    constructor
    · rfl
    · show pp.ioHeld = ioExp Phase.doneP
      simp [hio, ioExp]

/-- The cpu_post stage restores coherence from any state in which the
process holds exactly the sync-mode worker slot and no io slot. -/
theorem invPS_postStage_of {cfg : Config} {pid : ℕ} {pp : Proc} {s : Sim}
    (h : PMid cfg pid pp s) (hw : pp.wHeld = !cfg.isAsync) (hio : pp.ioHeld = false) :
    InvPS cfg (postStage cfg s pid) := by
  have hfs := findProc_some h.hf
  unfold postStage
  rw [h.hf]
  dsimp only
  split
  · split
    · next hA =>
        have hw0 : pp.wHeld = false := by simp [hw, hA]
        split
        · next hlt =>
            refine invPS_schedDelay ?_ _ 1 _
            have hcc := @countP_updProc (fun p => p.wHeld) pid
              (fun q => { q with wHeld := true, phase := Phase.cpuPostP }) s.procs pp
              h.hQ.pidsNodup hfs.1 hfs.2
            have hcc2 : wCount (updProc pid (fun q => { q with wHeld := true, phase := Phase.cpuPostP }) s.procs)
                = wCount s.procs + 1 := by
              simpa [wCount, hw0] using hcc
            have h2 : PMid cfg pid ({ pp with wHeld := true, phase := Phase.cpuPostP })
                ({ s with procs := updProc pid (fun q => { q with wHeld := true, phase := Phase.cpuPostP }) s.procs } : Sim) := by
              refine @pmid_updAny cfg pid pp s _ h
                (fun q => { q with wHeld := true, phase := Phase.cpuPostP }) (fun p => rfl)
                ?_ ?_ ?_ ?_ ?_ ?_ ?_
              · show wCount _ ≤ _
                omega
              · rw [countP_updProc_congr2 (fun p => p.ioHeld) pid
                  (fun q => { q with wHeld := true, phase := Phase.cpuPostP }) (fun p => rfl) s.procs]
                exact h.hQ.ioCapLe
              · intro hA2 hph
                exfalso
                simp at hph
              · rfl
              · rfl
              · rfl
              · rfl
            refine invPS_of_pmid_coh h2 ?_
            constructor
            · rfl
            · show pp.ioHeld = ioExp Phase.cpuPostP
              simp [hio, ioExp]
        · refine invPS_enqW h (Or.inr rfl) hw0 hio ?_ ?_ ?_ ?_ ?_
          · intro _ h2'
            cases h2'
          · rfl
          · rfl
          · rfl
          · rfl
    · next hA =>
        have hA2 : cfg.isAsync = false := by
          revert hA
          cases cfg.isAsync <;> simp
        refine invPS_schedDelay ?_ _ 1 _
        have h2 : PMid cfg pid ({ pp with phase := Phase.cpuPostP })
            ({ s with procs := updProc pid (fun q => { q with phase := Phase.cpuPostP }) s.procs } : Sim) := by
          refine @pmid_updProc cfg pid pp s _ h (fun q => { q with phase := Phase.cpuPostP })
            (fun p => rfl) (fun p => rfl) (fun p => rfl) ?_ ?_ ?_ ?_ ?_
          · intro hA3 hph
            exfalso
            simp at hph
          · rfl
          · rfl
          · rfl
          · rfl
        refine invPS_of_pmid_coh h2 ?_
        constructor
        · show pp.wHeld = wExp cfg.isAsync Phase.cpuPostP
          simp [hw, hA2, wExp]
        · show pp.ioHeld = ioExp Phase.cpuPostP
          simp [hio, ioExp]
  · exact invPS_finishSvc_of h hw hio

/-- The io stage restores coherence: the io slot is taken (or queued for)
while the worker slot stays exactly in the sync-mode position. -/
theorem invPS_ioStage_of {cfg : Config} {pid : ℕ} {pp : Proc} {s : Sim}
    (h : PMid cfg pid pp s) (hw : pp.wHeld = !cfg.isAsync) (hio : pp.ioHeld = false) :
    InvPS cfg (ioStage cfg s pid) := by
  have hfs := findProc_some h.hf
  unfold ioStage
  rw [h.hf]
  dsimp only
  split
  · split
    · next hlt =>
        refine invPS_schedDelay ?_ _ 1 _
        have hcc := @countP_updProc (fun p => p.ioHeld) pid
          (fun q => { q with ioHeld := true, phase := Phase.ioP }) s.procs pp
          h.hQ.pidsNodup hfs.1 hfs.2
        have hcc2 : ioCount (updProc pid (fun q => { q with ioHeld := true, phase := Phase.ioP }) s.procs)
            = ioCount s.procs + 1 := by
          simpa [ioCount, hio] using hcc
        have h2 : PMid cfg pid ({ pp with ioHeld := true, phase := Phase.ioP })
            ({ s with procs := updProc pid (fun q => { q with ioHeld := true, phase := Phase.ioP }) s.procs } : Sim) := by
          refine @pmid_updAny cfg pid pp s _ h
            (fun q => { q with ioHeld := true, phase := Phase.ioP }) (fun p => rfl)
            ?_ ?_ ?_ ?_ ?_ ?_ ?_
          · rw [countP_updProc_congr2 (fun p => p.wHeld) pid
              (fun q => { q with ioHeld := true, phase := Phase.ioP }) (fun p => rfl) s.procs]
            exact h.hQ.wCap
          · show ioCount _ ≤ _
            omega
          · intro hA2 hph
            exfalso
            simp at hph
          · rfl
          · rfl
          · rfl
          · rfl
        refine invPS_of_pmid_coh h2 ?_
        constructor
        · show pp.wHeld = wExp cfg.isAsync Phase.ioP
          simp [hw, wExp]
        · rfl
    · refine invPS_enqIo h hw hio ?_ ?_ ?_ ?_
      · rfl
      · rfl
      · rfl
      · rfl
  · exact invPS_postStage_of h hw hio

/-- Continuation after the initial worker grant. -/
theorem invPS_afterWorkerPre_of {cfg : Config} {pid : ℕ} {pp : Proc} {s : Sim}
    (h : PMid cfg pid pp s) (hw : pp.wHeld = true) (hio : pp.ioHeld = false)
    (hap : cfg.isAsync = true → 0 < pp.cpuPre) :
    InvPS cfg (afterWorkerPre cfg s pid) := by
  unfold afterWorkerPre
  rw [h.hf]
  dsimp only
  split
  · refine invPS_schedDelay ?_ _ 1 _
    have h2 : PMid cfg pid ({ pp with phase := Phase.cpuPreP })
        ({ s with procs := updProc pid (fun q => { q with phase := Phase.cpuPreP }) s.procs } : Sim) := by
      refine @pmid_updProc cfg pid pp s _ h (fun q => { q with phase := Phase.cpuPreP })
        (fun p => rfl) (fun p => rfl) (fun p => rfl) ?_ ?_ ?_ ?_ ?_
      · intro hA hph
        exfalso
        simp at hph
      · rfl
      · rfl
      · rfl
      · rfl
    refine invPS_of_pmid_coh h2 ?_
    constructor
    · show pp.wHeld = wExp cfg.isAsync Phase.cpuPreP
      simp [hw, wExp]
    · show pp.ioHeld = ioExp Phase.cpuPreP
      simp [hio, ioExp]
  · next hnpre =>
      have hA2 : cfg.isAsync = false := by
        by_contra hA3
        have hA4 : cfg.isAsync = true := by
          revert hA3
          cases cfg.isAsync <;> simp
        exact hnpre (hap hA4)
      refine invPS_ioStage_of h ?_ hio
      simp [hw, hA2]

/-- The initial worker acquisition (immediate or queued). -/
theorem invPS_acquireWorkerPre_of {cfg : Config} {pid : ℕ} {pp : Proc} {s : Sim}
    (h : PMid cfg pid pp s) (hw : pp.wHeld = false) (hio : pp.ioHeld = false)
    (hap : cfg.isAsync = true → 0 < pp.cpuPre) :
    InvPS cfg (acquireWorkerPre cfg s pid) := by
  have hfs := findProc_some h.hf
  unfold acquireWorkerPre
  split
  · next hlt =>
      have hcc := @countP_updProc (fun p => p.wHeld) pid (fun p => { p with wHeld := true })
        s.procs pp h.hQ.pidsNodup hfs.1 hfs.2
      have hcc2 : wCount (updProc pid (fun p => { p with wHeld := true }) s.procs)
          = wCount s.procs + 1 := by
        simpa [wCount, hw] using hcc
      have h2 : PMid cfg pid ({ pp with wHeld := true })
          ({ s with procs := updProc pid (fun p => { p with wHeld := true }) s.procs } : Sim) := by
        refine @pmid_updAny cfg pid pp s _ h (fun p => { p with wHeld := true }) (fun p => rfl)
          ?_ ?_ ?_ ?_ ?_ ?_ ?_
        · show wCount _ ≤ _
          omega
        · rw [countP_updProc_congr2 (fun p => p.ioHeld) pid (fun p => { p with wHeld := true })
            (fun p => rfl) s.procs]
          exact h.hQ.ioCapLe
        · intro hA hph
          exact h.hQ.asyncPre hA pp hfs.1 hph
        · rfl
        · rfl
        · rfl
        · rfl
      exact invPS_afterWorkerPre_of h2 rfl hio hap
  · refine invPS_enqW h (Or.inl rfl) hw hio ?_ ?_ ?_ ?_ ?_
    · intro hA _
      exact hap hA
    · rfl
    · rfl
    · rfl
    · rfl

/-- An update that touches neither pid, holds, phase nor cpu_pre keeps the
full pool invariant (bookkeeping flags only). -/
theorem invPS_updStable {cfg : Config} {s b : Sim} {pid : ℕ} (h : InvPS cfg s)
    {f : Proc → Proc}
    (hfid : ∀ p, (f p).pid = p.pid) (hfw : ∀ p, (f p).wHeld = p.wHeld)
    (hfio : ∀ p, (f p).ioHeld = p.ioHeld) (hph : ∀ p, (f p).phase = p.phase)
    (hcp : ∀ p, (f p).cpuPre = p.cpuPre)
    (hb : b.procs = updProc pid f s.procs) (hn : b.nextReqId = s.nextReqId)
    (hwq : b.wQueue = s.wQueue) (hioq : b.ioQueue = s.ioQueue) :
    InvPS cfg b := by
  refine ⟨⟨?_, ?_, ?_, ?_, ?_, ?_, ?_, ?_, ?_⟩, ?_⟩
  · rw [hb, updProc_map_pid hfid]
    exact h.1.pidsNodup
  · rw [hb, hn]
    exact pidsLe_updProc hfid h.1.pidsLe
  · rw [hb]
    show (updProc pid f s.procs).countP _ ≤ _
    rw [countP_updProc_congr hfw]
    exact h.1.wCap
  · rw [hb]
    show (updProc pid f s.procs).countP _ ≤ _
    rw [countP_updProc_congr hfio]
    exact h.1.ioCapLe
  · intro q hq
    rw [hwq] at hq
    rw [hb]
    exact @exists_pid_phase_updProc (fun ph => ph = Phase.wWait1 ∨ ph = Phase.wWait2)
      pid q f s.procs hfid hph (h.1.wqMem q hq)
  · intro q hq
    rw [hioq] at hq
    rw [hb]
    exact @exists_pid_phase_updProc (fun ph => ph = Phase.ioWaitP)
      pid q f s.procs hfid hph (h.1.ioqMem q hq)
  · rw [hwq]
    exact h.1.wqNodup
  · rw [hioq]
    exact h.1.ioqNodup
  · intro hA p hp hph2
    rw [hb] at hp
    rcases mem_updProc hp with ⟨p0, hp0, rfl⟩
    by_cases hc0 : p0.pid = pid
    · rw [if_pos hc0] at hph2 ⊢
      rw [hph p0] at hph2
      rw [hcp p0]
      exact h.1.asyncPre hA p0 hp0 hph2
    · rw [if_neg hc0] at hph2 ⊢
      exact h.1.asyncPre hA p0 hp0 hph2
  · intro p hp
    rw [hb] at hp
    rcases mem_updProc hp with ⟨p0, hp0, rfl⟩
    by_cases hc0 : p0.pid = pid
    · rw [if_pos hc0]
      have hcoh := h.2 p0 hp0
      constructor
      · rw [hfw p0, hph p0]
        exact hcoh.1
      · rw [hfio p0, hph p0]
        exact hcoh.2
    · rw [if_neg hc0]
      exact h.2 p0 hp0

/-- Interrupting a live service process: it leaves the wait queues and
every held slot is handed back (released through the scoped blocks), so
the pools stay coherent and capped. -/
theorem invPS_interruptSvc {cfg : Config} {s : Sim} (h : InvPS cfg s) (pid : ℕ) :
    InvPS cfg (interruptSvc s pid) := by
  unfold interruptSvc
  cases hf : findProc pid s.procs with
  | none => exact h
  | some p =>
      dsimp only
      split
      · exact h
      · have hfs := findProc_some hf
        have h1 : PMid cfg pid p ({ s with wQueue := s.wQueue.filter (fun q => q ≠ pid), ioQueue := s.ioQueue.filter (fun q => q ≠ pid) } : Sim) := by
          refine ⟨⟨?_, ?_, ?_, ?_, ?_, ?_, ?_, ?_, ?_⟩, ?_, ?_, ?_, ?_⟩
          · exact h.1.pidsNodup
          · exact h.1.pidsLe
          · exact h.1.wCap
          · exact h.1.ioCapLe
          · intro q hq
            exact h.1.wqMem q (List.mem_of_mem_filter hq)
          · intro q hq
            exact h.1.ioqMem q (List.mem_of_mem_filter hq)
          · exact h.1.wqNodup.filter _
          · exact h.1.ioqNodup.filter _
          · exact h.1.asyncPre
          · exact fun p2 hp2 _ => h.2 p2 hp2
          · exact hf
          · intro hmem
            have h2 := List.of_mem_filter hmem
            simp at h2
          · intro hmem
            have h2 := List.of_mem_filter hmem
            simp at h2
        have h2 : PMid cfg pid ({ p with ioHeld := false })
            (if p.ioHeld = true then ioRelease ({ s with wQueue := s.wQueue.filter (fun q => q ≠ pid), ioQueue := s.ioQueue.filter (fun q => q ≠ pid) } : Sim) pid else ({ s with wQueue := s.wQueue.filter (fun q => q ≠ pid), ioQueue := s.ioQueue.filter (fun q => q ≠ pid) } : Sim)) := by
          split
          · next hioh => exact pmid_ioRelease h1 hioh
          · next hioh =>
              have hio0 : p.ioHeld = false := by
                revert hioh
                cases p.ioHeld <;> simp
              have hpe : ({ p with ioHeld := false } : Proc) = p := by
                cases p
                simp_all
              rw [hpe]
              exact h1
        have h3 : PMid cfg pid ({ { p with ioHeld := false } with wHeld := false })
            (if p.wHeld = true then wRelease (if p.ioHeld = true then ioRelease ({ s with wQueue := s.wQueue.filter (fun q => q ≠ pid), ioQueue := s.ioQueue.filter (fun q => q ≠ pid) } : Sim) pid else ({ s with wQueue := s.wQueue.filter (fun q => q ≠ pid), ioQueue := s.ioQueue.filter (fun q => q ≠ pid) } : Sim)) pid else (if p.ioHeld = true then ioRelease ({ s with wQueue := s.wQueue.filter (fun q => q ≠ pid), ioQueue := s.ioQueue.filter (fun q => q ≠ pid) } : Sim) pid else ({ s with wQueue := s.wQueue.filter (fun q => q ≠ pid), ioQueue := s.ioQueue.filter (fun q => q ≠ pid) } : Sim))) := by
          split
          · next hwh => exact pmid_wRelease h2 hwh
          · next hwh =>
              have hw0 : p.wHeld = false := by
                revert hwh
                cases p.wHeld <;> simp
              have hpe : ({ { p with ioHeld := false } with wHeld := false } : Proc)
                  = ({ p with ioHeld := false } : Proc) := by
                cases p
                simp_all
              rw [hpe]
              exact h2
        have h4 : PMid cfg pid ({ { { p with ioHeld := false } with wHeld := false } with phase := Phase.deadP })
            ({ (if p.wHeld = true then wRelease (if p.ioHeld = true then ioRelease ({ s with wQueue := s.wQueue.filter (fun q => q ≠ pid), ioQueue := s.ioQueue.filter (fun q => q ≠ pid) } : Sim) pid else ({ s with wQueue := s.wQueue.filter (fun q => q ≠ pid), ioQueue := s.ioQueue.filter (fun q => q ≠ pid) } : Sim)) pid else (if p.ioHeld = true then ioRelease ({ s with wQueue := s.wQueue.filter (fun q => q ≠ pid), ioQueue := s.ioQueue.filter (fun q => q ≠ pid) } : Sim) pid else ({ s with wQueue := s.wQueue.filter (fun q => q ≠ pid), ioQueue := s.ioQueue.filter (fun q => q ≠ pid) } : Sim))) with procs := updProc pid (fun q => { q with phase := Phase.deadP }) (if p.wHeld = true then wRelease (if p.ioHeld = true then ioRelease ({ s with wQueue := s.wQueue.filter (fun q => q ≠ pid), ioQueue := s.ioQueue.filter (fun q => q ≠ pid) } : Sim) pid else ({ s with wQueue := s.wQueue.filter (fun q => q ≠ pid), ioQueue := s.ioQueue.filter (fun q => q ≠ pid) } : Sim)) pid else (if p.ioHeld = true then ioRelease ({ s with wQueue := s.wQueue.filter (fun q => q ≠ pid), ioQueue := s.ioQueue.filter (fun q => q ≠ pid) } : Sim) pid else ({ s with wQueue := s.wQueue.filter (fun q => q ≠ pid), ioQueue := s.ioQueue.filter (fun q => q ≠ pid) } : Sim))).procs } : Sim) := by
          refine @pmid_updProc cfg pid ({ { p with ioHeld := false } with wHeld := false }) _ _ h3
            (fun q => { q with phase := Phase.deadP }) (fun p2 => rfl) (fun p2 => rfl) (fun p2 => rfl)
            ?_ ?_ ?_ ?_ ?_
          · intro hA hph2
            exfalso
            simp at hph2
          · rfl
          · rfl
          · rfl
          · rfl
        exact invPS_of_pmid_coh h4 ⟨rfl, rfl⟩

theorem invPS_handleRaceTimeout {cfg : Config} {s : Sim} (h : InvPS cfg s) (pid : ℕ) :
    InvPS cfg (handleRaceTimeout cfg s pid) := by
  unfold handleRaceTimeout
  cases hf : findProc pid s.procs with
  | none => exact h
  | some p =>
      dsimp only
      split
      · exact h
      · have h1 : InvPS cfg (if p.recorded = false then ({ interruptSvc (if cfg.warmupMs ≤ p.arrival then ({ s with records := s.records ++ [⟨p.pid, p.arrival, s.now, cfg.timeoutMs, statusTimeout⟩] } : Sim) else s) pid with procs := updProc pid (fun q => { q with recorded := true }) (interruptSvc (if cfg.warmupMs ≤ p.arrival then ({ s with records := s.records ++ [⟨p.pid, p.arrival, s.now, cfg.timeoutMs, statusTimeout⟩] } : Sim) else s) pid).procs } : Sim) else s) := by
          split
          · have hA : InvPS cfg (if cfg.warmupMs ≤ p.arrival then ({ s with records := s.records ++ [⟨p.pid, p.arrival, s.now, cfg.timeoutMs, statusTimeout⟩] } : Sim) else s) := by
              split
              · exact invPS_eqCore h rfl rfl rfl rfl
              · exact h
            have hB := invPS_interruptSvc hA pid
            exact @invPS_updStable cfg _ _ pid hB (fun q => { q with recorded := true })
              (fun p2 => rfl) (fun p2 => rfl) (fun p2 => rfl) (fun p2 => rfl) (fun p2 => rfl)
              rfl rfl rfl rfl
          · exact h
        exact @invPS_updStable cfg _ _ pid h1 (fun q => { q with racerDone := true })
          (fun p2 => rfl) (fun p2 => rfl) (fun p2 => rfl) (fun p2 => rfl) (fun p2 => rfl)
          rfl rfl rfl rfl

theorem invPS_handleSvcDone {cfg : Config} {s : Sim} (h : InvPS cfg s) (pid : ℕ) :
    InvPS cfg (handleSvcDone s pid) := by
  unfold handleSvcDone
  cases hf : findProc pid s.procs with
  | none => exact h
  | some p =>
      dsimp only
      split
      · exact h
      · exact @invPS_updStable cfg _ _ pid h (fun q => { q with racerDone := true })
          (fun p2 => rfl) (fun p2 => rfl) (fun p2 => rfl) (fun p2 => rfl) (fun p2 => rfl)
          rfl rfl rfl rfl

theorem invPS_handleStartService {cfg : Config} {s : Sim} (stream : ℕ → ℚ)
    (h : InvPS cfg s) (pid : ℕ) : InvPS cfg (handleStartService cfg stream s pid) := by
  unfold handleStartService
  cases hf : findProc pid s.procs with
  | none => exact h
  | some p0 =>
      dsimp only [draw]
      split
      · exact h
      · next hph0 =>
          have hph1 : p0.phase = Phase.created := not_not.mp hph0
          have hfs := findProc_some hf
          have hcoh := h.2 p0 hfs.1
          have hwc : p0.wHeld = false := by simp [hcoh.1, hph1, wExp]
          have hioc : p0.ioHeld = false := by simp [hcoh.2, hph1, ioExp]
          have hpm : PMid cfg pid p0 s :=
            pmid_of_invPS h hf (by simp [hph1]) (by simp [hph1]) (by simp [hph1])
          have h2 : PMid cfg pid
              ({ p0 with cpuPre := cfg.cpuOf (stream s.rngIdx) * stream (s.rngIdx + 1), cpuPost := cfg.cpuOf (stream s.rngIdx) * (1 - stream (s.rngIdx + 1)), ioW := cfg.ioOf (stream (s.rngIdx + 1 + 1)) } : Proc)
              ({ s with rngIdx := s.rngIdx + 1 + 1 + 1, draws := ((s.draws ++ [DrawTag.cpuD pid]) ++ [DrawTag.splitD pid]) ++ [DrawTag.ioD pid], procs := updProc pid (fun q => { q with cpuPre := cfg.cpuOf (stream s.rngIdx) * stream (s.rngIdx + 1), cpuPost := cfg.cpuOf (stream s.rngIdx) * (1 - stream (s.rngIdx + 1)), ioW := cfg.ioOf (stream (s.rngIdx + 1 + 1)) }) s.procs } : Sim) := by
            refine @pmid_updProc cfg pid p0 s _ hpm
              (fun q => { q with cpuPre := cfg.cpuOf (stream s.rngIdx) * stream (s.rngIdx + 1), cpuPost := cfg.cpuOf (stream s.rngIdx) * (1 - stream (s.rngIdx + 1)), ioW := cfg.ioOf (stream (s.rngIdx + 1 + 1)) })
              (fun p2 => rfl) (fun p2 => rfl) (fun p2 => rfl) ?_ ?_ ?_ ?_ ?_
            · intro hA hph2
              exfalso
              simp [hph1] at hph2
            · rfl
            · rfl
            · rfl
            · rfl
          split
          · next hA =>
              rw [h2.hf]
              dsimp only
              split
              · next hpre =>
                  exact invPS_acquireWorkerPre_of h2 hwc hioc (fun _ => hpre)
              · refine invPS_ioStage_of h2 ?_ hioc
                simp [hwc, hA]
          · next hA =>
              exact invPS_acquireWorkerPre_of h2 hwc hioc (fun hA2 => absurd hA2 hA)

theorem invPS_handleSvcStep {cfg : Config} {s : Sim} (h : InvPS cfg s) (pid : ℕ) :
    InvPS cfg (handleSvcStep cfg s pid) := by
  unfold handleSvcStep
  cases hf : findProc pid s.procs with
  | none => exact h
  | some p =>
      dsimp only
      have hfs := findProc_some hf
      have hcoh := h.2 p hfs.1
      cases hph : p.phase with
      | created => exact h
      | wWait1 => exact h
      | ioWaitP => exact h
      | wWait2 => exact h
      | doneP => exact h
      | deadP => exact h
      | wGrant1 =>
          have hpm : PMid cfg pid p s :=
            pmid_of_invPS h hf (by simp [hph]) (by simp [hph]) (by simp [hph])
          refine invPS_afterWorkerPre_of hpm ?_ ?_ ?_
          · simp [hcoh.1, hph, wExp]
          · simp [hcoh.2, hph, ioExp]
          · exact fun hA => h.1.asyncPre hA p hfs.1 (Or.inr hph)
      | cpuPreP =>
          have hpm : PMid cfg pid p s :=
            pmid_of_invPS h hf (by simp [hph]) (by simp [hph]) (by simp [hph])
          have hw1 : p.wHeld = true := by simp [hcoh.1, hph, wExp]
          have hio1 : p.ioHeld = false := by simp [hcoh.2, hph, ioExp]
          dsimp only
          split
          · next hA =>
              refine invPS_ioStage_of (pmid_wRelease hpm hw1) ?_ hio1
              simp [hA]
          · next hA =>
              have hA2 : cfg.isAsync = false := by
                revert hA
                cases cfg.isAsync <;> simp
              refine invPS_ioStage_of hpm ?_ hio1
              simp [hw1, hA2]
      | ioGrant =>
          have hpm : PMid cfg pid p s :=
            pmid_of_invPS h hf (by simp [hph]) (by simp [hph]) (by simp [hph])
          refine invPS_schedDelay ?_ _ 1 _
          have h2 : PMid cfg pid ({ p with phase := Phase.ioP })
              ({ s with procs := updProc pid (fun q => { q with phase := Phase.ioP }) s.procs } : Sim) := by
            refine @pmid_updProc cfg pid p s _ hpm (fun q => { q with phase := Phase.ioP })
              (fun p2 => rfl) (fun p2 => rfl) (fun p2 => rfl) ?_ ?_ ?_ ?_ ?_
            · intro hA hph2
              exfalso
              simp at hph2
            · rfl
            · rfl
            · rfl
            · rfl
          refine invPS_of_pmid_coh h2 ?_
          constructor
          · show p.wHeld = wExp cfg.isAsync Phase.ioP
            simp [hcoh.1, hph, wExp]
          · show p.ioHeld = ioExp Phase.ioP
            simp [hcoh.2, hph, ioExp]
      | ioP =>
          have hpm : PMid cfg pid p s :=
            pmid_of_invPS h hf (by simp [hph]) (by simp [hph]) (by simp [hph])
          have hio1 : p.ioHeld = true := by simp [hcoh.2, hph, ioExp]
          refine invPS_postStage_of (pmid_ioRelease hpm hio1) ?_ rfl
          show p.wHeld = !cfg.isAsync
          simp [hcoh.1, hph, wExp]
      | wGrant2 =>
          have hpm : PMid cfg pid p s :=
            pmid_of_invPS h hf (by simp [hph]) (by simp [hph]) (by simp [hph])
          refine invPS_schedDelay ?_ _ 1 _
          have h2 : PMid cfg pid ({ p with phase := Phase.cpuPostP })
              ({ s with procs := updProc pid (fun q => { q with phase := Phase.cpuPostP }) s.procs } : Sim) := by
            refine @pmid_updProc cfg pid p s _ hpm (fun q => { q with phase := Phase.cpuPostP })
              (fun p2 => rfl) (fun p2 => rfl) (fun p2 => rfl) ?_ ?_ ?_ ?_ ?_
            · intro hA hph2
              exfalso
              simp at hph2
            · rfl
            · rfl
            · rfl
            · rfl
          refine invPS_of_pmid_coh h2 ?_
          constructor
          · show p.wHeld = wExp cfg.isAsync Phase.cpuPostP
            simp [hcoh.1, hph, wExp]
          · show p.ioHeld = ioExp Phase.cpuPostP
            simp [hcoh.2, hph, ioExp]
      | cpuPostP =>
          have hpm : PMid cfg pid p s :=
            pmid_of_invPS h hf (by simp [hph]) (by simp [hph]) (by simp [hph])
          have hw1 : p.wHeld = true := by simp [hcoh.1, hph, wExp]
          have hio1 : p.ioHeld = false := by simp [hcoh.2, hph, ioExp]
          dsimp only
          split
          · next hA =>
              refine invPS_finishSvc_of (pmid_wRelease hpm hw1) ?_ hio1
              simp [hA]
          · next hA =>
              have hA2 : cfg.isAsync = false := by
                revert hA
                cases cfg.isAsync <;> simp
              refine invPS_finishSvc_of hpm ?_ hio1
              simp [hw1, hA2]

theorem invPS_handleStartRequest {cfg : Config} {s : Sim} (h : InvPS cfg s) (pid : ℕ) :
    InvPS cfg (handleStartRequest cfg s pid) := by
  unfold handleStartRequest
  cases hf : findProc pid s.procs with
  | none => exact h
  | some p =>
      dsimp only
      split
      · exact invPS_eqCore (invPS_eqCore h rfl rfl rfl rfl) rfl rfl rfl rfl
      · exact invPS_eqCore h rfl rfl rfl rfl

theorem invPS_handleArrivalWake {cfg : Config} {s : Sim} (stream : ℕ → ℚ)
    (h : InvPS cfg s) : InvPS cfg (handleArrivalWake cfg stream s) := by
  unfold handleArrivalWake
  dsimp only [draw]
  have h1 : InvPS cfg (if cfg.workerCap + cfg.queueLimit ≤ inSystem s.procs then ({ s with nextReqId := s.nextReqId + 1, records := s.records ++ [⟨s.nextReqId + 1, s.now, s.now, 0, statusDropped⟩] } : Sim) else sched ({ s with nextReqId := s.nextReqId + 1, procs := s.procs ++ [⟨s.nextReqId + 1, s.now, 0, 0, 0, .created, false, false, false, false⟩] } : Sim) s.now 0 (.startRequest (s.nextReqId + 1))) := by
    split
    · refine ⟨⟨h.1.pidsNodup, ?_, h.1.wCap, h.1.ioCapLe, h.1.wqMem, h.1.ioqMem, h.1.wqNodup, h.1.ioqNodup, h.1.asyncPre⟩, h.2⟩
      intro p hp
      have h2 := h.1.pidsLe p hp
      show p.pid ≤ s.nextReqId + 1
      omega
    · refine ⟨⟨?_, ?_, ?_, ?_, ?_, ?_, h.1.wqNodup, h.1.ioqNodup, ?_⟩, ?_⟩
      · show ((s.procs ++ [(⟨s.nextReqId + 1, s.now, 0, 0, 0, Phase.created, false, false, false, false⟩ : Proc)]).map Proc.pid).Nodup
        rw [List.map_append, List.nodup_append]
        refine ⟨h.1.pidsNodup, ?_, ?_⟩
        · exact List.nodup_singleton _
        · intro a ha hb2
          rcases List.mem_map.mp ha with ⟨pa, hpa, rfl⟩
          simp at hb2
          have h2 := h.1.pidsLe pa hpa
          omega
      · intro p hp
        show p.pid ≤ s.nextReqId + 1
        rcases List.mem_append.mp hp with hp | hp
        · have h2 := h.1.pidsLe p hp
          omega
        · rw [List.mem_singleton] at hp
          rw [hp]
      · show (s.procs ++ [_]).countP _ ≤ _
        rw [List.countP_append]
        simpa [List.countP_cons] using h.1.wCap
      · show (s.procs ++ [_]).countP _ ≤ _
        rw [List.countP_append]
        simpa [List.countP_cons] using h.1.ioCapLe
      · intro q hq
        rcases h.1.wqMem q hq with ⟨p2, hp2, hpid2, hph2⟩
        exact ⟨p2, List.mem_append_left _ hp2, hpid2, hph2⟩
      · intro q hq
        rcases h.1.ioqMem q hq with ⟨p2, hp2, hpid2, hph2⟩
        exact ⟨p2, List.mem_append_left _ hp2, hpid2, hph2⟩
      · intro hA p hp htr
        rcases List.mem_append.mp hp with hp | hp
        · exact h.1.asyncPre hA p hp htr
        · rw [List.mem_singleton] at hp
          subst hp
          simp at htr
      · intro p hp
        rcases List.mem_append.mp hp with hp | hp
        · exact h.2 p hp
        · rw [List.mem_singleton] at hp
          subst hp
          exact ⟨rfl, rfl⟩
  refine invPS_schedDelay ?_ _ 1 _
  exact invPS_eqCore h1 rfl rfl rfl rfl

theorem invPS_dispatch {cfg : Config} {s : Sim} (stream : ℕ → ℚ) (h : InvPS cfg s) :
    ∀ k, InvPS cfg (dispatch cfg stream s k)
  | .arrivalWake => invPS_handleArrivalWake stream h
  | .startRequest pid => invPS_handleStartRequest h pid
  | .startService pid => invPS_handleStartService stream h pid
  | .svcStep pid => invPS_handleSvcStep h pid
  | .raceTimeout pid => invPS_handleRaceTimeout h pid
  | .svcDone pid => invPS_handleSvcDone h pid

theorem invPS_step {cfg : Config} {stream : ℕ → ℚ} {s s2 : Sim} (h : InvPS cfg s)
    (hs : step cfg stream s = some s2) : InvPS cfg s2 := by
  unfold step at hs
  split at hs
  · cases hs
  · split at hs
    · cases hs
    · split at hs
      · cases hs
      · cases hs
        refine invPS_dispatch stream ?_ _
        exact h

theorem invPS_run {cfg : Config} {stream : ℕ → ℚ} :
    ∀ (fuel : ℕ) (s : Sim), InvPS cfg s → InvPS cfg (run cfg stream fuel s)
  | 0, _, h => h
  | fuel + 1, s, h => by
      rw [run]
      cases hs : step cfg stream s with
      | none => exact h
      | some s2 => exact invPS_run fuel s2 (invPS_step h hs)

theorem invPS_initSim (cfg : Config) (stream : ℕ → ℚ) : InvPS cfg (initSim cfg stream) := by
  unfold initSim
  dsimp only [draw]
  refine invPS_schedDelay ?_ _ 1 _
  refine ⟨⟨List.nodup_nil, ?_, ?_, ?_, ?_, ?_, List.nodup_nil, List.nodup_nil, ?_⟩, ?_⟩
  · intro p hp
    cases hp
  · exact Nat.zero_le _
  · exact Nat.zero_le _
  · intro q hq
    cases hq
  · intro q hq
    cases hq
  · intro _ p hp
    cases hp
  · intro p hp
    cases hp

theorem invPS_simulateServer (cfg : Config) (stream : ℕ → ℚ) (fuel : ℕ) :
    InvPS cfg (simulateServer cfg stream fuel) :=
  invPS_run fuel _ (invPS_initSim cfg stream)

/-! ### Field-preservation facts used by the emission and draw-order
claims: the discipline helpers never touch the clock or the draw log. -/

theorem wRelease_now (s : Sim) (pid : ℕ) : (wRelease s pid).now = s.now := by
  unfold wRelease
  dsimp only
  split
  · rfl
  · rfl

theorem ioRelease_now (s : Sim) (pid : ℕ) : (ioRelease s pid).now = s.now := by
  unfold ioRelease
  dsimp only
  split
  · rfl
  · rfl

theorem schedDelay_draws (s : Sim) (d : Time) (pr : ℕ) (k : EvKind) :
    (schedDelay s d pr k).draws = s.draws := by
  unfold schedDelay
  split
  · rfl
  · rfl

theorem wRelease_draws (s : Sim) (pid : ℕ) : (wRelease s pid).draws = s.draws := by
  unfold wRelease
  dsimp only
  split
  · rfl
  · rfl

theorem ioRelease_draws (s : Sim) (pid : ℕ) : (ioRelease s pid).draws = s.draws := by
  unfold ioRelease
  dsimp only
  split
  · rfl
  · rfl

theorem finishSvc_draws (cfg : Config) (s : Sim) (pid : ℕ) :
    (finishSvc cfg s pid).draws = s.draws := by
  unfold finishSvc
  have h1 : (if cfg.isAsync then s else wRelease s pid).draws = s.draws := by
    split
    · rfl
    · exact wRelease_draws s pid
  generalize (if cfg.isAsync then s else wRelease s pid) = s1 at h1
  dsimp only
  split
  · exact h1
  · next p heq =>
      split
      · exact h1
      · exact h1

theorem postStage_draws (cfg : Config) (s : Sim) (pid : ℕ) :
    (postStage cfg s pid).draws = s.draws := by
  unfold postStage
  cases hf : findProc pid s.procs with
  | none => rfl
  | some p =>
      dsimp only
      split
      · split
        · split
          · exact schedDelay_draws _ _ 1 _
          · rfl
        · exact schedDelay_draws _ _ 1 _
      · exact finishSvc_draws cfg s pid

theorem ioStage_draws (cfg : Config) (s : Sim) (pid : ℕ) :
    (ioStage cfg s pid).draws = s.draws := by
  unfold ioStage
  cases hf : findProc pid s.procs with
  | none => rfl
  | some p =>
      dsimp only
      split
      · split
        · exact schedDelay_draws _ _ 1 _
        · rfl
      · exact postStage_draws cfg s pid

theorem afterWorkerPre_draws (cfg : Config) (s : Sim) (pid : ℕ) :
    (afterWorkerPre cfg s pid).draws = s.draws := by
  unfold afterWorkerPre
  cases hf : findProc pid s.procs with
  | none => rfl
  | some p =>
      dsimp only
      split
      · exact schedDelay_draws _ _ 1 _
      · exact ioStage_draws cfg s pid

theorem acquireWorkerPre_draws (cfg : Config) (s : Sim) (pid : ℕ) :
    (acquireWorkerPre cfg s pid).draws = s.draws := by
  unfold acquireWorkerPre
  split
  · exact afterWorkerPre_draws cfg _ pid
  · rfl

theorem wRelease_err (s : Sim) (pid : ℕ) : (wRelease s pid).err = s.err := by
  unfold wRelease
  dsimp only
  split
  · rfl
  · rfl

theorem ioRelease_err (s : Sim) (pid : ℕ) : (ioRelease s pid).err = s.err := by
  unfold ioRelease
  dsimp only
  split
  · rfl
  · rfl

/-- Interrupting a service process only releases slots and reschedules;
it never sets the fatal flag. -/
theorem interruptSvc_err (s : Sim) (pid : ℕ) : (interruptSvc s pid).err = s.err := by
  unfold interruptSvc
  cases hf : findProc pid s.procs with
  | none => rfl
  | some p =>
      dsimp only
      split
      · rfl
      · split
        · rw [wRelease_err]
          split
          · rw [ioRelease_err]
          · rfl
        · split
          · rw [ioRelease_err]
          · rfl

/-- Completing a request (including appending its record) never sets the
fatal flag. -/
theorem finishSvc_err (cfg : Config) (s : Sim) (pid : ℕ) :
    (finishSvc cfg s pid).err = s.err := by
  unfold finishSvc
  have h1 : (if cfg.isAsync then s else wRelease s pid).err = s.err := by
    split
    · rfl
    · exact wRelease_err s pid
  generalize (if cfg.isAsync then s else wRelease s pid) = s1 at h1
  dsimp only
  split
  · exact h1
  · next p heq =>
      split
      · exact h1
      · exact h1

/-- Timing a request out (record, interrupt and all) never sets the
fatal flag. -/
theorem handleRaceTimeout_err (cfg : Config) (s : Sim) (pid : ℕ) :
    (handleRaceTimeout cfg s pid).err = s.err := by
  unfold handleRaceTimeout
  cases hf : findProc pid s.procs with
  | none => rfl
  | some p =>
      dsimp only
      split
      · rfl
      · split
        · rw [interruptSvc_err]
          split
          · rfl
          · rfl
        · rfl

/-- One arrival iteration aborts exactly when the freshly drawn
inter-arrival delay is negative — the same condition whether the arrival
is dropped or admitted, so the drop outcome itself never aborts. -/
theorem handleArrivalWake_err (cfg : Config) (stream : ℕ → ℚ) (s : Sim) :
    (handleArrivalWake cfg stream s).err
      = if cfg.arrOf (stream s.rngIdx) < 0 then true else s.err := by
  unfold handleArrivalWake schedDelay
  dsimp only [draw, sched]
  by_cases hover : cfg.workerCap + cfg.queueLimit ≤ inSystem s.procs
  · rw [if_pos hover]
    dsimp only
    by_cases hd : cfg.arrOf (stream s.rngIdx) < 0
    · rw [if_pos hd, if_pos hd]
    · rw [if_neg hd, if_neg hd]
  · rw [if_neg hover]
    dsimp only
    by_cases hd : cfg.arrOf (stream s.rngIdx) < 0
    · rw [if_pos hd, if_pos hd]
    · rw [if_neg hd, if_neg hd]

/-- Looking up the same pid across parEq-related process lists. -/
theorem findProc_forall2 {pid : ℕ} : ∀ {l1 l2 : List Proc}, List.Forall₂ parEq l1 l2 →
    ∀ {p : Proc}, findProc pid l1 = some p →
      ∃ q, findProc pid l2 = some q ∧ parEq p q
  | _, _, List.Forall₂.nil, p, hp => by cases hp
  | _, _, List.Forall₂.cons hab t, p, hp => by
      next a b l1 l2 =>
        by_cases hc : a.pid = pid
        · rw [findProc, List.find?_cons_of_pos _ (by simp [hc])] at hp
          cases hp
          refine ⟨b, ?_, hab⟩
          rw [findProc, List.find?_cons_of_pos _ (by simp [hab.1, hc])]
        · rw [findProc, List.find?_cons_of_neg _ (by simp [hc])] at hp
          rcases findProc_forall2 t hp with ⟨q, hq, hpq⟩
          refine ⟨q, ?_, hpq⟩
          rw [findProc, List.find?_cons_of_neg _ (by simp [hab.1, hc])]
          exact hq

theorem schedDelay_records (s : Sim) (d : Time) (pr : ℕ) (k : EvKind) :
    (schedDelay s d pr k).records = s.records := by
  unfold schedDelay
  split
  · rfl
  · rfl

/-- The completion branch emits its record exactly under the warmup test
and the not-yet-recorded test, with the latency computed at the current
clock. -/
theorem finishSvc_records {cfg : Config} {s : Sim} {pid : ℕ} {p : Proc}
    (hf : findProc pid s.procs = some p) :
    (finishSvc cfg s pid).records
      = if cfg.warmupMs ≤ p.arrival ∧ p.recorded = false
        then s.records ++ [⟨p.pid, p.arrival, s.now, s.now - p.arrival, statusCompleted⟩]
        else s.records := by
  unfold finishSvc
  have hd : dEquiv s (if cfg.isAsync then s else wRelease s pid) := by
    split
    · exact dEquiv_refl s
    · exact dEquiv_wRelease s pid
  have hnow : (if cfg.isAsync then s else wRelease s pid).now = s.now := by
    split
    · rfl
    · exact wRelease_now s pid
  generalize (if cfg.isAsync then s else wRelease s pid) = s1 at hd hnow ⊢
  rcases findProc_forall2 hd.2.2 hf with ⟨p2, hf2, hpe⟩
  dsimp only
  rw [hf2]
  dsimp only
  by_cases hc : cfg.warmupMs ≤ p.arrival ∧ p.recorded = false
  · have hc2 : cfg.warmupMs ≤ p2.arrival ∧ p2.recorded = false := by
      rw [hpe.2.1, hpe.2.2]
      exact hc
    rw [if_pos hc2, if_pos hc]
    show s1.records ++ [⟨p2.pid, p2.arrival, s1.now, s1.now - p2.arrival, statusCompleted⟩]
      = s.records ++ [⟨p.pid, p.arrival, s.now, s.now - p.arrival, statusCompleted⟩]
    rw [hd.2.1, hnow, hpe.1, hpe.2.1]
  · have hc2 : ¬(cfg.warmupMs ≤ p2.arrival ∧ p2.recorded = false) := by
      rw [hpe.2.1, hpe.2.2]
      exact hc
    rw [if_neg hc2, if_neg hc]
    show s1.records = s.records
    exact hd.2.1

/-- The timeout branch emits its record exactly under the not-yet-recorded
test and the warmup test, always with latency timeout_ms. -/
theorem handleRaceTimeout_records {cfg : Config} {s : Sim} {pid : ℕ} {p : Proc}
    (hf : findProc pid s.procs = some p) (hlive : p.racerDone = false) :
    (handleRaceTimeout cfg s pid).records
      = if p.recorded = false ∧ cfg.warmupMs ≤ p.arrival
        then s.records ++ [⟨p.pid, p.arrival, s.now, cfg.timeoutMs, statusTimeout⟩]
        else s.records := by
  unfold handleRaceTimeout
  rw [hf]
  dsimp only
  rw [if_neg (by simp [hlive])]
  by_cases hr : p.recorded = false
  · rw [if_pos hr]
    by_cases hwm : cfg.warmupMs ≤ p.arrival
    · rw [if_pos hwm, if_pos ⟨hr, hwm⟩]
      show (interruptSvc ({ s with records := s.records ++ [⟨p.pid, p.arrival, s.now, cfg.timeoutMs, statusTimeout⟩] } : Sim) pid).records
        = s.records ++ [⟨p.pid, p.arrival, s.now, cfg.timeoutMs, statusTimeout⟩]
      exact (dEquiv_interruptSvc _ pid).2.1
    · rw [if_neg hwm, if_neg (fun hcc => hwm hcc.2)]
      show (interruptSvc s pid).records = s.records
      exact (dEquiv_interruptSvc s pid).2.1
  · rw [if_neg hr, if_neg (fun hcc => hr hcc.1)]

/-- The arrival loop appends the dropped record exactly on overload, with
no warmup test at all. -/
theorem handleArrivalWake_records (cfg : Config) (stream : ℕ → ℚ) (s : Sim) :
    (handleArrivalWake cfg stream s).records
      = if cfg.workerCap + cfg.queueLimit ≤ inSystem s.procs
        then s.records ++ [⟨s.nextReqId + 1, s.now, s.now, 0, statusDropped⟩]
        else s.records := by
  unfold handleArrivalWake
  dsimp only [draw]
  by_cases hover : cfg.workerCap + cfg.queueLimit ≤ inSystem s.procs
  · rw [if_pos hover, if_pos hover]
    rw [schedDelay_records]
  · rw [if_neg hover, if_neg hover]
    rw [schedDelay_records]
    rfl

/-- The racer schedules the startService Initialize event, and a timeout
timer iff timeout_ms > 0. -/
theorem handleStartRequest_events {cfg : Config} {s : Sim} {pid : ℕ} {p : Proc}
    (hf : findProc pid s.procs = some p) :
    (handleStartRequest cfg s pid).events
      = if 0 < cfg.timeoutMs
        then insertEv ⟨s.now + cfg.timeoutMs, 1, s.nextSeq + 1, .raceTimeout pid⟩
          (insertEv ⟨s.now, 0, s.nextSeq, .startService pid⟩ s.events)
        else insertEv ⟨s.now, 0, s.nextSeq, .startService pid⟩ s.events := by
  unfold handleStartRequest
  rw [hf]
  dsimp only [sched]
  split
  · rfl
  · rfl

/-- Interrupting a live service process leaves it dead with its recorded
flag untouched. -/
theorem interruptSvc_find {s : Sim} {pid : ℕ} {p : Proc}
    (hf : findProc pid s.procs = some p)
    (h1 : ¬(p.phase = Phase.doneP ∨ p.phase = Phase.deadP)) :
    ∃ q, findProc pid (interruptSvc s pid).procs = some q ∧
      q.phase = Phase.deadP ∧ q.recorded = p.recorded := by
  unfold interruptSvc
  rw [hf]
  dsimp only
  rw [if_neg h1]
  have hdA : dEquiv ({ s with wQueue := s.wQueue.filter (fun q => q ≠ pid), ioQueue := s.ioQueue.filter (fun q => q ≠ pid) } : Sim)
      (if p.ioHeld = true then ioRelease ({ s with wQueue := s.wQueue.filter (fun q => q ≠ pid), ioQueue := s.ioQueue.filter (fun q => q ≠ pid) } : Sim) pid else ({ s with wQueue := s.wQueue.filter (fun q => q ≠ pid), ioQueue := s.ioQueue.filter (fun q => q ≠ pid) } : Sim)) := by
    split
    · exact dEquiv_ioRelease _ pid
    · exact dEquiv_refl _
  have hdB : dEquiv (if p.ioHeld = true then ioRelease ({ s with wQueue := s.wQueue.filter (fun q => q ≠ pid), ioQueue := s.ioQueue.filter (fun q => q ≠ pid) } : Sim) pid else ({ s with wQueue := s.wQueue.filter (fun q => q ≠ pid), ioQueue := s.ioQueue.filter (fun q => q ≠ pid) } : Sim))
      (if p.wHeld = true then wRelease (if p.ioHeld = true then ioRelease ({ s with wQueue := s.wQueue.filter (fun q => q ≠ pid), ioQueue := s.ioQueue.filter (fun q => q ≠ pid) } : Sim) pid else ({ s with wQueue := s.wQueue.filter (fun q => q ≠ pid), ioQueue := s.ioQueue.filter (fun q => q ≠ pid) } : Sim)) pid else (if p.ioHeld = true then ioRelease ({ s with wQueue := s.wQueue.filter (fun q => q ≠ pid), ioQueue := s.ioQueue.filter (fun q => q ≠ pid) } : Sim) pid else ({ s with wQueue := s.wQueue.filter (fun q => q ≠ pid), ioQueue := s.ioQueue.filter (fun q => q ≠ pid) } : Sim))) := by
    split
    · split
      · exact dEquiv_wRelease _ pid
      · exact dEquiv_refl _
    · split
      · exact dEquiv_wRelease _ pid
      · exact dEquiv_refl _
  have hd := dEquiv_trans hdA hdB
  rcases findProc_forall2 hd.2.2 hf with ⟨q0, hq0, hpe⟩
  refine ⟨{ q0 with phase := Phase.deadP }, ?_, rfl, hpe.2.2⟩
  dsimp only
  rw [findProc_updProc2 pid pid (fun q => { q with phase := Phase.deadP }) (fun p2 => rfl) _, hq0]
  dsimp only [Option.map]
  rw [if_pos (by rw [hpe.1, (findProc_some hf).2])]

/-- When the timer wins the race against a still-live unrecorded service,
the service process ends up dead and the request marked recorded. -/
theorem handleRaceTimeout_kills {cfg : Config} {s : Sim} {pid : ℕ} {p : Proc}
    (hf : findProc pid s.procs = some p) (hlive : p.racerDone = false)
    (hnr : p.recorded = false) (hph : ¬(p.phase = Phase.doneP ∨ p.phase = Phase.deadP)) :
    ∃ q, findProc pid (handleRaceTimeout cfg s pid).procs = some q ∧
      q.phase = Phase.deadP ∧ q.recorded = true := by
  unfold handleRaceTimeout
  rw [hf]
  dsimp only
  rw [if_neg (by simp [hlive]), if_pos hnr]
  have hfa : findProc pid (if cfg.warmupMs ≤ p.arrival then ({ s with records := s.records ++ [⟨p.pid, p.arrival, s.now, cfg.timeoutMs, statusTimeout⟩] } : Sim) else s).procs = some p := by
    split
    · exact hf
    · exact hf
  rcases interruptSvc_find hfa hph with ⟨q0, hq0, hqph, hqrec⟩
  refine ⟨{ { q0 with recorded := true } with racerDone := true }, ?_, hqph, rfl⟩
  dsimp only
  rw [findProc_updProc2 pid pid (fun q => { q with racerDone := true }) (fun p2 => rfl) _]
  rw [findProc_updProc2 pid pid (fun q => { q with recorded := true }) (fun p2 => rfl) _, hq0]
  dsimp only [Option.map]
  rw [if_pos (findProc_some hq0).2, if_pos (findProc_some hq0).2]

/-- The three per-request draws of service(): cpu total, uniform split,
io wait, appended consecutively in that order, before the discipline runs
(the discipline itself never draws). -/
theorem handleStartService_draws {cfg : Config} {stream : ℕ → ℚ} {s : Sim} {pid : ℕ}
    {p : Proc} (hf : findProc pid s.procs = some p) (hph : p.phase = Phase.created) :
    (handleStartService cfg stream s pid).draws
      = ((s.draws ++ [DrawTag.cpuD pid]) ++ [DrawTag.splitD pid]) ++ [DrawTag.ioD pid] := by
  unfold handleStartService
  rw [hf]
  dsimp only [draw]
  rw [if_neg (not_not_intro hph)]
  split
  · split
    · rfl
    · split
      · exact acquireWorkerPre_draws cfg _ pid
      · exact ioStage_draws cfg _ pid
  · exact acquireWorkerPre_draws cfg _ pid

/-- With distinct record ids, no id occurs on more than one row. -/
theorem recFilter_le_one {rs : List ReqRecord}
    (h : (rs.map ReqRecord.req_id).Nodup) (n : ℕ) :
    (rs.filter fun r => r.req_id = n).length ≤ 1 := by
  induction rs with
  | nil => simp
  | cons r t ih =>
      rw [List.map_cons, List.nodup_cons] at h
      by_cases hc : r.req_id = n
      · rw [List.filter_cons_of_pos (by simp [hc])]
        have hz : (t.filter fun r2 => r2.req_id = n).length = 0 := by
          refine filter_len_zero_of ?_
          intro r2 hr2 he
          have hm : r2.req_id ∈ t.map ReqRecord.req_id := List.mem_map_of_mem _ hr2
          rw [he, ← hc] at hm
          exact h.1 hm
        rw [List.length_cons, hz]
      · rw [List.filter_cons_of_neg (by simp [hc])]
        exact ih h.2

/-- Two runs given pointwise-equal parameters and streams coincide. -/
theorem simulateServer_congr {cfg cfg2 : Config} {stream stream2 : ℕ → ℚ} (fuel : ℕ)
    (h1 : cfg.isAsync = cfg2.isAsync) (h2 : cfg.workerCap = cfg2.workerCap)
    (h3 : cfg.ioCap = cfg2.ioCap) (h4 : cfg.queueLimit = cfg2.queueLimit)
    (h5 : cfg.timeoutMs = cfg2.timeoutMs) (h6 : cfg.warmupMs = cfg2.warmupMs)
    (h7 : cfg.simTimeMs = cfg2.simTimeMs)
    (h8 : ∀ q, cfg.cpuOf q = cfg2.cpuOf q) (h9 : ∀ q, cfg.ioOf q = cfg2.ioOf q)
    (h10 : ∀ q, cfg.arrOf q = cfg2.arrOf q) (hs : ∀ n, stream n = stream2 n) :
    simulateServer cfg stream fuel = simulateServer cfg2 stream2 fuel := by
  have hcfg : cfg = cfg2 := by
    cases cfg
    cases cfg2
    simp only [Config.mk.injEq]
    exact ⟨h1, h2, h3, h4, h5, h6, h7, funext h8, funext h9, funext h10⟩
  rw [hcfg, funext hs]

theorem handleArrivalWake_draws (cfg : Config) (stream : ℕ → ℚ) (s : Sim) :
    (handleArrivalWake cfg stream s).draws = s.draws ++ [DrawTag.arrD] := by
  unfold handleArrivalWake
  dsimp only [draw]
  split
  · rw [schedDelay_draws]
  · rw [schedDelay_draws]
    rfl

/-! ### Concrete instances

Closed configurations and streams on which the scheduler's behavior is
computed exactly, for the counterexamples and witnesses below.  The
distribution transforms are plain rational functions (the samplers are
abstracted by the cpuOf/ioOf/arrOf fields). -/

def cfgA : Config := ⟨false, 1, 1, 0, 0, 0, 20, id, (fun _ => 0), id⟩

def strA : ℕ → ℚ := fun i => if i = 1 then 100 else 1

def cfgB : Config := ⟨false, 1, 1, 0, 0, 10, 20, id, (fun _ => 0), id⟩

def strC : ℕ → ℚ := fun _ => 1

def cfgD : Config := ⟨true, 1, 2, 5, 0, 0, 20, (fun _ => 0), (fun _ => 10), id⟩

def cfgE : Config := ⟨false, 1, 1, 0, 2, 0, 20, (fun _ => 5), (fun _ => 0), id⟩

def strE : ℕ → ℚ := fun i => if i = 0 then 1 else if i = 1 then 100 else 1

def cfgA2 : Config := ⟨false, 0 + 1, 1, 0, 0, 0, 10 + 10, id, (fun q => q * 0), fun q => id q⟩

def strA2 : ℕ → ℚ := fun i => if 0 + i = 1 then 100 else 1

def pDemo : Proc := ⟨1, 2, 0, 0, 0, Phase.cpuPostP, true, false, false, false⟩

def sDemo : Sim := ⟨5, 3, [], [], [], 1, [pDemo], 0, [], [], false⟩

def pNew : Proc := ⟨1, 2, 0, 0, 0, Phase.created, false, false, false, false⟩

def sNew : Sim := ⟨2, 1, [], [], [], 1, [pNew], 0, [], [], false⟩

def paramsAsyncZeroThreads : SimParams :=
  ⟨true, 5, 10, 100, 0, 1, 0, -5, 1000, -1, "exponential", "lognormal", "poisson"⟩

/-! ### The claims -/

/-- Claim C1, amended bookkeeping (the original claim is refuted by
C1_counterexample: a warmup-suppressed completion leaves an arrival with
no record at all).  What does hold: record ids stay inside the contiguous
range 1..N of issued ids, no id is recorded twice, a live request has
exactly one record precisely when it is marked recorded and arrived at or
after warmup, and every issued id is covered by a live request or a
dropped record. -/
theorem C1_request_record_bookkeeping (cfg : Config) (stream : ℕ → ℚ) (fuel : ℕ) :
    (∀ r ∈ (simulateServer cfg stream fuel).records,
      1 ≤ r.req_id ∧ r.req_id ≤ (simulateServer cfg stream fuel).nextReqId) ∧
    ((simulateServer cfg stream fuel).records.map ReqRecord.req_id).Nodup ∧
    (∀ p ∈ (simulateServer cfg stream fuel).procs,
      ((simulateServer cfg stream fuel).records.filter fun r => r.req_id = p.pid).length
        = if p.recorded = true ∧ cfg.warmupMs ≤ p.arrival then 1 else 0) ∧
    (∀ n, 1 ≤ n → n ≤ (simulateServer cfg stream fuel).nextReqId →
      (∃ p ∈ (simulateServer cfg stream fuel).procs, p.pid = n) ∨
      ∃ r ∈ (simulateServer cfg stream fuel).records,
        r.req_id = n ∧ r.status = statusDropped) := by
  have h := invDS_simulateServer cfg stream fuel
  exact ⟨h.recRange, h.recNodup, h.recCount, h.coverage⟩

unseal Rat.add Rat.sub Rat.mul Rat.inv in
/-- Claim C1, counterexample to the frozen statement: under warmup 10 the
only arrival (req_id 1, arriving at time 1) runs to completion — its
process is done and its racer finished — yet the run's records are empty,
so this arrival produced no record at all. -/
theorem C1_counterexample :
    (simulateServer cfgB strA 10).nextReqId = 1 ∧
    (simulateServer cfgB strA 10).records = [] ∧
    findProc 1 (simulateServer cfgB strA 10).procs
      = some ⟨1, 1, 1, 0, 0, Phase.doneP, false, false, false, true⟩ :=
  ⟨by decide, by decide, by decide⟩

/-- Claim C2 (confirmed): every emitted record satisfies finish ≥ arrival,
and its latency is finish − arrival when completed, timeout_ms when timed
out, and 0 when dropped. -/
theorem C2_record_latency_law (cfg : Config) (stream : ℕ → ℚ) (fuel : ℕ) :
    ∀ r ∈ (simulateServer cfg stream fuel).records,
      r.arrival_time ≤ r.finish_time ∧
      (r.status = statusCompleted → r.latency_ms = r.finish_time - r.arrival_time) ∧
      (r.status = statusTimeout → r.latency_ms = cfg.timeoutMs) ∧
      (r.status = statusDropped → r.latency_ms = 0) :=
  (invRS_simulateServer cfg stream fuel).recLaw

unseal Rat.add Rat.sub Rat.mul Rat.inv in
/-- Claim C2, witness: the latency law instantiated on the one record of a
small completed run. -/
theorem C2_record_latency_law_witness :
    (⟨1, 1, 2, 1, statusCompleted⟩ : ReqRecord).arrival_time
        ≤ (⟨1, 1, 2, 1, statusCompleted⟩ : ReqRecord).finish_time ∧
    ((⟨1, 1, 2, 1, statusCompleted⟩ : ReqRecord).status = statusCompleted →
      (⟨1, 1, 2, 1, statusCompleted⟩ : ReqRecord).latency_ms
        = (⟨1, 1, 2, 1, statusCompleted⟩ : ReqRecord).finish_time
          - (⟨1, 1, 2, 1, statusCompleted⟩ : ReqRecord).arrival_time) ∧
    ((⟨1, 1, 2, 1, statusCompleted⟩ : ReqRecord).status = statusTimeout →
      (⟨1, 1, 2, 1, statusCompleted⟩ : ReqRecord).latency_ms = cfgA.timeoutMs) ∧
    ((⟨1, 1, 2, 1, statusCompleted⟩ : ReqRecord).status = statusDropped →
      (⟨1, 1, 2, 1, statusCompleted⟩ : ReqRecord).latency_ms = 0) :=
  C2_record_latency_law cfgA strA 10 ⟨1, 1, 2, 1, statusCompleted⟩ (by decide)

/-- Claim C3 (confirmed): a completed record is appended iff the request
arrived at or after warmup and was not already recorded; a live racer's
timeout record is appended iff unrecorded and past warmup; a dropped
record is appended on overload with no warmup test at all. -/
theorem C3_warmup_gating (cfg : Config) (stream : ℕ → ℚ) (s : Sim) (pid : ℕ) (p : Proc)
    (hf : findProc pid s.procs = some p) :
    ((finishSvc cfg s pid).records
      = if cfg.warmupMs ≤ p.arrival ∧ p.recorded = false
        then s.records ++ [⟨p.pid, p.arrival, s.now, s.now - p.arrival, statusCompleted⟩]
        else s.records) ∧
    (p.racerDone = false →
      (handleRaceTimeout cfg s pid).records
        = if p.recorded = false ∧ cfg.warmupMs ≤ p.arrival
          then s.records ++ [⟨p.pid, p.arrival, s.now, cfg.timeoutMs, statusTimeout⟩]
          else s.records) ∧
    (cfg.workerCap + cfg.queueLimit ≤ inSystem s.procs →
      (handleArrivalWake cfg stream s).records
        = s.records ++ [⟨s.nextReqId + 1, s.now, s.now, 0, statusDropped⟩]) :=
  ⟨finishSvc_records hf,
   fun hl => handleRaceTimeout_records hf hl,
   fun hov => by rw [handleArrivalWake_records, if_pos hov]⟩

unseal Rat.add Rat.sub Rat.mul Rat.inv in
/-- Claim C3, witness: the gating law instantiated on a one-process state
whose request holds the worker in its cpu_post stage. -/
theorem C3_warmup_gating_witness :
    ((finishSvc cfgA sDemo 1).records
      = if cfgA.warmupMs ≤ pDemo.arrival ∧ pDemo.recorded = false
        then sDemo.records ++ [⟨pDemo.pid, pDemo.arrival, sDemo.now, sDemo.now - pDemo.arrival, statusCompleted⟩]
        else sDemo.records) ∧
    (pDemo.racerDone = false →
      (handleRaceTimeout cfgA sDemo 1).records
        = if pDemo.recorded = false ∧ cfgA.warmupMs ≤ pDemo.arrival
          then sDemo.records ++ [⟨pDemo.pid, pDemo.arrival, sDemo.now, cfgA.timeoutMs, statusTimeout⟩]
          else sDemo.records) ∧
    (cfgA.workerCap + cfgA.queueLimit ≤ inSystem sDemo.procs →
      (handleArrivalWake cfgA strA sDemo).records
        = sDemo.records ++ [⟨sDemo.nextReqId + 1, sDemo.now, sDemo.now, 0, statusDropped⟩]) :=
  C3_warmup_gating cfgA strA sDemo 1 pDemo (by decide)

/-- Claim C4 (confirmed): with timeout_ms > 0 the racer arms a timer at
now + timeout_ms next to the service Initialize event (none otherwise); a
timer firing against a live unrecorded service kills it (deadP, marked
recorded) and, past warmup, appends the timeout record with latency
timeout_ms; with timeout_ms ≤ 0 a whole run emits no timeout record; and
no request id is ever recorded twice. -/
theorem C4_timeout_race (cfg : Config) (stream : ℕ → ℚ) (fuel : ℕ) (s : Sim)
    (pid : ℕ) (p : Proc) (hf : findProc pid s.procs = some p) :
    ((handleStartRequest cfg s pid).events
      = if 0 < cfg.timeoutMs
        then insertEv ⟨s.now + cfg.timeoutMs, 1, s.nextSeq + 1, .raceTimeout pid⟩
          (insertEv ⟨s.now, 0, s.nextSeq, .startService pid⟩ s.events)
        else insertEv ⟨s.now, 0, s.nextSeq, .startService pid⟩ s.events) ∧
    (p.racerDone = false → p.recorded = false →
      ¬(p.phase = Phase.doneP ∨ p.phase = Phase.deadP) →
      ∃ q, findProc pid (handleRaceTimeout cfg s pid).procs = some q ∧
        q.phase = Phase.deadP ∧ q.recorded = true) ∧
    (p.racerDone = false → p.recorded = false → cfg.warmupMs ≤ p.arrival →
      (handleRaceTimeout cfg s pid).records
        = s.records ++ [⟨p.pid, p.arrival, s.now, cfg.timeoutMs, statusTimeout⟩]) ∧
    (cfg.timeoutMs ≤ 0 →
      ∀ r ∈ (simulateServer cfg stream fuel).records, r.status ≠ statusTimeout) ∧
    (∀ n, ((simulateServer cfg stream fuel).records.filter
        fun r => r.req_id = n).length ≤ 1) :=
  ⟨handleStartRequest_events hf,
   fun h1 h2 h3 => handleRaceTimeout_kills hf h1 h2 h3,
   fun h1 h2 h3 => by rw [handleRaceTimeout_records hf h1, if_pos ⟨h2, h3⟩],
   fun hcfg => (invFS_simulateServer cfg stream hcfg fuel).noTimeoutRec,
   fun n => recFilter_le_one (invDS_simulateServer cfg stream fuel).recNodup n⟩

unseal Rat.add Rat.sub Rat.mul Rat.inv in
/-- Claim C4, witness: the race law instantiated on a timeout
configuration and a live in-service request. -/
theorem C4_timeout_race_witness :
    ((handleStartRequest cfgE sDemo 1).events
      = if 0 < cfgE.timeoutMs
        then insertEv ⟨sDemo.now + cfgE.timeoutMs, 1, sDemo.nextSeq + 1, .raceTimeout 1⟩
          (insertEv ⟨sDemo.now, 0, sDemo.nextSeq, .startService 1⟩ sDemo.events)
        else insertEv ⟨sDemo.now, 0, sDemo.nextSeq, .startService 1⟩ sDemo.events) ∧
    (pDemo.racerDone = false → pDemo.recorded = false →
      ¬(pDemo.phase = Phase.doneP ∨ pDemo.phase = Phase.deadP) →
      ∃ q, findProc 1 (handleRaceTimeout cfgE sDemo 1).procs = some q ∧
        q.phase = Phase.deadP ∧ q.recorded = true) ∧
    (pDemo.racerDone = false → pDemo.recorded = false → cfgE.warmupMs ≤ pDemo.arrival →
      (handleRaceTimeout cfgE sDemo 1).records
        = sDemo.records ++ [⟨pDemo.pid, pDemo.arrival, sDemo.now, cfgE.timeoutMs, statusTimeout⟩]) ∧
    (cfgE.timeoutMs ≤ 0 →
      ∀ r ∈ (simulateServer cfgE strE 12).records, r.status ≠ statusTimeout) ∧
    (∀ n, ((simulateServer cfgE strE 12).records.filter
        fun r => r.req_id = n).length ≤ 1) :=
  C4_timeout_race cfgE strE 12 sDemo 1 pDemo (by decide)

unseal Rat.add Rat.sub Rat.mul Rat.inv in
/-- Claim C5 (confirmed): in sync mode a process in any io-stage phase
still holds its worker slot, in async mode it holds none, io holds are
bounded by io_limit, and concretely an async run reaches two simultaneous
io holds above its worker capacity of one. -/
theorem C5_io_worker_holding (cfg : Config) (stream : ℕ → ℚ) (fuel : ℕ) :
    (cfg.isAsync = false → ∀ p ∈ (simulateServer cfg stream fuel).procs,
      p.phase = Phase.ioWaitP ∨ p.phase = Phase.ioGrant ∨ p.phase = Phase.ioP →
        p.wHeld = true) ∧
    (cfg.isAsync = true → ∀ p ∈ (simulateServer cfg stream fuel).procs,
      p.phase = Phase.ioWaitP ∨ p.phase = Phase.ioGrant ∨ p.phase = Phase.ioP →
        p.wHeld = false) ∧
    ioCount (simulateServer cfg stream fuel).procs ≤ cfg.ioCap ∧
    cfgD.workerCap = 1 ∧ ioCount (simulateServer cfgD strC 6).procs = 2 := by
  have h := invPS_simulateServer cfg stream fuel
  refine ⟨?_, ?_, h.1.ioCapLe, rfl, by decide⟩
  · intro hA p hp hph
    have hcoh := h.2 p hp
    rcases hph with h' | h' | h' <;> simp [hcoh.1, h', hA, wExp]
  · intro hA p hp hph
    have hcoh := h.2 p hp
    rcases hph with h' | h' | h' <;> simp [hcoh.1, h', hA, wExp]

/-- Claim C6 (confirmed): both pools stay within capacity at every event
boundary, and a terminated process — completed or interrupted — holds no
slot of either pool. -/
theorem C6_pool_caps_no_leak (cfg : Config) (stream : ℕ → ℚ) (fuel : ℕ) :
    wCount (simulateServer cfg stream fuel).procs ≤ cfg.workerCap ∧
    ioCount (simulateServer cfg stream fuel).procs ≤ cfg.ioCap ∧
    (∀ p ∈ (simulateServer cfg stream fuel).procs,
      p.phase = Phase.doneP ∨ p.phase = Phase.deadP →
        p.wHeld = false ∧ p.ioHeld = false) := by
  have h := invPS_simulateServer cfg stream fuel
  refine ⟨h.1.wCap, h.1.ioCapLe, ?_⟩
  intro p hp hph
  have hcoh := h.2 p hp
  rcases hph with h' | h'
  · exact ⟨by simp [hcoh.1, h', wExp], by simp [hcoh.2, h', ioExp]⟩
  · exact ⟨by simp [hcoh.1, h', wExp], by simp [hcoh.2, h', ioExp]⟩

/-- Claim C7 (confirmed): the run is a pure function of the parameters and
the random stream — two runs whose configurations and streams agree
pointwise produce identical record sequences. -/
theorem C7_deterministic_replay (cfg cfg2 : Config) (stream stream2 : ℕ → ℚ) (fuel : ℕ)
    (h1 : cfg.isAsync = cfg2.isAsync) (h2 : cfg.workerCap = cfg2.workerCap)
    (h3 : cfg.ioCap = cfg2.ioCap) (h4 : cfg.queueLimit = cfg2.queueLimit)
    (h5 : cfg.timeoutMs = cfg2.timeoutMs) (h6 : cfg.warmupMs = cfg2.warmupMs)
    (h7 : cfg.simTimeMs = cfg2.simTimeMs)
    (h8 : ∀ q, cfg.cpuOf q = cfg2.cpuOf q) (h9 : ∀ q, cfg.ioOf q = cfg2.ioOf q)
    (h10 : ∀ q, cfg.arrOf q = cfg2.arrOf q) (hs : ∀ n, stream n = stream2 n) :
    (simulateServer cfg stream fuel).records
      = (simulateServer cfg2 stream2 fuel).records := by
  rw [simulateServer_congr fuel h1 h2 h3 h4 h5 h6 h7 h8 h9 h10 hs]

/-- Claim C7, witness: two syntactically different but pointwise-equal
configurations and streams replay the same records. -/
theorem C7_deterministic_replay_witness :
    (simulateServer cfgA strA 10).records = (simulateServer cfgA2 strA2 10).records :=
  C7_deterministic_replay cfgA cfgA2 strA strA2 10 rfl rfl rfl rfl rfl rfl
    (by norm_num [cfgA, cfgA2]) (fun q => rfl) (fun q => by simp [cfgA, cfgA2])
    (fun q => rfl) (fun n => by simp [strA, strA2])

/-- Claim C8, amended draw order (the original claim is refuted by
C8_counterexample: the next inter-arrival is drawn by the arrival loop
before the spawned request's own draws, not after them).  What does hold:
each admitted request draws cpu total, uniform split and io wait
consecutively in that order before its discipline touches any pool, and
each arrival-loop iteration appends exactly one inter-arrival draw. -/
theorem C8_amended_draw_order (cfg : Config) (stream : ℕ → ℚ) (s : Sim) (pid : ℕ)
    (p : Proc) (hf : findProc pid s.procs = some p) (hph : p.phase = Phase.created) :
    (handleStartService cfg stream s pid).draws
      = ((s.draws ++ [DrawTag.cpuD pid]) ++ [DrawTag.splitD pid]) ++ [DrawTag.ioD pid] ∧
    (handleArrivalWake cfg stream s).draws = s.draws ++ [DrawTag.arrD] :=
  ⟨handleStartService_draws hf hph, handleArrivalWake_draws cfg stream s⟩

unseal Rat.add Rat.sub Rat.mul Rat.inv in
/-- Claim C8, witness: the per-request draw block on a freshly created
request. -/
theorem C8_draw_order_witness :
    (handleStartService cfgA strC sNew 1).draws
      = ((sNew.draws ++ [DrawTag.cpuD 1]) ++ [DrawTag.splitD 1]) ++ [DrawTag.ioD 1] ∧
    (handleArrivalWake cfgA strC sNew).draws = sNew.draws ++ [DrawTag.arrD] :=
  C8_amended_draw_order cfgA strC sNew 1 pNew (by decide) (by decide)

unseal Rat.add Rat.sub Rat.mul Rat.inv in
/-- Claim C8, counterexample to the frozen statement: in a run with two
arrivals the draw log starts with two inter-arrival draws and only then
request 1's cpu draw, so the next inter-arrival is drawn before — not
after — the request's cpu, split and io draws. -/
theorem C8_counterexample :
    (simulateServer cfgA strC 3).draws
      = [DrawTag.arrD, DrawTag.arrD, DrawTag.cpuD 1, DrawTag.splitD 1, DrawTag.ioD 1] ∧
    ((simulateServer cfgA strC 3).draws.takeWhile
        fun t => t ≠ DrawTag.cpuD 1).count DrawTag.arrD = 2 :=
  ⟨by decide, by decide⟩

/-- Claim C9, amended validation (the original claim is refuted by
C9_counterexample: in async mode a non-positive thread_count is accepted
because the worker pool is built on 1, and a negative timeout and warmup
are never examined).  What does hold: setup — everything before the
first event is handled — fails exactly when the effective worker
capacity (1 in async mode, thread_count otherwise) is non-positive,
io_limit is non-positive, a distribution name is unknown, a lognormal
service distribution is given a non-positive mean (math.log at sampler
construction), or sim_time_ms is non-positive (env.run's until-check);
and the workload-outcome handlers never set the fatal flag: a timeout
firing and a service completion preserve it, and an arrival iteration
aborts exactly when the drawn inter-arrival delay is negative,
regardless of whether the arrival was dropped or admitted. -/
theorem C9_setup_validation (p : SimParams) (cfg : Config) (stream : ℕ → ℚ)
    (s : Sim) (pid : ℕ) :
    ((∃ caps, setupSim p = Except.ok caps) ↔
      ((p.isAsync = true ∨ 0 < p.thread_count) ∧ 0 < p.io_limit ∧
        timeDistKnown p.cpu_dist = true ∧
        ¬(p.cpu_dist = "lognormal" ∧ p.cpu_mean_ms ≤ 0) ∧
        timeDistKnown p.io_dist = true ∧
        ¬(p.io_dist = "lognormal" ∧ p.io_mean_ms ≤ 0) ∧
        arrivalDistKnown p.arrival_dist = true ∧
        0 < p.sim_time_ms)) ∧
    (handleRaceTimeout cfg s pid).err = s.err ∧
    (finishSvc cfg s pid).err = s.err ∧
    (handleArrivalWake cfg stream s).err
      = (if cfg.arrOf (stream s.rngIdx) < 0 then true else s.err) := by
  refine ⟨?_, handleRaceTimeout_err cfg s pid, finishSvc_err cfg s pid,
    handleArrivalWake_err cfg stream s⟩
  unfold setupSim
  have hnt : ((if p.isAsync = true then (1 : ℤ) else p.thread_count) ≤ 0)
      ↔ ¬(p.isAsync = true ∨ 0 < p.thread_count) := by
    by_cases hA : p.isAsync = true
    · rw [if_pos hA]
      constructor
      · intro h0
        omega
      · intro hcc
        exact absurd (Or.inl hA) hcc
    · rw [if_neg hA]
      constructor
      · intro h0 hcc
        rcases hcc with hcc | hcc
        · exact hA hcc
        · omega
      · intro hcc
        by_contra h0
        exact hcc (Or.inr (by omega))
  by_cases h1 : (if p.isAsync = true then (1 : ℤ) else p.thread_count) ≤ 0
  · rw [if_pos h1]
    constructor
    · rintro ⟨c, hc⟩
      cases hc
    · intro hcond
      exact absurd hcond.1 (hnt.mp h1)
  · rw [if_neg h1]
    have hnt2 : p.isAsync = true ∨ 0 < p.thread_count := by
      by_contra hcc
      exact h1 (hnt.mpr hcc)
    by_cases h2 : p.io_limit ≤ 0
    · rw [if_pos h2]
      refine ⟨fun h => ?_, fun hcond => absurd hcond.2.1 (by omega)⟩
      rcases h with ⟨c, hc⟩
      cases hc
    · rw [if_neg h2]
      by_cases h3 : timeDistKnown p.cpu_dist = true
      · rw [if_neg (not_not_intro h3)]
        by_cases h3b : p.cpu_dist = "lognormal" ∧ p.cpu_mean_ms ≤ 0
        · rw [if_pos h3b]
          refine ⟨fun h => ?_, fun hcond => absurd h3b hcond.2.2.2.1⟩
          rcases h with ⟨c, hc⟩
          cases hc
        · rw [if_neg h3b]
          by_cases h4 : timeDistKnown p.io_dist = true
          · rw [if_neg (not_not_intro h4)]
            by_cases h4b : p.io_dist = "lognormal" ∧ p.io_mean_ms ≤ 0
            · rw [if_pos h4b]
              refine ⟨fun h => ?_, fun hcond => absurd h4b hcond.2.2.2.2.2.1⟩
              rcases h with ⟨c, hc⟩
              cases hc
            · rw [if_neg h4b]
              by_cases h5 : arrivalDistKnown p.arrival_dist = true
              · rw [if_neg (not_not_intro h5)]
                by_cases h6 : p.sim_time_ms ≤ 0
                · rw [if_pos h6]
                  refine ⟨fun h => ?_,
                    fun hcond => absurd hcond.2.2.2.2.2.2.2 (not_lt.mpr h6)⟩
                  rcases h with ⟨c, hc⟩
                  cases hc
                · rw [if_neg h6]
                  exact ⟨fun _ => ⟨hnt2, by omega, h3, h3b, h4, h4b, h5, not_le.mp h6⟩,
                    fun _ => ⟨_, rfl⟩⟩
              · rw [if_pos h5]
                refine ⟨fun h => ?_, fun hcond => absurd hcond.2.2.2.2.2.2.1 h5⟩
                rcases h with ⟨c, hc⟩
                cases hc
          · rw [if_pos h4]
            refine ⟨fun h => ?_, fun hcond => absurd hcond.2.2.2.2.1 h4⟩
            rcases h with ⟨c, hc⟩
            cases hc
      · rw [if_pos h3]
        refine ⟨fun h => ?_, fun hcond => absurd hcond.2.2.1 h3⟩
        rcases h with ⟨c, hc⟩
        cases hc

/-- Claim C9, counterexample to the frozen statement: an async
configuration with thread_count = 0, a negative timeout and a negative
warmup passes setup and returns capacities, instead of failing fast. -/
theorem C9_counterexample :
    setupSim paramsAsyncZeroThreads = Except.ok (1, 1) ∧
    paramsAsyncZeroThreads.thread_count ≤ 0 ∧
    paramsAsyncZeroThreads.timeout_ms < 0 ∧
    paramsAsyncZeroThreads.warmup_ms < 0 :=
  ⟨rfl, by decide, by decide, by decide⟩

/-- Claim C10 (confirmed): records are appended in virtual-time order, so
the finish_time column never decreases along the record sequence. -/
theorem C10_finish_time_monotone (cfg : Config) (stream : ℕ → ℚ) (fuel : ℕ) :
    (simulateServer cfg stream fuel).records.Pairwise
      fun a b => a.finish_time ≤ b.finish_time :=
  (invRS_simulateServer cfg stream fuel).recSorted

end Simweb
